import Mathlib

/-!
Verification of the model/field declaration engine of the `a38` package
(Italian Fattura Elettronica schema-and-serialization framework).

The development shallowly embeds the core of `a38/models.py`, `a38/fields.py`,
`a38/validation.py` and the `FullNameMixin` of `a38/fattura.py` into Lean:
pure Python functions become Lean functions over an explicit value universe,
fallible code returns `Except`, and the process-wide counter of
`ProgressivoInvioField` becomes explicit state passing.

The file is organised as: numeric/text rendering helpers, the field/schema
universe, the embedded operations (clean, construct, serialize, deserialize,
equality, validation), and the theorems settling the specification claims.
-/

namespace A38

/-! ### Decimal digit rendering and parsing

Python renders integers with `str` and parses them with `int`; dates and
datetimes use zero-padded fixed-width fields.  We model both directions and
prove that parsing is a left inverse of rendering on canonical output. -/

def digitChar (d : Nat) : Char := Char.ofNat (48 + d)

def charVal (c : Char) : Nat := c.toNat - 48

def isDig (c : Char) : Bool := 48 ≤ c.toNat && c.toNat ≤ 57

theorem charVal_digitChar {d : Nat} (h : d < 10) : charVal (digitChar d) = d := by
  interval_cases d <;> decide

theorem isDig_digitChar {d : Nat} (h : d < 10) : isDig (digitChar d) = true := by
  interval_cases d <;> decide

/-- Most-significant-first digits of `n`, empty when `n = 0`; `fuel`
bounds the recursion and must be at least `n`. -/
def natDigits : Nat → Nat → List Char
  | 0, _ => []
  | fuel+1, n => if n = 0 then [] else natDigits fuel (n / 10) ++ [digitChar (n % 10)]

/-- Rendering of a natural number as `str` does in Python. -/
def renderNat (n : Nat) : List Char :=
  if n = 0 then [digitChar 0] else natDigits n n

def digitsVal (cs : List Char) : Nat :=
  cs.foldl (fun a c => a * 10 + charVal c) 0

theorem foldl_digits_append (a : Nat) (xs ys : List Char) :
    (xs ++ ys).foldl (fun a c => a * 10 + charVal c) a
      = ys.foldl (fun a c => a * 10 + charVal c) (xs.foldl (fun a c => a * 10 + charVal c) a) :=
  List.foldl_append ..

theorem natDigits_zero (fuel : Nat) : natDigits fuel 0 = [] := by
  cases fuel <;> simp [natDigits]

theorem natDigits_sound (fuel : Nat) : ∀ n a, 0 < n → n ≤ fuel →
    (natDigits fuel n).foldl (fun a c => a * 10 + charVal c) a
      = a * 10 ^ (natDigits fuel n).length + n := by
  induction fuel with
  | zero => intro n a h0 h; omega
  | succ fuel ih =>
    intro n a h0 h
    have h0' : ¬ n = 0 := by omega
    have hlt : n % 10 < 10 := Nat.mod_lt _ (by omega)
    simp only [natDigits, h0', if_false]
    rw [foldl_digits_append]
    by_cases hq : n / 10 = 0
    · have hn : n < 10 := by omega
      simp [hq, natDigits_zero, List.foldl, charVal_digitChar hlt]
      omega
    · have hdiv : n / 10 ≤ fuel := by
        have h2 : n / 10 < n := Nat.div_lt_self (by omega) (by omega)
        omega
      rw [ih (n / 10) a (by omega) hdiv]
      simp only [List.foldl, List.length_append, List.length_cons, List.length_nil]
      rw [charVal_digitChar hlt, pow_succ]
      have hassoc : a * (10 ^ (natDigits fuel (n / 10)).length * 10)
          = a * 10 ^ (natDigits fuel (n / 10)).length * 10 := by ring
      rw [hassoc]
      generalize a * 10 ^ (natDigits fuel (n / 10)).length = X
      omega

theorem natDigits_all_dig (fuel : Nat) : ∀ n, n ≤ fuel →
    ∀ c ∈ natDigits fuel n, isDig c = true := by
  induction fuel with
  | zero => intro n h c hc; interval_cases n; simp [natDigits] at hc
  | succ fuel ih =>
    intro n h c hc
    by_cases h0 : n = 0
    · simp [natDigits, h0] at hc
    · simp only [natDigits, h0, if_false, List.mem_append, List.mem_singleton] at hc
      rcases hc with hc | hc
      · exact ih (n / 10) (by
          have h2 : n / 10 < n := Nat.div_lt_self (Nat.pos_of_ne_zero h0) (by omega)
          omega) c hc
      · subst hc; exact isDig_digitChar (Nat.mod_lt _ (by omega))

theorem natDigits_ne_nil (fuel n : Nat) (h0 : 0 < n) (h : n ≤ fuel) :
    natDigits fuel n ≠ [] := by
  cases fuel with
  | zero => omega
  | succ fuel =>
    have h0' : ¬ n = 0 := by omega
    simp [natDigits, h0']

theorem renderNat_all_dig (n : Nat) : ∀ c ∈ renderNat n, isDig c = true := by
  intro c hc
  by_cases h0 : n = 0
  · simp [renderNat, h0] at hc; subst hc; decide
  · simp only [renderNat, h0, if_false] at hc
    exact natDigits_all_dig n n (le_refl n) c hc

theorem renderNat_ne_nil (n : Nat) : renderNat n ≠ [] := by
  by_cases h0 : n = 0
  · simp [renderNat, h0]
  · simp only [renderNat, h0, if_false]
    exact natDigits_ne_nil n n (Nat.pos_of_ne_zero h0) (le_refl n)

theorem digitsVal_renderNat (n : Nat) : digitsVal (renderNat n) = n := by
  by_cases h0 : n = 0
  · subst h0; decide
  · simp only [renderNat, digitsVal, h0, if_false]
    rw [natDigits_sound n n 0 (by omega) (le_refl n)]
    simp

/-- Zero-padded fixed-width digits, most significant first, as `strftime`
zero-padding produces; `n` is taken modulo `10 ^ w` by the width. -/
def padDigits : Nat → Nat → List Char
  | 0, _ => []
  | w+1, n => digitChar (n / 10 ^ w) :: padDigits w (n % 10 ^ w)

theorem padDigits_length (w n : Nat) : (padDigits w n).length = w := by
  induction w generalizing n with
  | zero => simp [padDigits]
  | succ w ih => simp [padDigits, ih]

theorem padDigits_all_dig (w : Nat) : ∀ n, n < 10 ^ w →
    ∀ c ∈ padDigits w n, isDig c = true := by
  induction w with
  | zero => intro n h c hc; simp [padDigits] at hc
  | succ w ih =>
    intro n h c hc
    simp only [padDigits, List.mem_cons] at hc
    rcases hc with hc | hc
    · subst hc
      apply isDig_digitChar
      have := Nat.pow_succ 10 w
      exact Nat.div_lt_of_lt_mul (by omega)
    · exact ih (n % 10 ^ w) (Nat.mod_lt _ (Nat.pos_pow_of_pos w (by omega))) c hc

theorem foldl_padDigits (w : Nat) : ∀ n a, n < 10 ^ w →
    (padDigits w n).foldl (fun a c => a * 10 + charVal c) a = a * 10 ^ w + n := by
  induction w with
  | zero => intro n a h; interval_cases n; simp [padDigits]
  | succ w ih =>
    intro n a h
    have hq : n / 10 ^ w < 10 := by
      have := Nat.pow_succ 10 w
      exact Nat.div_lt_of_lt_mul (by omega)
    have hm : n % 10 ^ w < 10 ^ w := Nat.mod_lt _ (Nat.pos_pow_of_pos w (by omega))
    simp only [padDigits, List.foldl]
    rw [charVal_digitChar hq, ih (n % 10 ^ w) _ hm]
    have hdm := Nat.div_add_mod n (10 ^ w)
    have hp : 10 ^ (w + 1) = 10 ^ w * 10 := pow_succ 10 w
    nlinarith [Nat.div_add_mod n (10 ^ w)]

theorem digitsVal_padDigits (w n : Nat) (h : n < 10 ^ w) :
    digitsVal (padDigits w n) = n := by
  unfold digitsVal; rw [foldl_padDigits w n 0 h]; simp

/-! ### Parsing primitives over character lists -/

/-- Consume exactly `w` decimal digits, accumulating their value. -/
def parseFixedAux : Nat → Nat → List Char → Option (Nat × List Char)
  | 0, a, cs => some (a, cs)
  | w+1, a, c :: cs => if isDig c then parseFixedAux w (a * 10 + charVal c) cs else none
  | _+1, _, [] => none

def parseFixed (w : Nat) (cs : List Char) : Option (Nat × List Char) :=
  parseFixedAux w 0 cs

theorem parseFixedAux_pad (w : Nat) : ∀ n a rest, n < 10 ^ w →
    parseFixedAux w a (padDigits w n ++ rest) = some (a * 10 ^ w + n, rest) := by
  induction w with
  | zero => intro n a rest h; interval_cases n; simp [padDigits, parseFixedAux]
  | succ w ih =>
    intro n a rest h
    have hq : n / 10 ^ w < 10 := by
      have := Nat.pow_succ 10 w
      exact Nat.div_lt_of_lt_mul (by omega)
    have hm : n % 10 ^ w < 10 ^ w := Nat.mod_lt _ (Nat.pos_pow_of_pos w (by omega))
    simp only [padDigits, List.cons_append, List.append_eq, parseFixedAux,
      isDig_digitChar hq, if_true]
    rw [charVal_digitChar hq, ih (n % 10 ^ w) _ rest hm]
    have hdm := Nat.div_add_mod n (10 ^ w)
    have hp : 10 ^ (w + 1) = 10 ^ w * 10 := pow_succ 10 w
    congr 2
    nlinarith [Nat.div_add_mod n (10 ^ w)]

theorem parseFixed_pad (w n : Nat) (rest : List Char) (h : n < 10 ^ w) :
    parseFixed w (padDigits w n ++ rest) = some (n, rest) := by
  unfold parseFixed; rw [parseFixedAux_pad w n 0 rest h]; simp

/-- Consume one or two decimal digits (model of the `\d{1,2}` regex pieces). -/
def parse12 : List Char → Option (Nat × List Char)
  | [] => none
  | [c] => if isDig c then some (charVal c, []) else none
  | c1 :: c2 :: cs =>
    if isDig c1 then
      if isDig c2 then some (charVal c1 * 10 + charVal c2, cs)
      else some (charVal c1, c2 :: cs)
    else none

theorem parse12_pad (n : Nat) (rest : List Char) (h : n < 100) :
    parse12 (padDigits 2 n ++ rest) = some (n, rest) := by
  have h1 : n / 10 < 10 := by omega
  have h2 : n % 10 < 10 := by omega
  have e : padDigits 2 n ++ rest = digitChar (n / 10) :: digitChar (n % 10) :: rest := by
    norm_num [padDigits]
  rw [e]
  simp [parse12, isDig_digitChar h1, isDig_digitChar h2,
    charVal_digitChar h1, charVal_digitChar h2]
  omega

def expectChar (c : Char) : List Char → Option (List Char)
  | x :: cs => if x = c then some cs else none
  | [] => none

theorem expectChar_cons (c : Char) (rest : List Char) :
    expectChar c (c :: rest) = some rest := by
  simp [expectChar]

/-- Greedy split of the leading run of digits. -/
def takeDigits (cs : List Char) : List Char × List Char :=
  (cs.takeWhile isDig, cs.dropWhile isDig)

def headNotDig : List Char → Prop
  | [] => True
  | c :: _ => isDig c = false

theorem takeDigits_append (xs rest : List Char) (hx : ∀ c ∈ xs, isDig c = true)
    (hr : headNotDig rest) : takeDigits (xs ++ rest) = (xs, rest) := by
  induction xs with
  | nil =>
    cases rest with
    | nil => simp [takeDigits]
    | cons c cs =>
      simp only [headNotDig] at hr
      simp [takeDigits, List.takeWhile, List.dropWhile, hr]
  | cons x xs ih =>
    have hx0 : isDig x = true := hx x (by simp)
    have ihx : ∀ c ∈ xs, isDig c = true := fun c hc => hx c (by simp [hc])
    have := ih ihx
    simp only [takeDigits, Prod.mk.injEq] at this
    simp [takeDigits, List.takeWhile, List.dropWhile, hx0, this.1, this.2]

/-! ### Integers: `str` rendering and `int` parsing -/

def renderInt (i : Int) : List Char :=
  if i < 0 then '-' :: renderNat i.natAbs else renderNat i.natAbs

/-- Model of Python `int(s)`: an optional sign followed by decimal digits.
(The real `int` additionally strips whitespace and underscores; the model is
only exercised on canonical rendered output.) -/
def parseNatAll (cs : List Char) : Option Nat :=
  if cs.isEmpty then none
  else if cs.all isDig then some (digitsVal cs) else none

def parseIntAll (cs : List Char) : Option Int :=
  match cs with
  | [] => none
  | c :: rest =>
    if c = '-' then (parseNatAll rest).map (fun n => -(n : Int))
    else if c = '+' then (parseNatAll rest).map (fun n => (n : Int))
    else (parseNatAll (c :: rest)).map (fun n => (n : Int))

theorem parseNatAll_renderNat (n : Nat) : parseNatAll (renderNat n) = some n := by
  cases he : renderNat n with
  | nil => exact absurd he (renderNat_ne_nil n)
  | cons c cs =>
    have hdig : ((c :: cs).all isDig) = true := by
      rw [← he, List.all_eq_true]
      intro x hx; exact renderNat_all_dig n x hx
    have hred : parseNatAll (c :: cs) = some (digitsVal (c :: cs)) := by
      simp [parseNatAll, List.isEmpty, hdig]
    rw [hred, ← he, digitsVal_renderNat]

theorem isDig_ne_sign {c : Char} (h : isDig c = true) : c ≠ '-' ∧ c ≠ '+' := by
  constructor <;> rintro rfl <;> simp [isDig] at h

theorem parseIntAll_renderInt (i : Int) : parseIntAll (renderInt i) = some i := by
  by_cases hneg : i < 0
  · have hstep : parseIntAll ('-' :: renderNat i.natAbs)
        = (parseNatAll (renderNat i.natAbs)).map (fun n => -(n : Int)) := by
      simp [parseIntAll]
    rw [renderInt, if_pos hneg, hstep, parseNatAll_renderNat]
    have hval : (-(i.natAbs : Int)) = i := by omega
    show some (-(i.natAbs : Int)) = some i
    rw [hval]
  · rw [renderInt, if_neg hneg]
    cases he : renderNat i.natAbs with
    | nil => exact absurd he (renderNat_ne_nil _)
    | cons c rest =>
      have hc : isDig c = true := by
        apply renderNat_all_dig i.natAbs
        rw [he]; simp
      obtain ⟨h1, h2⟩ := isDig_ne_sign hc
      have hstep : parseIntAll (c :: rest)
          = (parseNatAll (c :: rest)).map (fun n => (n : Int)) := by
        simp [parseIntAll, h1, h2]
      rw [hstep, ← he, parseNatAll_renderNat]
      have hval : ((i.natAbs : Int)) = i := by omega
      show some ((i.natAbs : Int)) = some i
      rw [hval]

/-! ### Decimals

Python `Decimal` values are modelled as a mantissa and a non-negative scale:
the pair `(m, s)` denotes `m / 10 ^ s`.  `DecimalField.to_str` quantizes to
the field's number of decimals with `ROUND_HALF_EVEN` (the `decimal` module
default) and renders without exponent notation; `Decimal(str)` is modelled
for plain `[sign] digits [. digits]` literals, which covers everything the
serializer emits. -/

/-- Round `n / b` to the nearest integer, ties to even (`ROUND_HALF_EVEN`). -/
def roundHalfEvenNat (n b : Nat) : Nat :=
  let q := n / b
  let r := n % b
  if 2 * r < b then q
  else if b < 2 * r then q + 1
  else if q % 2 = 0 then q else q + 1

/-- Quantize mantissa `m` from scale `s` to scale `t` as `Decimal.quantize`
with `ROUND_HALF_EVEN` does. -/
def quantizeMantissa (m : Int) (s t : Nat) : Int :=
  if s ≤ t then m * 10 ^ (t - s)
  else
    let n := roundHalfEvenNat m.natAbs (10 ^ (s - t))
    if m < 0 then -(n : Int) else (n : Int)

theorem quantizeMantissa_self (m : Int) (s : Nat) : quantizeMantissa m s s = m := by
  simp [quantizeMantissa]

/-- Canonical rendering of the decimal `(m, s)`, as `str(Decimal)` renders
fixed-scale values.  (For tiny magnitudes Python switches to exponent
notation; the serializer only renders quantized fixed-scale values, which we
render in positional notation uniformly.) -/
def renderDecRaw (m : Int) (s : Nat) : List Char :=
  (if m < 0 then ['-'] else []) ++
  (if s = 0 then renderNat m.natAbs
   else renderNat (m.natAbs / 10 ^ s) ++ '.' :: padDigits s (m.natAbs % 10 ^ s))

/-- Unsigned part of the `Decimal(str)` literal grammar: digits with an
optional fractional part.  Returns the scaled value and the scale. -/
def parseUnsignedDecParts (ds rest : List Char) : Option (Nat × Nat) :=
  match rest with
  | [] => if ds.isEmpty then none else some (digitsVal ds, 0)
  | '.' :: fs =>
    if fs.all isDig && !(ds.isEmpty && fs.isEmpty) then
      some (digitsVal ds * 10 ^ fs.length + digitsVal fs, fs.length)
    else none
  | _ => none

def parseUnsignedDec (cs : List Char) : Option (Nat × Nat) :=
  parseUnsignedDecParts (cs.takeWhile isDig) (cs.dropWhile isDig)

/-- Model of `Decimal(str)` on plain decimal literals. -/
def parseDecList (cs : List Char) : Option (Int × Nat) :=
  match cs with
  | [] => none
  | c :: rest =>
    if c = '-' then (parseUnsignedDec rest).map (fun p => (-(p.1 : Int), p.2))
    else if c = '+' then (parseUnsignedDec rest).map (fun p => ((p.1 : Int), p.2))
    else (parseUnsignedDec (c :: rest)).map (fun p => ((p.1 : Int), p.2))

theorem takeWhile_renderNat (n : Nat) (rest : List Char) (hr : headNotDig rest) :
    (renderNat n ++ rest).takeWhile isDig = renderNat n := by
  have := takeDigits_append (renderNat n) rest (renderNat_all_dig n) hr
  simpa [takeDigits] using congrArg Prod.fst this

theorem dropWhile_renderNat (n : Nat) (rest : List Char) (hr : headNotDig rest) :
    (renderNat n ++ rest).dropWhile isDig = rest := by
  have := takeDigits_append (renderNat n) rest (renderNat_all_dig n) hr
  simpa [takeDigits] using congrArg Prod.snd this

theorem renderNat_not_isEmpty (n : Nat) : (renderNat n).isEmpty = false := by
  cases he : renderNat n with
  | nil => exact absurd he (renderNat_ne_nil n)
  | cons c cs => simp [List.isEmpty]

theorem parseUnsignedDec_int (a : Nat) :
    parseUnsignedDec (renderNat a) = some (a, 0) := by
  have hd : (renderNat a ++ []).dropWhile isDig = [] :=
    dropWhile_renderNat a [] (by simp [headNotDig])
  have ht : (renderNat a ++ []).takeWhile isDig = renderNat a :=
    takeWhile_renderNat a [] (by simp [headNotDig])
  rw [List.append_nil] at hd ht
  unfold parseUnsignedDec
  rw [ht, hd]
  simp [parseUnsignedDecParts, renderNat_not_isEmpty, digitsVal_renderNat]

theorem parseUnsignedDec_frac (a b s : Nat) (hb : b < 10 ^ s) :
    parseUnsignedDec (renderNat a ++ '.' :: padDigits s b)
      = some (a * 10 ^ s + b, s) := by
  have hdot : headNotDig ('.' :: padDigits s b) := by simp [headNotDig, isDig]
  have hd := dropWhile_renderNat a ('.' :: padDigits s b) hdot
  have ht := takeWhile_renderNat a ('.' :: padDigits s b) hdot
  have hfs : (padDigits s b).all isDig = true := by
    rw [List.all_eq_true]
    intro x hx; exact padDigits_all_dig s b hb x hx
  unfold parseUnsignedDec
  rw [ht, hd]
  simp [parseUnsignedDecParts, hfs, renderNat_not_isEmpty,
    digitsVal_renderNat, digitsVal_padDigits s b hb, padDigits_length]

theorem parseDecList_digit_head (c : Char) (rest : List Char) (hc : isDig c = true) :
    parseDecList (c :: rest)
      = (parseUnsignedDec (c :: rest)).map (fun p => ((p.1 : Int), p.2)) := by
  obtain ⟨h1, h2⟩ := isDig_ne_sign hc
  simp [parseDecList, h1, h2]

theorem parseDecList_renderNat_prefix (a : Nat) (tail : List Char) :
    parseDecList (renderNat a ++ tail)
      = (parseUnsignedDec (renderNat a ++ tail)).map (fun p => ((p.1 : Int), p.2)) := by
  cases he : renderNat a with
  | nil => exact absurd he (renderNat_ne_nil a)
  | cons c cs =>
    have hc : isDig c = true := by
      apply renderNat_all_dig a; rw [he]; simp
    exact parseDecList_digit_head c (cs ++ tail) hc

theorem parseDecList_renderDecRaw (m : Int) (s : Nat) :
    parseDecList (renderDecRaw m s) = some (m, s) := by
  have hmod : m.natAbs % 10 ^ s < 10 ^ s :=
    Nat.mod_lt _ (Nat.pos_pow_of_pos s (by omega))
  by_cases hneg : m < 0
  · by_cases hs : s = 0
    · subst hs
      have he : renderDecRaw m 0 = '-' :: renderNat m.natAbs := by
        simp [renderDecRaw, hneg]
      rw [he]
      have hstep : parseDecList ('-' :: renderNat m.natAbs)
          = (parseUnsignedDec (renderNat m.natAbs)).map (fun p => (-(p.1 : Int), p.2)) := by
        simp [parseDecList]
      rw [hstep, parseUnsignedDec_int]
      show some (-(m.natAbs : Int), 0) = some (m, 0)
      have : (-(m.natAbs : Int)) = m := by omega
      rw [this]
    · have he : renderDecRaw m s
          = '-' :: (renderNat (m.natAbs / 10 ^ s) ++ '.' :: padDigits s (m.natAbs % 10 ^ s)) := by
        simp [renderDecRaw, hneg, hs]
      rw [he]
      have hstep : parseDecList ('-' :: (renderNat (m.natAbs / 10 ^ s) ++ '.' :: padDigits s (m.natAbs % 10 ^ s)))
          = (parseUnsignedDec (renderNat (m.natAbs / 10 ^ s) ++ '.' :: padDigits s (m.natAbs % 10 ^ s))).map
              (fun p => (-(p.1 : Int), p.2)) := by
        simp [parseDecList]
      rw [hstep, parseUnsignedDec_frac _ _ _ hmod]
      show some (-((m.natAbs / 10 ^ s * 10 ^ s + m.natAbs % 10 ^ s : Nat) : Int), s) = some (m, s)
      have hdm := Nat.div_add_mod m.natAbs (10 ^ s)
      have : (-((m.natAbs / 10 ^ s * 10 ^ s + m.natAbs % 10 ^ s : Nat) : Int)) = m := by
        rw [Nat.mul_comm (10 ^ s) (m.natAbs / 10 ^ s)] at hdm
        rw [hdm]; omega
      rw [this]
  · by_cases hs : s = 0
    · subst hs
      have he : renderDecRaw m 0 = renderNat m.natAbs ++ [] := by
        simp [renderDecRaw, hneg]
      rw [he, parseDecList_renderNat_prefix, List.append_nil, parseUnsignedDec_int]
      show some ((m.natAbs : Int), 0) = some (m, 0)
      have : ((m.natAbs : Int)) = m := by omega
      rw [this]
    · have he : renderDecRaw m s
          = renderNat (m.natAbs / 10 ^ s) ++ '.' :: padDigits s (m.natAbs % 10 ^ s) := by
        simp [renderDecRaw, hneg, hs]
      rw [he, parseDecList_renderNat_prefix, parseUnsignedDec_frac _ _ _ hmod]
      show some (((m.natAbs / 10 ^ s * 10 ^ s + m.natAbs % 10 ^ s : Nat) : Int), s) = some (m, s)
      have hdm := Nat.div_add_mod m.natAbs (10 ^ s)
      have : (((m.natAbs / 10 ^ s * 10 ^ s + m.natAbs % 10 ^ s : Nat) : Int)) = m := by
        rw [Nat.mul_comm (10 ^ s) (m.natAbs / 10 ^ s)] at hdm
        rw [hdm]; omega
      rw [this]

/-! ### Dates and datetimes

Python `datetime.date` and `datetime.datetime` become plain structures with
explicit validity predicates (the Python constructors enforce the ranges at
construction time, so every reachable value satisfies them).  The timezone is
an offset in minutes east of UTC; `none` models a naive datetime. -/

structure PyDate where
  y : Nat
  mo : Nat
  d : Nat
deriving DecidableEq, Repr

structure PyDateTime where
  y : Nat
  mo : Nat
  d : Nat
  h : Nat
  mi : Nat
  s : Nat
  us : Nat
  tz : Option Int
deriving DecidableEq, Repr

def isLeap (y : Nat) : Bool := (y % 4 = 0 && y % 100 ≠ 0) || y % 400 = 0

def daysInMonth (y mo : Nat) : Nat :=
  if mo = 2 then (if isLeap y then 29 else 28)
  else if mo = 4 ∨ mo = 6 ∨ mo = 9 ∨ mo = 11 then 30
  else 31

def dateOK (x : PyDate) : Bool :=
  1 ≤ x.y && x.y ≤ 9999 && 1 ≤ x.mo && x.mo ≤ 12 && 1 ≤ x.d && x.d ≤ daysInMonth x.y x.mo

def dtOK (x : PyDateTime) : Bool :=
  dateOK ⟨x.y, x.mo, x.d⟩ && x.h < 24 && x.mi < 60 && x.s < 60 && x.us < 1000000 &&
    (match x.tz with
     | none => true
     | some o => o.natAbs < 1440)

/-- Rendering as `date.strftime` with format `%Y-%m-%d`. -/
def renderDate (x : PyDate) : List Char :=
  padDigits 4 x.y ++ '-' :: (padDigits 2 x.mo ++ '-' :: padDigits 2 x.d)

/-- Model of `DateField.clean_value` string handling: the prefix regex
`^\s*(\d{4}-\d{1,2}-\d{1,2})` followed by `strptime`, whose underlying
`date` constructor validates the ranges.  Trailing input is ignored because
the regex only anchors at the start. -/
def parseDateList (cs : List Char) : Option PyDate :=
  (parseFixed 4 (cs.dropWhile (fun c => c = ' '))).bind fun p1 =>
  (expectChar '-' p1.2).bind fun r2 =>
  (parse12 r2).bind fun p2 =>
  (expectChar '-' p2.2).bind fun r3 =>
  (parse12 r3).bind fun p3 =>
  if dateOK ⟨p1.1, p2.1, p3.1⟩ then some ⟨p1.1, p2.1, p3.1⟩ else none

theorem dropWhile_space_digit (c : Char) (cs : List Char) (h : isDig c = true) :
    (c :: cs).dropWhile (fun x => x = ' ') = c :: cs := by
  have hne : ¬ (c = ' ') := by
    intro hc; subst hc; simp [isDig] at h
  simp [List.dropWhile, hne]

theorem daysInMonth_le (y mo : Nat) : daysInMonth y mo ≤ 31 := by
  unfold daysInMonth
  split
  · split <;> omega
  · split <;> omega

theorem parseDate_renderDate (x : PyDate) (hok : dateOK x = true) :
    parseDateList (renderDate x) = some x := by
  have hb : 1 ≤ x.y ∧ x.y ≤ 9999 ∧ 1 ≤ x.mo ∧ x.mo ≤ 12 ∧ 1 ≤ x.d ∧ x.d ≤ 31 := by
    have h31 := daysInMonth_le x.y x.mo
    simp only [dateOK, Bool.and_eq_true, decide_eq_true_eq] at hok
    omega
  have hy : x.y < 10 ^ 4 := by omega
  have hyq : x.y / 10 ^ 3 < 10 := by omega
  have e : renderDate x
      = digitChar (x.y / 10 ^ 3)
        :: (padDigits 3 (x.y % 10 ^ 3) ++ '-' :: (padDigits 2 x.mo ++ '-' :: padDigits 2 x.d)) := by
    simp [renderDate, padDigits]
  unfold parseDateList
  rw [e, dropWhile_space_digit _ _ (isDig_digitChar hyq), ← e]
  rw [show renderDate x = padDigits 4 x.y ++ '-' :: (padDigits 2 x.mo ++ '-' :: padDigits 2 x.d) from rfl]
  rw [parseFixed_pad 4 x.y _ hy, Option.some_bind']
  rw [expectChar_cons, Option.some_bind']
  rw [parse12_pad x.mo _ (by omega), Option.some_bind']
  rw [expectChar_cons, Option.some_bind']
  rw [← List.append_nil (padDigits 2 x.d), parse12_pad x.d [] (by omega), Option.some_bind']
  simp [hok]

/-- Timezone suffix of `datetime.isoformat`: sign, hours, colon, minutes;
empty for a naive datetime. -/
def tzChars : Option Int → List Char
  | none => []
  | some o =>
    (if o < 0 then '-' else '+')
      :: (padDigits 2 (o.natAbs / 60) ++ ':' :: padDigits 2 (o.natAbs % 60))

/-- Model of the timezone tail accepted by `dateutil.isoparse`. -/
def parseTzTail : List Char → Option (Option Int)
  | [] => some none
  | c :: rest =>
    if c = 'Z' then (if rest.isEmpty then some (some 0) else none)
    else if c = '+' then
      (parseFixed 2 rest).bind fun p1 =>
      (expectChar ':' p1.2).bind fun r2 =>
      (parseFixed 2 r2).bind fun p2 =>
      if p2.2.isEmpty then some (some ((p1.1 * 60 + p2.1 : Nat) : Int)) else none
    else if c = '-' then
      (parseFixed 2 rest).bind fun p1 =>
      (expectChar ':' p1.2).bind fun r2 =>
      (parseFixed 2 r2).bind fun p2 =>
      if p2.2.isEmpty then some (some (-((p1.1 * 60 + p2.1 : Nat) : Int))) else none
    else none

theorem parseTzTail_tzChars (tz : Option Int)
    (hb : match tz with | none => True | some o => o.natAbs < 1440) :
    parseTzTail (tzChars tz) = some tz := by
  cases tz with
  | none => rfl
  | some o =>
    have hbo : o.natAbs < 1440 := hb
    generalize hn : o.natAbs = n at hbo
    by_cases hneg : o < 0
    · have he : tzChars (some o)
          = '-' :: (padDigits 2 (n / 60) ++ ':' :: padDigits 2 (n % 60)) := by
        simp [tzChars, hneg, hn]
      have hp1 : parseFixed 2 (padDigits 2 (n / 60) ++ ':' :: padDigits 2 (n % 60))
          = some (n / 60, ':' :: padDigits 2 (n % 60)) :=
        parseFixed_pad 2 _ _ (by omega)
      have hp2 : parseFixed 2 (padDigits 2 (n % 60))
          = some (n % 60, []) := by
        simpa using parseFixed_pad 2 (n % 60) [] (by omega)
      rw [he]
      simp [parseTzTail, hp1, hp2, expectChar_cons]
      omega
    · have he : tzChars (some o)
          = '+' :: (padDigits 2 (n / 60) ++ ':' :: padDigits 2 (n % 60)) := by
        simp [tzChars, hneg, hn]
      have hp1 : parseFixed 2 (padDigits 2 (n / 60) ++ ':' :: padDigits 2 (n % 60))
          = some (n / 60, ':' :: padDigits 2 (n % 60)) :=
        parseFixed_pad 2 _ _ (by omega)
      have hp2 : parseFixed 2 (padDigits 2 (n % 60))
          = some (n % 60, []) := by
        simpa using parseFixed_pad 2 (n % 60) [] (by omega)
      rw [he]
      simp [parseTzTail, hp1, hp2, expectChar_cons]
      omega

/-- Microsecond suffix of `isoformat` plus timezone suffix. -/
def fracTzChars (us : Nat) (tz : Option Int) : List Char :=
  if us = 0 then tzChars tz else '.' :: (padDigits 6 us ++ tzChars tz)

def parseFracTz : List Char → Option (Nat × Option Int)
  | [] => some (0, none)
  | c :: rest =>
    if c = '.' then
      (parseFixed 6 rest).bind fun p =>
      (parseTzTail p.2).bind fun tz => some (p.1, tz)
    else
      (parseTzTail (c :: rest)).bind fun tz => some (0, tz)

theorem parseFracTz_render (us : Nat) (tz : Option Int) (hus : us < 1000000)
    (hb : match tz with | none => True | some o => o.natAbs < 1440) :
    parseFracTz (fracTzChars us tz) = some (us, tz) := by
  by_cases h0 : us = 0
  · subst h0
    rw [fracTzChars, if_pos rfl]
    cases htz : tzChars tz with
    | nil =>
      cases tz with
      | none => rfl
      | some o => simp [tzChars] at htz
    | cons c cs =>
      have hc : ¬ (c = '.') := by
        cases tz with
        | none => simp [tzChars] at htz
        | some o =>
          simp only [tzChars] at htz
          intro hcon
          subst hcon
          by_cases hneg : o < 0 <;> simp [hneg] at htz
      simp only [parseFracTz]
      rw [if_neg hc, ← htz, parseTzTail_tzChars tz hb, Option.some_bind']
  · have he : fracTzChars us tz = '.' :: (padDigits 6 us ++ tzChars tz) := by
      simp [fracTzChars, h0]
    rw [he]
    simp only [parseFracTz, if_true, if_false]
    rw [parseFixed_pad 6 _ _ (by norm_num; omega), Option.some_bind']
    rw [parseTzTail_tzChars tz hb, Option.some_bind']

/-- Rendering as `datetime.isoformat()`. -/
def renderDT (x : PyDateTime) : List Char :=
  padDigits 4 x.y ++ '-' :: (padDigits 2 x.mo ++ '-' :: (padDigits 2 x.d
    ++ 'T' :: (padDigits 2 x.h ++ ':' :: (padDigits 2 x.mi ++ ':' :: (padDigits 2 x.s
    ++ fracTzChars x.us x.tz)))))

/-- Model of `dateutil.isoparse` restricted to the isoformat grammar the
serializer emits (plus the bare-date form). -/
def parseDTList (cs : List Char) : Option PyDateTime :=
  (parseFixed 4 cs).bind fun p1 =>
  (expectChar '-' p1.2).bind fun r2 =>
  (parseFixed 2 r2).bind fun p2 =>
  (expectChar '-' p2.2).bind fun r3 =>
  (parseFixed 2 r3).bind fun p3 =>
  match p3.2 with
  | [] =>
    if dtOK ⟨p1.1, p2.1, p3.1, 0, 0, 0, 0, none⟩ then
      some ⟨p1.1, p2.1, p3.1, 0, 0, 0, 0, none⟩
    else none
  | c :: rest =>
    if c = 'T' then
      (parseFixed 2 rest).bind fun p4 =>
      (expectChar ':' p4.2).bind fun r5 =>
      (parseFixed 2 r5).bind fun p5 =>
      (expectChar ':' p5.2).bind fun r6 =>
      (parseFixed 2 r6).bind fun p6 =>
      (parseFracTz p6.2).bind fun pf =>
      if dtOK ⟨p1.1, p2.1, p3.1, p4.1, p5.1, p6.1, pf.1, pf.2⟩ then
        some ⟨p1.1, p2.1, p3.1, p4.1, p5.1, p6.1, pf.1, pf.2⟩
      else none
    else none

theorem parseDT_renderDT (x : PyDateTime) (hok : dtOK x = true) :
    parseDTList (renderDT x) = some x := by
  have hb : 1 ≤ x.y ∧ x.y ≤ 9999 ∧ 1 ≤ x.mo ∧ x.mo ≤ 12 ∧ 1 ≤ x.d ∧ x.d ≤ 31
      ∧ x.h < 24 ∧ x.mi < 60 ∧ x.s < 60 ∧ x.us < 1000000 := by
    have h31 := daysInMonth_le x.y x.mo
    simp only [dtOK, dateOK, Bool.and_eq_true, decide_eq_true_eq] at hok
    omega
  have htzb : match x.tz with | none => True | some o => o.natAbs < 1440 := by
    simp only [dtOK, Bool.and_eq_true] at hok
    have := hok.2
    cases htz : x.tz with
    | none => trivial
    | some o =>
      rw [htz] at this
      simpa using this
  unfold parseDTList renderDT
  rw [parseFixed_pad 4 _ _ (by omega), Option.some_bind']
  rw [expectChar_cons, Option.some_bind']
  rw [parseFixed_pad 2 _ _ (by omega), Option.some_bind']
  rw [expectChar_cons, Option.some_bind']
  rw [parseFixed_pad 2 _ _ (by omega), Option.some_bind']
  show (if ('T' : Char) = 'T' then _ else _) = _
  rw [if_pos (show ('T' : Char) = 'T' from rfl)]
  rw [parseFixed_pad 2 _ _ (by omega), Option.some_bind']
  rw [expectChar_cons, Option.some_bind']
  rw [parseFixed_pad 2 _ _ (by omega), Option.some_bind']
  rw [expectChar_cons, Option.some_bind']
  rw [parseFixed_pad 2 _ _ (by omega), Option.some_bind']
  rw [parseFracTz_render x.us x.tz (by omega) htzb, Option.some_bind']
  simp only []
  rw [if_pos (show dtOK ⟨x.y, x.mo, x.d, x.h, x.mi, x.s, x.us, x.tz⟩ = true from hok)]

/-! ### Base64

`Base64BinaryField` stores raw bytes and converts to/from base64 text at the
serialization boundary (`base64.b64encode` / `base64.b64decode`).  Bytes are
`Fin 256`, matching the invariant of the Python `bytes` type. -/

abbrev Byte := Fin 256

def b64chars : List Char :=
  "ABCDEFGHIJKLMNOPQRSTUVWXYZabcdefghijklmnopqrstuvwxyz0123456789+/".toList

def b64Char (n : Nat) : Char := b64chars.getD n 'A'

def b64Idx (c : Char) : Option (Fin 64) :=
  match b64chars.findIdx? (fun x => x = c) with
  | none => none
  | some n => if h : n < 64 then some ⟨n, h⟩ else none

theorem b64Idx_b64Char : ∀ s : Fin 64, b64Idx (b64Char s.val) = some s := by
  decide

theorem b64Char_ne_eq : ∀ s : Fin 64, (b64Char s.val = '=') = False := by
  decide

def b64encodeList : List Byte → List Char
  | [] => []
  | [a] => [b64Char (a.val / 4), b64Char (a.val % 4 * 16), '=', '=']
  | [a, b] => [b64Char (a.val / 4), b64Char (a.val % 4 * 16 + b.val / 16),
      b64Char (b.val % 16 * 4), '=']
  | a :: b :: c :: rest =>
    b64Char (a.val / 4) :: b64Char (a.val % 4 * 16 + b.val / 16)
      :: b64Char (b.val % 16 * 4 + c.val / 64) :: b64Char (c.val % 64)
      :: b64encodeList rest

/-- Strict base64 decoder; `base64.b64decode` additionally discards
non-alphabet characters before decoding, which the canonical output never
contains. -/
def b64decodeList : List Char → Option (List Byte)
  | [] => some []
  | c1 :: c2 :: c3 :: c4 :: rest =>
    (b64Idx c1).bind fun s1 =>
    (b64Idx c2).bind fun s2 =>
    if c3 = '=' then
      if c4 = '=' ∧ rest = [] then
        some [⟨s1.val * 4 + s2.val / 16, by omega⟩]
      else none
    else
      (b64Idx c3).bind fun s3 =>
      if c4 = '=' then
        if rest = [] then
          some [⟨s1.val * 4 + s2.val / 16, by omega⟩,
                ⟨s2.val % 16 * 16 + s3.val / 4, by omega⟩]
        else none
      else
        (b64Idx c4).bind fun s4 =>
        (b64decodeList rest).bind fun bs =>
        some (⟨s1.val * 4 + s2.val / 16, by omega⟩
          :: ⟨s2.val % 16 * 16 + s3.val / 4, by omega⟩
          :: ⟨s3.val % 4 * 64 + s4.val, by omega⟩ :: bs)
  | _ => none

theorem b64_decode_encode (bs : List Byte) :
    b64decodeList (b64encodeList bs) = some bs := by
  match bs with
  | [] => rfl
  | [a] =>
    obtain ⟨av, ha⟩ := a
    have h1 : av / 4 < 64 := by omega
    have h2 : av % 4 * 16 < 64 := by omega
    have e1 := b64Idx_b64Char ⟨av / 4, h1⟩
    have e2 := b64Idx_b64Char ⟨av % 4 * 16, h2⟩
    have hv1 : av / 4 * 4 + (av % 4 * 16) / 16 = av := by omega
    simp [b64encodeList, b64decodeList, e1, e2, hv1]
    all_goals omega
  | [a, b] =>
    obtain ⟨av, ha⟩ := a
    obtain ⟨bv, hbv⟩ := b
    have h1 : av / 4 < 64 := by omega
    have h2 : av % 4 * 16 + bv / 16 < 64 := by omega
    have h3 : bv % 16 * 4 < 64 := by omega
    have e1 := b64Idx_b64Char ⟨av / 4, h1⟩
    have e2 := b64Idx_b64Char ⟨av % 4 * 16 + bv / 16, h2⟩
    have e3 := b64Idx_b64Char ⟨bv % 16 * 4, h3⟩
    have hne := b64Char_ne_eq ⟨bv % 16 * 4, h3⟩
    have hv1 : av / 4 * 4 + (av % 4 * 16 + bv / 16) / 16 = av := by omega
    have hv2 : (av % 4 * 16 + bv / 16) % 16 * 16 + (bv % 16 * 4) / 4 = bv := by omega
    simp [b64encodeList, b64decodeList, e1, e2, e3, hne, hv1, hv2]
    all_goals omega
  | a :: b :: c :: rest =>
    obtain ⟨av, ha⟩ := a
    obtain ⟨bv, hbv⟩ := b
    obtain ⟨cv, hcv⟩ := c
    have h1 : av / 4 < 64 := by omega
    have h2 : av % 4 * 16 + bv / 16 < 64 := by omega
    have h3 : bv % 16 * 4 + cv / 64 < 64 := by omega
    have h4 : cv % 64 < 64 := by omega
    have e1 := b64Idx_b64Char ⟨av / 4, h1⟩
    have e2 := b64Idx_b64Char ⟨av % 4 * 16 + bv / 16, h2⟩
    have e3 := b64Idx_b64Char ⟨bv % 16 * 4 + cv / 64, h3⟩
    have e4 := b64Idx_b64Char ⟨cv % 64, h4⟩
    have hne3 := b64Char_ne_eq ⟨bv % 16 * 4 + cv / 64, h3⟩
    have hne4 := b64Char_ne_eq ⟨cv % 64, h4⟩
    have ih := b64_decode_encode rest
    have hv1 : av / 4 * 4 + (av % 4 * 16 + bv / 16) / 16 = av := by omega
    have hv2 : (av % 4 * 16 + bv / 16) % 16 * 16 + (bv % 16 * 4 + cv / 64) / 4 = bv := by
      omega
    have hv3 : (bv % 16 * 4 + cv / 64) % 4 * 64 + cv % 64 = cv := by omega
    simp [b64encodeList, b64decodeList, e1, e2, e3, e4, hne3, hne4, ih, hv1, hv2, hv3]


/-! ### The field/schema universe

`a38/fields.py` declares the field hierarchy and `a38/models.py` the model
machinery.  Fields become an inductive type (one constructor per concrete
field class), a model class becomes its ordered `Schema` (the `_meta` mapping
built by `ModelMetaclass`) together with its XML tag, and a model instance
becomes the ordered list of its stored field values.  Strings are `List Char`
throughout.  Field defaults are scalar literal values (`SVal`), which covers
every default used by the package.  `choices`, `xmlns` and the length bounds
only affect `validate`, which the claims below do not quantify over, so they
are omitted from the field data. -/

/-- Scalar literal values usable as field defaults. -/
inductive SVal where
  | none
  | str (s : List Char)
  | int (n : Int)
  | dec (m : Int) (sc : Nat)
  | date (d : PyDate)
  | dt (x : PyDateTime)
  | bytes (bs : List Byte)
deriving DecidableEq, Repr

/-- Python exception classes raised by the embedded code paths. -/
inductive PyErr where
  | typeError
  | valueError
  | runtimeError
  | overflowError
deriving DecidableEq, Repr

abbrev Res (α : Type) := Except PyErr α

theorem res_bind_ok {α β : Type} (a : α) (f : α → Res β) :
    (Except.ok a : Res α) >>= f = f a := rfl

theorem res_bind_err {α β : Type} (e : PyErr) (f : α → Res β) :
    (Except.error e : Res α) >>= f = Except.error e := rfl

theorem res_map_ok {α β : Type} (a : α) (f : α → β) :
    (Except.ok a : Res α).map f = Except.ok (f a) := rfl

theorem res_map_err {α β : Type} (e : PyErr) (f : α → β) :
    (Except.error e : Res α).map f = Except.error e := rfl

mutual
/-- One constructor per concrete field class of `a38.fields`.  Each carries
the `xmltag` override, the `null` flag and the `default` of `Field.__init__`;
model-valued fields carry the model class tag (`Model.get_xmltag`) and its
schema. -/
inductive Field where
  | fStr (tag : Option (List Char)) (null : Bool) (dflt : SVal)
  | fInt (tag : Option (List Char)) (null : Bool) (dflt : SVal)
  | fDec (tag : Option (List Char)) (null : Bool) (dflt : SVal) (decimals : Nat)
  | fDate (tag : Option (List Char)) (null : Bool) (dflt : SVal)
  | fDT (tag : Option (List Char)) (null : Bool) (dflt : SVal)
  | fBytes (tag : Option (List Char)) (null : Bool) (dflt : SVal)
  | fNotImpl (tag : Option (List Char)) (null : Bool)
  | fList (tag : Option (List Char)) (null : Bool) (dflt : SVal) (inner : Field) (minNum : Nat)
  | fModel (tag : Option (List Char)) (null : Bool) (dflt : SVal) (mtag : List Char) (sub : Schema)
  | fModelList (tag : Option (List Char)) (null : Bool) (dflt : SVal) (mtag : List Char)
      (sub : Schema) (minNum : Nat)
deriving DecidableEq

/-- The ordered `_meta` mapping of a model class. -/
inductive Schema where
  | nil
  | cons (name : List Char) (f : Field) (rest : Schema)
deriving DecidableEq
end

mutual
/-- Python values flowing through the field machinery. -/
inductive PValue where
  | vnone
  | vstr (s : List Char)
  | vint (n : Int)
  | vdec (m : Int) (sc : Nat)
  | vdate (d : PyDate)
  | vdt (x : PyDateTime)
  | vbytes (bs : List Byte)
  | vlist (xs : PValues)
  | vmodel (s : Schema) (vs : PValues)
deriving DecidableEq

inductive PValues where
  | nil
  | cons (v : PValue) (rest : PValues)
deriving DecidableEq
end

def svalToP : SVal → PValue
  | SVal.none => PValue.vnone
  | SVal.str s => PValue.vstr s
  | SVal.int n => PValue.vint n
  | SVal.dec m sc => PValue.vdec m sc
  | SVal.date d => PValue.vdate d
  | SVal.dt x => PValue.vdt x
  | SVal.bytes bs => PValue.vbytes bs

namespace PValues

def toList : PValues → List PValue
  | nil => []
  | cons v rest => v :: toList rest

def ofList : List PValue → PValues
  | [] => nil
  | v :: rest => cons v (ofList rest)

def len : PValues → Nat
  | nil => 0
  | cons _ rest => 1 + len rest

end PValues

theorem PValues.toList_ofList (xs : List PValue) : (PValues.ofList xs).toList = xs := by
  induction xs with
  | nil => rfl
  | cons x xs ih => simp [PValues.ofList, PValues.toList, ih]

def schemaNames : Schema → List (List Char)
  | Schema.nil => []
  | Schema.cons name _ rest => name :: schemaNames rest

/-- Attribute lookup on an instance (`getattr(value, name, None)`). -/
def getattrP : Schema → PValues → List Char → PValue
  | Schema.cons n _ rest, PValues.cons v vs, name =>
    if n = name then v else getattrP rest vs name
  | _, _, _ => PValue.vnone

/-- Keyword arguments for `Model.clean_value`: one entry per field of the
target schema, read off the source instance by name. -/
def kwFrom (target : Schema) (src : Schema) (vs : PValues) : List (List Char × PValue) :=
  (schemaNames target).map (fun n => (n, getattrP src vs n))

def lookupKw (kw : List (List Char × PValue)) (name : List Char) : PValue :=
  match kw.find? (fun p => p.1 = name) with
  | some p => p.2
  | none => PValue.vnone

/-- PascalCase tag derivation `to_xmltag` (`"".join(x.title() for x in
name.split("_"))`). -/
def titleChunk : List Char → List Char
  | [] => []
  | c :: rest => c.toUpper :: rest.map Char.toLower

def splitUnderscore (cs : List Char) : List (List Char) :=
  List.splitOnP (fun c => c = '_') cs

def toXmltagName (name : List Char) : List Char :=
  ((splitUnderscore name).map titleChunk).flatten

/-- Resolved XML tag of a field (`Field.get_xmltag` and the overrides of
`ModelField`/`ModelListField`; namespaces are not modelled). -/
def resolvedTag (name : List Char) : Field → List Char
  | Field.fStr (some t) _ _ => t
  | Field.fInt (some t) _ _ => t
  | Field.fDec (some t) _ _ _ => t
  | Field.fDate (some t) _ _ => t
  | Field.fDT (some t) _ _ => t
  | Field.fBytes (some t) _ _ => t
  | Field.fNotImpl (some t) _ => t
  | Field.fList (some t) _ _ _ _ => t
  | Field.fModel (some t) _ _ _ _ => t
  | Field.fModelList (some t) _ _ _ _ _ => t
  | Field.fModel Option.none _ _ mtag _ => mtag
  | Field.fModelList Option.none _ _ mtag _ _ => mtag
  | _ => toXmltagName name

def fieldDefault : Field → SVal
  | Field.fStr _ _ d => d
  | Field.fInt _ _ d => d
  | Field.fDec _ _ d _ => d
  | Field.fDate _ _ d => d
  | Field.fDT _ _ d => d
  | Field.fBytes _ _ d => d
  | Field.fNotImpl _ _ => SVal.none
  | Field.fList _ _ d _ _ => d
  | Field.fModel _ _ d _ _ => d
  | Field.fModelList _ _ d _ _ _ => d

def fieldNull : Field → Bool
  | Field.fStr _ n _ => n
  | Field.fInt _ n _ => n
  | Field.fDec _ n _ _ => n
  | Field.fDate _ n _ => n
  | Field.fDT _ n _ => n
  | Field.fBytes _ n _ => n
  | Field.fNotImpl _ n => n
  | Field.fList _ n _ _ _ => n
  | Field.fModel _ n _ _ _ => n
  | Field.fModelList _ n _ _ _ _ => n

def multivalue : Field → Bool
  | Field.fList _ _ _ _ _ => true
  | Field.fModelList _ _ _ _ _ _ => true
  | _ => false


/-! ### has_value -/

mutual
/-- `Field.has_value` and its overrides.  The base test is `value is not
None`; list/model fields recurse.  Values that a list/model field could not
have produced by cleaning are treated as having no value. -/
def hasValueField : Field → PValue → Bool
  | Field.fList _ _ _ inner _, PValue.vlist xs => anyInnerHas inner xs
  | Field.fList _ _ _ _ _, _ => false
  | Field.fModel _ _ _ _ _, PValue.vmodel s vs => hasValueModel s vs
  | Field.fModel _ _ _ _ _, _ => false
  | Field.fModelList _ _ _ _ _ _, PValue.vlist xs => anySelfHas xs
  | Field.fModelList _ _ _ _ _ _, _ => false
  | _, v => v ≠ PValue.vnone

def anyInnerHas : Field → PValues → Bool
  | _, PValues.nil => false
  | inner, PValues.cons x xs => hasValueField inner x || anyInnerHas inner xs

/-- `Model.has_value`: true iff some field value has a value. -/
def hasValueModel : Schema → PValues → Bool
  | Schema.cons _ f rest, PValues.cons v vs => hasValueField f v || hasValueModel rest vs
  | _, _ => false

def anySelfHas : PValues → Bool
  | PValues.nil => false
  | PValues.cons (PValue.vmodel s vs) xs => hasValueModel s vs || anySelfHas xs
  | PValues.cons _ xs => anySelfHas xs
end

/-- `value.has_value()` on a value expected to be a model instance. -/
def selfHasValue : PValue → Bool
  | PValue.vmodel s vs => hasValueModel s vs
  | _ => false

/-! ### str and repr

Rough models of `str`/`repr` for the corner where `StringField.clean_value`
is applied to a non-string: class names are not part of the embedding, so
model instances render with the fixed name `Model`.  No claim depends on the
exact text produced here. -/

def hexChar (d : Nat) : Char := if d < 10 then digitChar d else Char.ofNat (87 + d)

def byteReprChars (b : Byte) : List Char :=
  if 32 ≤ b.val ∧ b.val < 127 ∧ b.val ≠ 39 ∧ b.val ≠ 92 then [Char.ofNat b.val]
  else ['\\', 'x', hexChar (b.val / 16), hexChar (b.val % 16)]

def bytesRepr (bs : List Byte) : List Char :=
  'b' :: '\'' :: (bs.map byteReprChars).flatten ++ ['\'']

/-- `str(datetime)` uses a space separator instead of `T`. -/
def renderDTSpace (x : PyDateTime) : List Char :=
  padDigits 4 x.y ++ '-' :: (padDigits 2 x.mo ++ '-' :: (padDigits 2 x.d
    ++ ' ' :: (padDigits 2 x.h ++ ':' :: (padDigits 2 x.mi ++ ':' :: (padDigits 2 x.s
    ++ fracTzChars x.us x.tz)))))

mutual
def pyStr : PValue → List Char
  | PValue.vnone => ['N', 'o', 'n', 'e']
  | PValue.vstr s => s
  | PValue.vint n => renderInt n
  | PValue.vdec m sc => renderDecRaw m sc
  | PValue.vdate d => renderDate d
  | PValue.vdt x => renderDTSpace x
  | PValue.vbytes bs => bytesRepr bs
  | PValue.vlist xs => '[' :: pyReprVals xs ++ [']']
  | PValue.vmodel _ vs => 'M' :: 'o' :: 'd' :: 'e' :: 'l' :: '(' :: pyReprVals vs ++ [')']

def pyRepr : PValue → List Char
  | PValue.vstr s => '\'' :: s ++ ['\'']
  | v => pyStr v

def pyReprVals : PValues → List Char
  | PValues.nil => []
  | PValues.cons v PValues.nil => pyRepr v
  | PValues.cons v rest => pyRepr v ++ ',' :: ' ' :: pyReprVals rest
end


/-! ### Per-kind scalar cleaning (`clean_value` of each scalar field class)

Each function receives the field default and the raw value; the shared
base-class step (`None` becomes the default) happens first, mirroring the
`super().clean_value(value)` calls. -/

def applyDefault (d : SVal) (v : PValue) : PValue :=
  if v = PValue.vnone then svalToP d else v

/-- `StringField.clean_value`: `str(value)` on non-`None` input. -/
def strClean (d : SVal) (v : PValue) : Res PValue :=
  match applyDefault d v with
  | PValue.vnone => Except.ok PValue.vnone
  | v0 => Except.ok (PValue.vstr (pyStr v0))

def tzRomeOffset : Int := 60

/-- `IntegerField.clean_value`: `int(value)`.  `int` accepts integers
(identity), numeric strings and bytes, and truncates `Decimal`s; everything
else raises `TypeError`. -/
def intClean (d : SVal) (v : PValue) : Res PValue :=
  match applyDefault d v with
  | PValue.vnone => Except.ok PValue.vnone
  | PValue.vint n => Except.ok (PValue.vint n)
  | PValue.vstr s =>
    (match parseIntAll s with
     | some n => Except.ok (PValue.vint n)
     | Option.none => Except.error PyErr.valueError)
  | PValue.vbytes bs =>
    (match parseIntAll (bs.map (fun b => Char.ofNat b.val)) with
     | some n => Except.ok (PValue.vint n)
     | Option.none => Except.error PyErr.valueError)
  | PValue.vdec m sc =>
    Except.ok (PValue.vint (if m < 0 then -((m.natAbs / 10 ^ sc : Nat) : Int)
      else ((m.natAbs / 10 ^ sc : Nat) : Int)))
  | _ => Except.error PyErr.typeError

/-- `DecimalField.clean_value`: `Decimal(value)`, with conversion failures
re-raised as `TypeError`. -/
def decClean (d : SVal) (v : PValue) : Res PValue :=
  match applyDefault d v with
  | PValue.vnone => Except.ok PValue.vnone
  | PValue.vdec m sc => Except.ok (PValue.vdec m sc)
  | PValue.vint n => Except.ok (PValue.vdec n 0)
  | PValue.vstr s =>
    (match parseDecList s with
     | some p => Except.ok (PValue.vdec p.1 p.2)
     | Option.none => Except.error PyErr.typeError)
  | _ => Except.error PyErr.typeError

/-- `DateField.clean_value`. -/
def dateClean (d : SVal) (v : PValue) : Res PValue :=
  match applyDefault d v with
  | PValue.vnone => Except.ok PValue.vnone
  | PValue.vstr s =>
    (match parseDateList s with
     | some dd => Except.ok (PValue.vdate dd)
     | Option.none => Except.error PyErr.valueError)
  | PValue.vdt x => Except.ok (PValue.vdate ⟨x.y, x.mo, x.d⟩)
  | PValue.vdate dd => Except.ok (PValue.vdate dd)
  | _ => Except.error PyErr.typeError

/-- `DateTimeField.clean_value`; naive datetimes are localized to the Rome
timezone, modelled as a fixed offset because no claim depends on the
DST-dependent value. -/
def dtClean (d : SVal) (v : PValue) : Res PValue :=
  match applyDefault d v with
  | PValue.vnone => Except.ok PValue.vnone
  | PValue.vstr s =>
    (match parseDTList s with
     | some x =>
       Except.ok (PValue.vdt (match x.tz with
         | some _ => x
         | Option.none => { x with tz := some tzRomeOffset }))
     | Option.none => Except.error PyErr.valueError)
  | PValue.vdt x =>
    Except.ok (PValue.vdt (match x.tz with
      | some _ => x
      | Option.none => { x with tz := some tzRomeOffset }))
  | PValue.vdate dd =>
    Except.ok (PValue.vdt ⟨dd.y, dd.mo, dd.d, 0, 0, 0, 0, some tzRomeOffset⟩)
  | _ => Except.error PyErr.typeError

/-- `Base64BinaryField.clean_value`. -/
def bytesClean (d : SVal) (v : PValue) : Res PValue :=
  match applyDefault d v with
  | PValue.vnone => Except.ok PValue.vnone
  | PValue.vbytes bs => Except.ok (PValue.vbytes bs)
  | PValue.vstr s =>
    (match b64decodeList s with
     | some bs => Except.ok (PValue.vbytes bs)
     | Option.none => Except.error PyErr.valueError)
  | _ => Except.error PyErr.typeError

/-- `to_str` of the scalar field kinds, as used on already-cleaned values by
the XML serializer (`DecimalField.to_str` quantizes to the field's number of
decimals). -/
def fieldToStr : Field → PValue → List Char
  | Field.fDec _ _ _ dcm, PValue.vdec m sc => renderDecRaw (quantizeMantissa m sc dcm) dcm
  | Field.fDate _ _ _, PValue.vdate dd => renderDate dd
  | Field.fDT _ _ _, PValue.vdt x => renderDT x
  | Field.fBytes _ _ _, PValue.vbytes bs => b64encodeList bs
  | _, v => pyStr v


/-! ### Cleaning and construction

`cleanField` is `Field.clean_value` with its overrides, `initModel` is
`Model.__init__` (keyword form; each stored value passes through
`__setattr__`, which cleans again), `constructRaw` is
`Field.get_construct_default`, `modelCleanValue` is the classmethod
`Model.clean_value`. -/

/-- Trailing-element removal of `ListField.clean_value` and
`ModelListField.clean_value` (`while len(res) > min_num and not keep(res[-1]):
res.pop()`). -/
def popWhileAux (keep : PValue → Bool) (minNum : Nat) : List PValue → List PValue
  | [] => []
  | x :: rest =>
    if minNum < rest.length + 1 && !(keep x) then popWhileAux keep minNum rest
    else x :: rest

def popTrailing (keep : PValue → Bool) (minNum : Nat) (xs : List PValue) : List PValue :=
  (popWhileAux keep minNum xs.reverse).reverse

mutual
def cleanField : Field → PValue → Res PValue
  | Field.fStr _ _ d, v => strClean d v
  | Field.fInt _ _ d, v => intClean d v
  | Field.fDec _ _ d _, v => decClean d v
  | Field.fDate _ _ d, v => dateClean d v
  | Field.fDT _ _ d, v => dtClean d v
  | Field.fBytes _ _ d, v => bytesClean d v
  | Field.fNotImpl _ _, _ => Except.ok PValue.vnone
  | Field.fList _ _ d inner mn, v =>
    (match applyDefault d v with
     | PValue.vnone => Except.ok PValue.vnone
     | PValue.vlist xs => do
       let ys ← cleanVals inner xs
       pure (PValue.vlist (PValues.ofList
         (popTrailing (hasValueField inner) mn ys.toList)))
     | _ => Except.error PyErr.typeError)
  | Field.fModel _ _ d _ sub, v =>
    (match applyDefault d v with
     | PValue.vnone => Except.ok PValue.vnone
     | v0 => modelCleanValue sub v0)
  | Field.fModelList _ _ d _ sub mn, v =>
    (match applyDefault d v with
     | PValue.vnone => Except.ok PValue.vnone
     | PValue.vlist xs => do
       let ys ← cleanModels sub xs
       pure (PValue.vlist (PValues.ofList (popTrailing selfHasValue mn ys.toList)))
     | _ => Except.error PyErr.typeError)
termination_by f _ => (sizeOf f, 0)

def cleanVals : Field → PValues → Res PValues
  | _, PValues.nil => Except.ok PValues.nil
  | inner, PValues.cons x xs => do
    let y ← cleanField inner x
    let ys ← cleanVals inner xs
    pure (PValues.cons y ys)
termination_by inner xs => (sizeOf inner, sizeOf xs)

def modelCleanValue : Schema → PValue → Res PValue
  | _, PValue.vnone => Except.ok PValue.vnone
  | sub, PValue.vmodel srcS srcVs =>
    (initModel sub (kwFrom sub srcS srcVs)).map (PValue.vmodel sub)
  | _, _ => Except.error PyErr.typeError
termination_by sub _ => (sizeOf sub, 1)

def cleanModels : Schema → PValues → Res PValues
  | _, PValues.nil => Except.ok PValues.nil
  | sub, PValues.cons x xs => do
    let y ← modelCleanValue sub x
    let ys ← cleanModels sub xs
    pure (PValues.cons y ys)
termination_by sub xs => (sizeOf sub, 1 + sizeOf xs)

def initModel : Schema → List (List Char × PValue) → Res PValues
  | Schema.nil, _ => Except.ok PValues.nil
  | Schema.cons name f rest, kw => do
    let kwv := lookupKw kw name
    let raw ← if kwv = PValue.vnone then constructRaw f else cleanField f kwv
    let stored ← cleanField f raw
    let tail ← initModel rest kw
    pure (PValues.cons stored tail)
termination_by s _ => (sizeOf s, 0)

def constructRaw : Field → Res PValue
  | Field.fList _ _ _ _ mn =>
    Except.ok (PValue.vlist (PValues.ofList (List.replicate mn PValue.vnone)))
  | Field.fModel _ _ _ _ sub => (initModel sub []).map (PValue.vmodel sub)
  | Field.fModelList _ _ _ _ sub mn =>
    (initModel sub []).map (fun inst =>
      PValue.vlist (PValues.ofList (List.replicate mn (PValue.vmodel sub inst))))
  | _ => Except.ok PValue.vnone
termination_by f => (sizeOf f, 0)
end

/-- `Model()` with no arguments: the fresh instance used by `from_etree` and
`get_construct_default`. -/
def constructModel (s : Schema) : Res PValues := initModel s []


/-! ### XML trees and serialization

An `ElementTree` element: tag, text, ordered children (attributes are not
modelled; the base `Model.get_xmlattrs` returns an empty dict).  `Builder`
is a tree assembler, so `to_xml` is modelled as directly producing the
element (`Builder.add` produces a leaf with text, `Builder.element` an
element with children). -/

mutual
inductive Xml where
  | el (tag : List Char) (text : Option (List Char)) (children : XmlList)
deriving DecidableEq

inductive XmlList where
  | nil
  | cons (x : Xml) (rest : XmlList)
deriving DecidableEq
end

def Xml.tag : Xml → List Char
  | Xml.el t _ _ => t

def Xml.text : Xml → Option (List Char)
  | Xml.el _ tx _ => tx

def Xml.children : Xml → XmlList
  | Xml.el _ _ cs => cs

def XmlList.toList : XmlList → List Xml
  | XmlList.nil => []
  | XmlList.cons x rest => x :: XmlList.toList rest

def XmlList.ofList : List Xml → XmlList
  | [] => XmlList.nil
  | x :: rest => XmlList.cons x (XmlList.ofList rest)

mutual
/-- `Field.to_xml` and its overrides: clean the value, emit nothing when
`has_value` is false, otherwise emit one leaf (scalars), the inner field's
elements (list; the inner tag was set to the list's resolved tag by
`set_name`), the nested model element (`value.to_xml(builder)`), or one
element per member (model list; a `None` member crashes in Python and is an
error here). -/
def emitField (tag : List Char) : Field → PValue → Res (List Xml)
  | Field.fList _ null d inner mn, v => do
    let v1 ← cleanField (Field.fList Option.none null d inner mn) v
    if hasValueField (Field.fList Option.none null d inner mn) v1 then
      match v1 with
      | PValue.vlist xs => emitVals tag inner xs
      | _ => Except.error PyErr.typeError
    else pure []
  | Field.fModel t null d mtag sub, v => do
    let v1 ← cleanField (Field.fModel t null d mtag sub) v
    if hasValueField (Field.fModel t null d mtag sub) v1 then
      match v1 with
      | PValue.vmodel _ vs => do
        let cs ← emitModel sub vs
        pure [Xml.el mtag Option.none (XmlList.ofList cs)]
      | _ => Except.error PyErr.typeError
    else pure []
  | Field.fModelList t null d mtag sub mn, v => do
    let v1 ← cleanField (Field.fModelList t null d mtag sub mn) v
    if hasValueField (Field.fModelList t null d mtag sub mn) v1 then
      match v1 with
      | PValue.vlist xs => emitModels mtag sub xs
      | _ => Except.error PyErr.typeError
    else pure []
  | f, v => do
    let v1 ← cleanField f v
    if hasValueField f v1 then
      pure [Xml.el tag (some (fieldToStr f v1)) XmlList.nil]
    else pure []
termination_by f _ => (sizeOf f, 0)

def emitVals (tag : List Char) : Field → PValues → Res (List Xml)
  | _, PValues.nil => Except.ok []
  | inner, PValues.cons x xs => do
    let h ← emitField tag inner x
    let t ← emitVals tag inner xs
    pure (h ++ t)
termination_by inner xs => (sizeOf inner, sizeOf xs)

/-- `Model.to_xml` children: each field's contribution in schema order. -/
def emitModel : Schema → PValues → Res (List Xml)
  | Schema.cons name f rest, PValues.cons v vs => do
    let h ← emitField (resolvedTag name f) f v
    let t ← emitModel rest vs
    pure (h ++ t)
  | _, _ => Except.ok []
termination_by s _ => (sizeOf s, 0)

def emitModels (mtag : List Char) : Schema → PValues → Res (List Xml)
  | _, PValues.nil => Except.ok []
  | sub, PValues.cons x xs =>
    (match x with
     | PValue.vmodel _ vs => do
       let cs ← emitModel sub vs
       let rest ← emitModels mtag sub xs
       pure (Xml.el mtag Option.none (XmlList.ofList cs) :: rest)
     | _ => Except.error PyErr.typeError)
termination_by sub xs => (sizeOf sub, 1 + sizeOf xs)
end

/-- `Model.to_xml`: one element tagged with the class tag containing the
fields' contributions. -/
def modelToXml (mtag : List Char) (s : Schema) (vs : PValues) : Res Xml :=
  (emitModel s vs).map (fun cs => Xml.el mtag Option.none (XmlList.ofList cs))


/-! ### Deserialization (`from_etree`) -/

/-- The `tag_map` of `Model.from_etree`: dict comprehension over the schema,
so a later field with the same resolved tag wins. -/
def tagLookup : Schema → List Char → Option (List Char)
  | Schema.nil, _ => Option.none
  | Schema.cons name f rest, t =>
    match tagLookup rest t with
    | some n => some n
    | Option.none => if resolvedTag name f = t then some name else Option.none

def textValue (x : Xml) : PValue :=
  match x.text with
  | some s => PValue.vstr s
  | Option.none => PValue.vnone

mutual
/-- `Field.from_etree` (singular): `clean_value(el.text)`;
`ModelField.from_etree` constructs a fresh instance and fills it.
Multivalue fields never reach this path (`from_etree` dispatches on
`multivalue`). -/
def fieldFromEtree : Field → Xml → Res PValue
  | Field.fModel _ _ _ mtag sub, x => do
    let inst ← constructModel sub
    let vs ← modelFromEtree mtag sub inst x
    pure (PValue.vmodel sub vs)
  | Field.fList _ _ _ _ _, _ => Except.error PyErr.typeError
  | Field.fModelList _ _ _ _ _ _, _ => Except.error PyErr.typeError
  | f, x => cleanField f (textValue x)
termination_by f _ => (sizeOf f, 0)

/-- `from_etree` of the multivalue fields, on all matching children in
document order. -/
def fieldFromEtreeMulti : Field → List Xml → Res PValue
  | Field.fList _ _ _ inner _, els => do
    let vals ← mapFromEtree inner els
    pure (PValue.vlist (PValues.ofList vals))
  | Field.fModelList _ _ _ mtag sub _, els => do
    let vals ← mapModelFromEtree mtag sub els
    pure (PValue.vlist (PValues.ofList vals))
  | _, _ => Except.error PyErr.typeError
termination_by f _ => (sizeOf f, 1)

def mapFromEtree : Field → List Xml → Res (List PValue)
  | _, [] => Except.ok []
  | inner, el :: rest => do
    let v ← fieldFromEtree inner el
    let vs ← mapFromEtree inner rest
    pure (v :: vs)
termination_by inner els => (sizeOf inner, sizeOf els)

def mapModelFromEtree (mtag : List Char) : Schema → List Xml → Res (List PValue)
  | _, [] => Except.ok []
  | sub, el :: rest => do
    let inst ← constructModel sub
    let vs ← modelFromEtree mtag sub inst el
    let tail ← mapModelFromEtree mtag sub rest
    pure (PValue.vmodel sub vs :: tail)
termination_by sub els => (sizeOf sub, 2 + sizeOf els)

/-- `Model.from_etree`: check the element tag, reject unknown child tags,
then set each field from its matching children; zero matches leave the field
untouched, two or more matches for a singular field are an error.  Each
assignment passes through `__setattr__` and is cleaned. -/
def modelFromEtree (mtag : List Char) (s : Schema) (inst : PValues) (el : Xml) : Res PValues :=
  if el.tag ≠ mtag then Except.error PyErr.runtimeError
  else if ¬ (el.children.toList.all (fun c => (tagLookup s c.tag).isSome)) then
    Except.error PyErr.runtimeError
  else parseFields s s inst el.children.toList
termination_by (sizeOf s, 2)

def parseFields (sFull : Schema) : Schema → PValues → List Xml → Res PValues
  | Schema.cons name f rest, PValues.cons v vs, children => do
    let matched := children.filter (fun c => decide (tagLookup sFull c.tag = some name))
    let stored ←
      if matched.isEmpty then pure v
      else if multivalue f then do
        let parsed ← fieldFromEtreeMulti f matched
        cleanField f parsed
      else
        match matched with
        | [single] => do
          let parsed ← fieldFromEtree f single
          cleanField f parsed
        | _ => Except.error PyErr.runtimeError
    let tail ← parseFields sFull rest vs children
    pure (PValues.cons stored tail)
  | _, _, _ => Except.ok PValues.nil
termination_by spart _ _ => (sizeOf spart, 1)
end


/-! ### Plain-structure output (`to_jsonable`) -/

mutual
inductive JVal where
  | jnull
  | jstr (s : List Char)
  | jint (n : Int)
  | jlist (xs : JVals)
  | jobj (fs : JFields)
deriving DecidableEq

inductive JVals where
  | nil
  | cons (v : JVal) (rest : JVals)
deriving DecidableEq

inductive JFields where
  | nil
  | cons (name : List Char) (v : JVal) (rest : JFields)
deriving DecidableEq
end

/-- Base `Field.to_jsonable` result on a cleaned scalar value (the cleaned
value itself; `None` maps to `jnull`). -/
def jOfCleanBase : PValue → JVal
  | PValue.vnone => JVal.jnull
  | PValue.vstr s => JVal.jstr s
  | PValue.vint n => JVal.jint n
  | v => JVal.jstr (pyStr v)

def JFields.keys : JFields → List (List Char)
  | JFields.nil => []
  | JFields.cons n _ rest => n :: JFields.keys rest

mutual
/-- `Field.to_jsonable` with its overrides: `jnull` stands for Python `None`
(the "omit this entry" marker). -/
def fieldToJsonable : Field → PValue → Res JVal
  | Field.fDec t null d dcm, v => do
    let v1 ← cleanField (Field.fDec t null d dcm) v
    if hasValueField (Field.fDec t null d dcm) v1 then
      pure (JVal.jstr (fieldToStr (Field.fDec t null d dcm) v1))
    else pure JVal.jnull
  | Field.fDate t null d, v => do
    let v1 ← cleanField (Field.fDate t null d) v
    if hasValueField (Field.fDate t null d) v1 then
      pure (JVal.jstr (fieldToStr (Field.fDate t null d) v1))
    else pure JVal.jnull
  | Field.fDT t null d, v => do
    let v1 ← cleanField (Field.fDT t null d) v
    if hasValueField (Field.fDT t null d) v1 then
      pure (JVal.jstr (fieldToStr (Field.fDT t null d) v1))
    else pure JVal.jnull
  | Field.fBytes t null d, v => do
    let v1 ← cleanField (Field.fBytes t null d) v
    match v1 with
    | PValue.vbytes bs => pure (JVal.jstr (b64encodeList bs))
    | _ => pure JVal.jnull
  | Field.fList t null d inner mn, v => do
    let v1 ← cleanField (Field.fList t null d inner mn) v
    if hasValueField (Field.fList t null d inner mn) v1 then
      match v1 with
      | PValue.vlist xs => do
        let js ← jsonVals inner xs
        pure (JVal.jlist js)
      | _ => Except.error PyErr.typeError
    else pure JVal.jnull
  | Field.fModel t null d mtag sub, v => do
    let v1 ← cleanField (Field.fModel t null d mtag sub) v
    if hasValueField (Field.fModel t null d mtag sub) v1 then
      match v1 with
      | PValue.vmodel _ vs => do
        let fs ← modelToJsonable sub vs
        pure (JVal.jobj fs)
      | _ => Except.error PyErr.typeError
    else pure JVal.jnull
  | Field.fModelList t null d mtag sub mn, v => do
    let v1 ← cleanField (Field.fModelList t null d mtag sub mn) v
    if hasValueField (Field.fModelList t null d mtag sub mn) v1 then
      match v1 with
      | PValue.vlist xs => do
        let js ← jsonModels sub xs
        pure (JVal.jlist js)
      | _ => Except.error PyErr.typeError
    else pure JVal.jnull
  | f, v => do
    let v1 ← cleanField f v
    pure (jOfCleanBase v1)
termination_by f _ => (sizeOf f, 0)

def jsonVals : Field → PValues → Res JVals
  | _, PValues.nil => Except.ok JVals.nil
  | inner, PValues.cons x xs => do
    let j ← fieldToJsonable inner x
    let js ← jsonVals inner xs
    pure (JVals.cons j js)
termination_by inner xs => (sizeOf inner, sizeOf xs)

def jsonModels : Schema → PValues → Res JVals
  | _, PValues.nil => Except.ok JVals.nil
  | sub, PValues.cons x xs =>
    (match x with
     | PValue.vmodel _ vs => do
       let fs ← modelToJsonable sub vs
       let js ← jsonModels sub xs
       pure (JVals.cons (JVal.jobj fs) js)
     | _ => Except.error PyErr.typeError)
termination_by sub xs => (sizeOf sub, 2 + sizeOf xs)

/-- `Model.to_jsonable`: keys in schema order, omitting `None` entries. -/
def modelToJsonable : Schema → PValues → Res JFields
  | Schema.cons name f rest, PValues.cons v vs => do
    let j ← fieldToJsonable f v
    let tail ← modelToJsonable rest vs
    match j with
    | JVal.jnull => pure tail
    | j => pure (JFields.cons name j tail)
  | _, _ => Except.ok JFields.nil
termination_by s _ => (sizeOf s, 1)
end

/-! ### Equality (`Model.__eq__` and the `==` of the value universe) -/

/-- Days-since-epoch of a civil date (used to compare datetimes by instant,
as Python compares timezone-aware datetimes). -/
def dateOrdinal (y mo d : Nat) : Int :=
  let a : Int := ((14 : Int) - mo) / 12
  let y1 : Int := y + 4800 - a
  let m1 : Int := mo + 12 * a - 3
  d + (153 * m1 + 2) / 5 + 365 * y1 + y1 / 4 - y1 / 100 + y1 / 400 - 32045

/-- Microseconds-since-epoch instant; naive datetimes use offset zero (two
naive datetimes compare by wall-clock fields, and a naive datetime never
compares equal to an aware one). -/
def dtInstant (x : PyDateTime) : Int :=
  ((((dateOrdinal x.y x.mo x.d * 24 + x.h) * 60 + x.mi
      - (match x.tz with | some o => o | Option.none => 0)) * 60 + x.s) * 1000000) + x.us

def dtEqB (a b : PyDateTime) : Bool :=
  a.tz.isSome = b.tz.isSome && dtInstant a = dtInstant b

mutual
/-- Python `a == b` restricted to the value universe: numeric kinds compare
numerically, lists elementwise after a length check, model instances via
`Model.__eq__`; `None == x` is `False` except against an all-empty instance,
whose `__eq__` answers for the reflected comparison. -/
def pvalEq : PValue → PValue → Res Bool
  | PValue.vmodel s vs, b => modelEq s vs b
  | PValue.vnone, PValue.vmodel s vs => Except.ok (!(hasValueModel s vs))
  | _, PValue.vmodel _ _ => Except.error PyErr.typeError
  | PValue.vnone, PValue.vnone => Except.ok true
  | PValue.vnone, _ => Except.ok false
  | _, PValue.vnone => Except.ok false
  | PValue.vstr s1, PValue.vstr s2 => Except.ok (s1 = s2)
  | PValue.vint n1, PValue.vint n2 => Except.ok (n1 = n2)
  | PValue.vint n1, PValue.vdec m2 sc2 => Except.ok (n1 * 10 ^ sc2 = m2)
  | PValue.vdec m1 sc1, PValue.vint n2 => Except.ok (m1 = n2 * 10 ^ sc1)
  | PValue.vdec m1 sc1, PValue.vdec m2 sc2 => Except.ok (m1 * 10 ^ sc2 = m2 * 10 ^ sc1)
  | PValue.vdate d1, PValue.vdate d2 => Except.ok (d1 = d2)
  | PValue.vdt x1, PValue.vdt x2 => Except.ok (dtEqB x1 x2)
  | PValue.vbytes b1, PValue.vbytes b2 => Except.ok (b1 = b2)
  | PValue.vlist xs, PValue.vlist ys =>
    if PValues.len xs = PValues.len ys then pvalsEq xs ys else Except.ok false
  | _, _ => Except.ok false
termination_by a _ => (sizeOf a, 1)

def pvalsEq : PValues → PValues → Res Bool
  | PValues.nil, _ => Except.ok true
  | PValues.cons _ _, PValues.nil => Except.ok false
  | PValues.cons x xs, PValues.cons y ys => do
    let e ← pvalEq x y
    if e then pvalsEq xs ys else pure false
termination_by xs _ => (sizeOf xs, 0)

/-- `Model.__eq__`: coerce the other side through this schema's
`clean_value`, treat two empty sides as equal, then compare the value
tuples. -/
def modelEq (s : Schema) (vs : PValues) (other : PValue) : Res Bool := do
  let other2 ← modelCleanValue s other
  let hasSelf := hasValueModel s vs
  let hasOther := match other2 with
    | PValue.vmodel _ vs2 => hasValueModel s vs2
    | _ => false
  if !hasSelf && !hasOther then pure true
  else if hasSelf != hasOther then pure false
  else
    match other2 with
    | PValue.vmodel _ vs2 => pvalsEq vs vs2
    | _ => pure false
termination_by (sizeOf vs, 2)
end

/-! ### Attribute assignment (`Model.__setattr__`) -/

def upsertAssoc (kvs : List (List Char × PValue)) (key : List Char) (v : PValue) :
    List (List Char × PValue) :=
  match kvs with
  | [] => [(key, v)]
  | (k, w) :: rest => if k = key then (k, v) :: rest else (k, w) :: upsertAssoc rest key v

def setattrDeclared : Schema → PValues → List Char → PValue → Res PValues
  | Schema.cons n f rest, PValues.cons old vs, key, v =>
    if n = key then do
      let v2 ← cleanField f v
      pure (PValues.cons v2 vs)
    else do
      let tail ← setattrDeclared rest vs key v
      pure (PValues.cons old tail)
  | _, vs, _, _ => Except.ok vs

/-- `Model.__setattr__`: a declared name is cleaned and stored; any other
name is stored as-is in the instance dictionary. -/
def setattrModel (s : Schema) (vs : PValues) (extra : List (List Char × PValue))
    (key : List Char) (v : PValue) : Res (PValues × List (List Char × PValue)) :=
  if (schemaNames s).contains key then do
    let vs2 ← setattrDeclared s vs key v
    pure (vs2, extra)
  else
    Except.ok (vs, upsertAssoc extra key v)


/-! ### `ProgressivoInvioField.get_construct_default`

The process-wide `(last_ts, sequence)` counter pair becomes explicit state.
`_encode_b56` indexes `CHARS` (43 characters) by `value % 43` and ignores its
`places` argument, exactly as the code does. -/

def piChars : List Char := "+-./0123456789=@ABCDEFGHIJKLMNOPQRSTUVWXYZ_".toList

def SEQUENCE_RANGE : Nat := 2 ^ 16

def TS_RANGE : Nat := 2 ^ (54 - 16)

/-- `_encode_b56` (fuel-based; `fuel ≥ value` suffices). -/
def encodeB56 : Nat → Nat → List Char
  | 0, _ => []
  | fuel+1, v => if v = 0 then [] else encodeB56 fuel (v / 43) ++ [piChars.getD (v % 43) '+']

structure ProgState where
  lastTs : Option Nat
  sequence : Nat
deriving DecidableEq, Repr

/-- One call of `get_construct_default` at wall-clock second `ts`: update the
counter pair, raise `OverflowError` when the sequence exceeds `64 ** 3`, and
return the encoding of `(ts << 16) + sequence`. -/
def progressivoNext (st : ProgState) (ts : Nat) : Res (List Char × ProgState) :=
  if st.lastTs = some ts then
    let seq := st.sequence + 1
    if seq > 64 ^ 3 then Except.error PyErr.overflowError
    else
      let value := ts * 65536 + seq
      Except.ok (encodeB56 value value, ⟨some ts, seq⟩)
  else
    let value := ts * 65536
    Except.ok (encodeB56 value value, ⟨some ts, 0⟩)

/-- Iterate `progressivoNext` `n` times at the same second, returning the
final outcome. -/
def progressivoRun (st : ProgState) (ts : Nat) : Nat → Res ProgState
  | 0 => Except.ok st
  | n+1 => do
    let r ← progressivoNext st ts
    progressivoRun r.2 ts n

/-! ### `FullNameMixin.validate_model` (`a38/fattura.py`)

`Validation.add_error` appends one `ValidationError` per field when given a
tuple of fields, so the result is modelled as the ordered list of
`(field name, message)` pairs appended to `validation.errors`. -/

def msgBothOrDen : List Char :=
  "nome and cognome, or denominazione, must be set".toList

def msgBothIfEmpty : List Char :=
  "nome and cognome must both be set if denominazione is empty".toList

def msgNotWithDen : List Char :=
  "must not be set if denominazione is not empty".toList

def validateFullName (nome cognome denominazione : Option (List Char)) :
    List (List Char × List Char) :=
  match denominazione with
  | Option.none =>
    if nome = Option.none ∧ cognome = Option.none then
      [("nome".toList, msgBothOrDen), ("cognome".toList, msgBothOrDen),
       ("denominazione".toList, msgBothOrDen)]
    else if nome = Option.none then [("nome".toList, msgBothIfEmpty)]
    else if cognome = Option.none then [("cognome".toList, msgBothIfEmpty)]
    else []
  | some _ =>
    ((if nome ≠ Option.none then ["nome".toList] else [])
      ++ (if cognome ≠ Option.none then ["cognome".toList] else [])).map
      (fun f => (f, msgNotWithDen))


/-! ### Invariants and well-formedness predicates

`wellTypedF` captures the type invariants Python enforces on stored values
(`date`/`datetime` objects are valid by construction, cleaned datetimes are
timezone-aware, nested instances belong to the field's model class).
`cleanFixedF` says a value is a fixed point of `clean_value`, which `Model`
guarantees for every stored value (claim C5).  `wfField`/`wfSchema` collect
the schema conditions under which serialization round-trips: unique field
names (guaranteed by the metaclass dict), unique resolved tags, empty
construct defaults, scalar list members, and no tag override on model-valued
fields (whose emission always uses the model class tag). -/

mutual
def wellTypedF : Field → PValue → Bool
  | _, PValue.vnone => true
  | Field.fStr _ _ _, PValue.vstr _ => true
  | Field.fInt _ _ _, PValue.vint _ => true
  | Field.fDec _ _ _ _, PValue.vdec _ _ => true
  | Field.fDate _ _ _, PValue.vdate d => dateOK d
  | Field.fDT _ _ _, PValue.vdt x => dtOK x && x.tz.isSome
  | Field.fBytes _ _ _, PValue.vbytes _ => true
  | Field.fList _ _ _ inner _, PValue.vlist xs => wellTypedVals inner xs
  | Field.fModel _ _ _ _ sub, PValue.vmodel s vs => s = sub && wellTypedS sub vs
  | Field.fModelList _ _ _ _ sub _, PValue.vlist xs => wellTypedModels sub xs
  | _, _ => false
termination_by f _ => (sizeOf f, 1)

def wellTypedVals : Field → PValues → Bool
  | _, PValues.nil => true
  | inner, PValues.cons x xs => wellTypedF inner x && wellTypedVals inner xs
termination_by inner xs => (sizeOf inner, 1 + sizeOf xs)

def wellTypedModels : Schema → PValues → Bool
  | _, PValues.nil => true
  | sub, PValues.cons PValue.vnone xs => wellTypedModels sub xs
  | sub, PValues.cons (PValue.vmodel s vs) xs =>
    decide (s = sub) && wellTypedS sub vs && wellTypedModels sub xs
  | _, PValues.cons _ _ => false
termination_by sub xs => (sizeOf sub, 2 + sizeOf xs)

def wellTypedS : Schema → PValues → Bool
  | Schema.nil, PValues.nil => true
  | Schema.cons _ f rest, PValues.cons v vs => wellTypedF f v && wellTypedS rest vs
  | _, _ => false
termination_by s _ => (sizeOf s, 0)
end

def cleanFixedF (f : Field) (v : PValue) : Bool :=
  match cleanField f v with
  | Except.ok w => decide (w = v)
  | _ => false

def cleanFixedS : Schema → PValues → Bool
  | Schema.nil, PValues.nil => true
  | Schema.cons _ f rest, PValues.cons v vs => cleanFixedF f v && cleanFixedS rest vs
  | _, _ => false

/-- Stored-value invariant of a model instance: every stored value is a
fixed point of its field's `clean_value` and satisfies the Python type
invariants. -/
def storedOKS (s : Schema) (vs : PValues) : Bool :=
  cleanFixedS s vs && wellTypedS s vs

def isScalarField : Field → Bool
  | Field.fList _ _ _ _ _ => false
  | Field.fModel _ _ _ _ _ => false
  | Field.fModelList _ _ _ _ _ _ => false
  | _ => true

def fieldTag : Field → Option (List Char)
  | Field.fStr t _ _ => t
  | Field.fInt t _ _ => t
  | Field.fDec t _ _ _ => t
  | Field.fDate t _ _ => t
  | Field.fDT t _ _ => t
  | Field.fBytes t _ _ => t
  | Field.fNotImpl t _ => t
  | Field.fList t _ _ _ _ => t
  | Field.fModel t _ _ _ _ => t
  | Field.fModelList t _ _ _ _ _ => t

def schemaTags : Schema → List (List Char)
  | Schema.nil => []
  | Schema.cons name f rest => resolvedTag name f :: schemaTags rest

mutual
def wfField : Field → Bool
  | Field.fList _ _ d inner _ =>
    decide (d = SVal.none) && isScalarField inner && wfField inner
  | Field.fModel t _ d _ sub =>
    decide (t = (Option.none : Option (List Char))) && decide (d = SVal.none) && wfSchema sub
  | Field.fModelList t _ d _ sub _ =>
    decide (t = (Option.none : Option (List Char))) && decide (d = SVal.none) && wfSchema sub
  | Field.fNotImpl _ _ => true
  | f => decide (fieldDefault f = SVal.none)
termination_by f => (sizeOf f, 0)

def wfSchema : Schema → Bool
  | Schema.nil => true
  | Schema.cons name f rest =>
    wfField f && !((schemaNames rest).contains name)
      && !((schemaTags rest).contains (resolvedTag name f)) && wfSchema rest
termination_by s => (sizeOf s, 0)
end

/-! Unique field names alone (what the metaclass `OrderedDict` guarantees)
are enough for the cleaning/equality theorems, which do not involve tags. -/
mutual
def namesOKF : Field → Bool
  | Field.fList _ _ _ inner _ => namesOKF inner
  | Field.fModel _ _ _ _ sub => namesOKS sub
  | Field.fModelList _ _ _ _ sub _ => namesOKS sub
  | _ => true
termination_by f => (sizeOf f, 0)

def namesOKS : Schema → Bool
  | Schema.nil => true
  | Schema.cons name f rest =>
    namesOKF f && !((schemaNames rest).contains name) && namesOKS rest
termination_by s => (sizeOf s, 0)
end


/-! ## Claims -/

/-! ### C7: the nome/cognome/denominazione group -/

/-- C7 counterexample: with `denominazione` set together with `nome` only,
the code produces exactly one diagnostic, attached to `nome`; contrary to
the claim, no diagnostic is attached to `cognome` (only fields that are
actually set get the must-not-coexist error). -/
theorem c7_counterexample :
    validateFullName (some "x".toList) Option.none (some "y".toList)
      = [("nome".toList, msgNotWithDen)]
    ∧ ("cognome".toList ∉ (validateFullName (some "x".toList) Option.none
        (some "y".toList)).map Prod.fst) := by
  constructor
  · simp [validateFullName]
  · simp [validateFullName]

/-- C7 (amended): with none of the three set there are exactly three
diagnostics, one per field; with only `nome` set exactly one diagnostic on
`cognome`; with `denominazione` set, a diagnostic reports the conflict on
exactly those of `nome`/`cognome` that are set (so together with `nome`
alone, one diagnostic on `nome`; together with both, diagnostics on both). -/
theorem c7_fullname_validation :
    (validateFullName Option.none Option.none Option.none
      = [("nome".toList, msgBothOrDen), ("cognome".toList, msgBothOrDen),
         ("denominazione".toList, msgBothOrDen)])
    ∧ (∀ n, validateFullName (some n) Option.none Option.none
        = [("cognome".toList, msgBothIfEmpty)])
    ∧ (∀ n d, validateFullName (some n) Option.none (some d)
        = [("nome".toList, msgNotWithDen)])
    ∧ (∀ n c d, validateFullName (some n) (some c) (some d)
        = [("nome".toList, msgNotWithDen), ("cognome".toList, msgNotWithDen)]) := by
  refine ⟨by simp [validateFullName], ?_, ?_, ?_⟩
  · intro n; simp [validateFullName]
  · intro n d; simp [validateFullName]
  · intro n c d; simp [validateFullName]

/-! ### C8: ProgressivoInvioField counter overflow -/

/-- C8: the sequence space next to the timestamp is 16 bits
(`SEQUENCE_RANGE = 2 ** 16`, and the value is packed as
`(ts << 16) + sequence`), but the overflow check only fires above
`64 ** 3 = 2 ** 18`: at the boundary state the call that produces
sequence number `65536 = SEQUENCE_RANGE` succeeds instead of raising, and
`OverflowError` is first raised when the sequence exceeds `64 ** 3`. -/
theorem c8_overflow_check_uses_wrong_bound :
    (progressivoNext ⟨some 0, 65535⟩ 0
      = Except.ok (encodeB56 65536 65536, ⟨some 0, 65536⟩))
    ∧ SEQUENCE_RANGE = 65536
    ∧ 64 ^ 3 = 262144
    ∧ (progressivoNext ⟨some 0, 64 ^ 3⟩ 0 = Except.error PyErr.overflowError)
    ∧ (progressivoNext ⟨some 0, 64 ^ 3 - 1⟩ 0
      = Except.ok (encodeB56 262144 262144, ⟨some 0, 262144⟩)) := by
  refine ⟨?_, by decide, by decide, ?_, ?_⟩
  · simp [progressivoNext]
  · simp [progressivoNext]
  · simp [progressivoNext]

/-! ### C9: assignment to an undeclared attribute name -/

/-- C9 counterexample: assigning to a name not declared in the schema does
not fail; `__setattr__` falls through to the default object behaviour and
silently stores the raw value in the instance dictionary. -/
theorem c9_counterexample :
    setattrModel (Schema.cons "x".toList (Field.fStr Option.none false SVal.none) Schema.nil)
        (PValues.cons PValue.vnone PValues.nil) [] "y".toList (PValue.vstr "raw".toList)
      = Except.ok (PValues.cons PValue.vnone PValues.nil,
          [("y".toList, PValue.vstr "raw".toList)]) := by
  simp [setattrModel, schemaNames, upsertAssoc]

/-- C9 (amended): assigning to an undeclared name is not an error: the value
is stored as-is (uncleaned) in the instance dictionary and the declared
field values are untouched. -/
theorem c9_undeclared_setattr_stores_raw (s : Schema) (vs : PValues)
    (extra : List (List Char × PValue)) (key : List Char) (v : PValue)
    (h : (schemaNames s).contains key = false) :
    setattrModel s vs extra key v = Except.ok (vs, upsertAssoc extra key v) := by
  have h2 : ¬ (key ∈ schemaNames s) := by simpa using h
  simp [setattrModel, h2]

theorem c9_undeclared_setattr_stores_raw_witness :
    ((schemaNames (Schema.cons "x".toList (Field.fStr Option.none false SVal.none)
        Schema.nil)).contains "y".toList = false)
    ∧ setattrModel (Schema.cons "x".toList (Field.fStr Option.none false SVal.none)
        Schema.nil) (PValues.cons PValue.vnone PValues.nil) [] "y".toList (PValue.vint 3)
      = Except.ok (PValues.cons PValue.vnone PValues.nil, [("y".toList, PValue.vint 3)]) :=
  ⟨by simp [schemaNames], c9_undeclared_setattr_stores_raw _ _ _ _ _ (by simp [schemaNames])⟩


/-! ### C10: explicit None at construction time -/

theorem lookupKw_cons_vnone (kw : List (List Char × PValue)) (name n : List Char)
    (h : lookupKw kw name = PValue.vnone) :
    lookupKw ((name, PValue.vnone) :: kw) n = lookupKw kw n := by
  by_cases he : name = n
  · subst he
    simp [lookupKw, List.find?]
    exact h.symm
  · simp [lookupKw, List.find?, he]

theorem initModel_ext : ∀ (s : Schema) (kw1 kw2 : List (List Char × PValue)),
    (∀ n, lookupKw kw1 n = lookupKw kw2 n) → initModel s kw1 = initModel s kw2
  | Schema.nil, _, _, _ => by simp [initModel]
  | Schema.cons name f rest, kw1, kw2, h => by
    simp [initModel, h name, initModel_ext rest kw1 kw2 h]

/-- C10: passing an explicit `None` for a declared field is indistinguishable
from omitting it: construction takes the construct-default path either way,
and for a plain scalar field the stored value is `clean_value(None)`, i.e.
the field default — in particular a `StringField` with default `sv` stores
`sv`, never `None`, when explicitly given `None`. -/
theorem c10_explicit_none_takes_default :
    (∀ s kw name, lookupKw kw name = PValue.vnone →
      initModel s ((name, PValue.vnone) :: kw) = initModel s kw)
    ∧ (∀ name f rest kw, isScalarField f = true → lookupKw kw name = PValue.vnone →
      initModel (Schema.cons name f rest) kw
        = (do
            let stored ← cleanField f PValue.vnone
            let tail ← initModel rest kw
            pure (PValues.cons stored tail)))
    ∧ (∀ t null sv, cleanField (Field.fStr t null (SVal.str sv)) PValue.vnone
        = Except.ok (PValue.vstr sv) ∧ PValue.vstr sv ≠ PValue.vnone) := by
  refine ⟨?_, ?_, ?_⟩
  · intro s kw name h
    exact initModel_ext s _ kw (fun n => lookupKw_cons_vnone kw name n h)
  · intro name f rest kw hs h
    cases f <;> simp [isScalarField] at hs <;>
      simp [initModel, h, constructRaw, res_bind_ok]
  · intro t null sv
    constructor
    · simp [cleanField, strClean, applyDefault, svalToP, pyStr]
    · simp

theorem c10_explicit_none_takes_default_witness :
    (lookupKw [] "x".toList = PValue.vnone
      ∧ initModel Schema.nil [("x".toList, PValue.vnone)] = initModel Schema.nil [])
    ∧ (isScalarField (Field.fStr Option.none false (SVal.str "0000000".toList)) = true
      ∧ initModel (Schema.cons "x".toList
            (Field.fStr Option.none false (SVal.str "0000000".toList)) Schema.nil) []
        = (do
            let stored ← cleanField (Field.fStr Option.none false (SVal.str "0000000".toList))
              PValue.vnone
            let tail ← initModel Schema.nil []
            pure (PValues.cons stored tail)))
    ∧ (cleanField (Field.fStr Option.none false (SVal.str "0000000".toList)) PValue.vnone
        = Except.ok (PValue.vstr "0000000".toList)) := by
  refine ⟨⟨by simp [lookupKw], ?_⟩, ⟨by simp [isScalarField], ?_⟩, ?_⟩
  · exact c10_explicit_none_takes_default.1 Schema.nil [] "x".toList (by simp [lookupKw])
  · exact c10_explicit_none_takes_default.2.1 "x".toList _ Schema.nil []
      (by simp [isScalarField]) (by simp [lookupKw])
  · exact (c10_explicit_none_takes_default.2.2 Option.none false "0000000".toList).1


/-! ### Cleaning idempotence: scalar kinds -/

theorem applyDefault_eq_vnone {d : SVal} {x : PValue}
    (hx : applyDefault d x = PValue.vnone) :
    x = PValue.vnone ∧ svalToP d = PValue.vnone := by
  by_cases hxv : x = PValue.vnone
  · exact ⟨hxv, by simpa [applyDefault, hxv] using hx⟩
  · simp [applyDefault, hxv] at hx

theorem strClean_idem (d : SVal) (x y : PValue) (h : strClean d x = Except.ok y) :
    strClean d y = Except.ok y := by
  unfold strClean at h ⊢
  cases hx : applyDefault d x with
  | vnone =>
    rw [hx] at h
    simp only [Except.ok.injEq] at h
    subst h
    obtain ⟨-, hd⟩ := applyDefault_eq_vnone hx
    simp [applyDefault, hd]
  | vstr s =>
    rw [hx] at h; simp only [Except.ok.injEq] at h; subst h; simp [applyDefault, pyStr]
  | vint n =>
    rw [hx] at h; simp only [Except.ok.injEq] at h; subst h; simp [applyDefault, pyStr]
  | vdec m sc =>
    rw [hx] at h; simp only [Except.ok.injEq] at h; subst h; simp [applyDefault, pyStr]
  | vdate dd =>
    rw [hx] at h; simp only [Except.ok.injEq] at h; subst h; simp [applyDefault, pyStr]
  | vdt dt =>
    rw [hx] at h; simp only [Except.ok.injEq] at h; subst h; simp [applyDefault, pyStr]
  | vbytes bs =>
    rw [hx] at h; simp only [Except.ok.injEq] at h; subst h; simp [applyDefault, pyStr]
  | vlist xs =>
    rw [hx] at h; simp only [Except.ok.injEq] at h; subst h; simp [applyDefault, pyStr]
  | vmodel s vs =>
    rw [hx] at h; simp only [Except.ok.injEq] at h; subst h; simp [applyDefault, pyStr]

theorem intClean_idem (d : SVal) (x y : PValue) (h : intClean d x = Except.ok y) :
    intClean d y = Except.ok y := by
  unfold intClean at h ⊢
  cases hx : applyDefault d x with
  | vnone =>
    rw [hx] at h
    simp only [Except.ok.injEq] at h
    subst h
    obtain ⟨-, hd⟩ := applyDefault_eq_vnone hx
    simp [applyDefault, hd]
  | vint n =>
    rw [hx] at h; simp only [Except.ok.injEq] at h; subst h; simp [applyDefault]
  | vstr s =>
    rw [hx] at h
    cases hp : parseIntAll s with
    | none => simp [hp] at h
    | some n =>
      simp only [hp, Except.ok.injEq] at h
      subst h
      simp [applyDefault]
  | vbytes bs =>
    rw [hx] at h
    cases hp : parseIntAll (bs.map (fun b => Char.ofNat b.val)) with
    | none => simp [hp] at h
    | some n =>
      simp only [hp, Except.ok.injEq] at h
      subst h
      simp [applyDefault]
  | vdec m sc =>
    rw [hx] at h; simp only [Except.ok.injEq] at h; subst h; simp [applyDefault]
  | vdate dd => rw [hx] at h; cases h
  | vdt dt => rw [hx] at h; cases h
  | vlist xs => rw [hx] at h; cases h
  | vmodel s vs => rw [hx] at h; cases h

theorem decClean_idem (d : SVal) (x y : PValue) (h : decClean d x = Except.ok y) :
    decClean d y = Except.ok y := by
  unfold decClean at h ⊢
  cases hx : applyDefault d x with
  | vnone =>
    rw [hx] at h
    simp only [Except.ok.injEq] at h
    subst h
    obtain ⟨-, hd⟩ := applyDefault_eq_vnone hx
    simp [applyDefault, hd]
  | vdec m sc =>
    rw [hx] at h; simp only [Except.ok.injEq] at h; subst h; simp [applyDefault]
  | vint n =>
    rw [hx] at h; simp only [Except.ok.injEq] at h; subst h; simp [applyDefault]
  | vstr s =>
    rw [hx] at h
    cases hp : parseDecList s with
    | none => simp [hp] at h
    | some p =>
      simp only [hp, Except.ok.injEq] at h
      subst h
      simp [applyDefault]
  | vdate dd => rw [hx] at h; cases h
  | vdt dt => rw [hx] at h; cases h
  | vbytes bs => rw [hx] at h; cases h
  | vlist xs => rw [hx] at h; cases h
  | vmodel s vs => rw [hx] at h; cases h

theorem dateClean_idem (d : SVal) (x y : PValue) (h : dateClean d x = Except.ok y) :
    dateClean d y = Except.ok y := by
  unfold dateClean at h ⊢
  cases hx : applyDefault d x with
  | vnone =>
    rw [hx] at h
    simp only [Except.ok.injEq] at h
    subst h
    obtain ⟨-, hd⟩ := applyDefault_eq_vnone hx
    simp [applyDefault, hd]
  | vdate dd =>
    rw [hx] at h; simp only [Except.ok.injEq] at h; subst h; simp [applyDefault]
  | vdt dt =>
    rw [hx] at h; simp only [Except.ok.injEq] at h; subst h; simp [applyDefault]
  | vstr s =>
    rw [hx] at h
    cases hp : parseDateList s with
    | none => simp [hp] at h
    | some dd =>
      simp only [hp, Except.ok.injEq] at h
      subst h
      simp [applyDefault]
  | vint n => rw [hx] at h; cases h
  | vdec m sc => rw [hx] at h; cases h
  | vbytes bs => rw [hx] at h; cases h
  | vlist xs => rw [hx] at h; cases h
  | vmodel s vs => rw [hx] at h; cases h

theorem dtClean_idem (d : SVal) (x y : PValue) (h : dtClean d x = Except.ok y) :
    dtClean d y = Except.ok y := by
  unfold dtClean at h ⊢
  cases hx : applyDefault d x with
  | vnone =>
    rw [hx] at h
    simp only [Except.ok.injEq] at h
    subst h
    obtain ⟨-, hd⟩ := applyDefault_eq_vnone hx
    simp [applyDefault, hd]
  | vdt dt =>
    rw [hx] at h
    simp only [Except.ok.injEq] at h
    subst h
    cases htz : dt.tz with
    | some o => simp [applyDefault, htz]
    | none => simp [applyDefault, htz]
  | vdate dd =>
    rw [hx] at h; simp only [Except.ok.injEq] at h; subst h; simp [applyDefault]
  | vstr s =>
    rw [hx] at h
    cases hp : parseDTList s with
    | none => simp [hp] at h
    | some dt =>
      simp only [hp, Except.ok.injEq] at h
      subst h
      cases htz : dt.tz with
      | some o => simp [applyDefault, htz]
      | none => simp [applyDefault, htz]
  | vint n => rw [hx] at h; cases h
  | vdec m sc => rw [hx] at h; cases h
  | vbytes bs => rw [hx] at h; cases h
  | vlist xs => rw [hx] at h; cases h
  | vmodel s vs => rw [hx] at h; cases h

theorem bytesClean_idem (d : SVal) (x y : PValue) (h : bytesClean d x = Except.ok y) :
    bytesClean d y = Except.ok y := by
  unfold bytesClean at h ⊢
  cases hx : applyDefault d x with
  | vnone =>
    rw [hx] at h
    simp only [Except.ok.injEq] at h
    subst h
    obtain ⟨-, hd⟩ := applyDefault_eq_vnone hx
    simp [applyDefault, hd]
  | vbytes bs =>
    rw [hx] at h; simp only [Except.ok.injEq] at h; subst h; simp [applyDefault]
  | vstr s =>
    rw [hx] at h
    cases hp : b64decodeList s with
    | none => simp [hp] at h
    | some bs =>
      simp only [hp, Except.ok.injEq] at h
      subst h
      simp [applyDefault]
  | vint n => rw [hx] at h; cases h
  | vdec m sc => rw [hx] at h; cases h
  | vdate dd => rw [hx] at h; cases h
  | vdt dt => rw [hx] at h; cases h
  | vlist xs => rw [hx] at h; cases h
  | vmodel s vs => rw [hx] at h; cases h


/-! ### Supporting lemmas for cleaning idempotence -/

theorem bind_ok_inv {α β : Type} {ma : Res α} {f : α → Res β} {b : β}
    (h : ma >>= f = Except.ok b) : ∃ a, ma = Except.ok a ∧ f a = Except.ok b := by
  cases ma with
  | ok a => exact ⟨a, rfl, h⟩
  | error e => simp [res_bind_err] at h

theorem map_ok_inv {α β : Type} {ma : Res α} {g : α → β} {b : β}
    (h : Except.map g ma = Except.ok b) : ∃ a, ma = Except.ok a ∧ g a = b := by
  cases ma with
  | ok a =>
    rw [res_map_ok] at h
    exact ⟨a, rfl, by injection h⟩
  | error e => rw [res_map_err] at h; cases h

theorem popWhileAux_idem (k : PValue → Bool) (m : Nat) (l : List PValue) :
    popWhileAux k m (popWhileAux k m l) = popWhileAux k m l := by
  induction l with
  | nil => rfl
  | cons x rest ih =>
    by_cases hc : (m < rest.length + 1 && !(k x)) = true
    · simp [popWhileAux, hc, ih]
    · simp [popWhileAux, hc]

theorem popTrailing_idem (k : PValue → Bool) (m : Nat) (xs : List PValue) :
    popTrailing k m (popTrailing k m xs) = popTrailing k m xs := by
  simp [popTrailing, popWhileAux_idem]

theorem popWhileAux_subset (k : PValue → Bool) (m : Nat) (l : List PValue) :
    ∀ y ∈ popWhileAux k m l, y ∈ l := by
  induction l with
  | nil => simp [popWhileAux]
  | cons x rest ih =>
    intro y hy
    by_cases hc : (m < rest.length + 1 && !(k x)) = true
    · simp only [popWhileAux, hc, if_true] at hy
      exact List.mem_cons_of_mem x (ih y hy)
    · simp only [popWhileAux, hc, if_false] at hy
      exact hy

theorem popTrailing_subset (k : PValue → Bool) (m : Nat) (xs : List PValue) :
    ∀ y ∈ popTrailing k m xs, y ∈ xs := by
  intro y hy
  simp only [popTrailing, List.mem_reverse] at hy
  have := popWhileAux_subset k m xs.reverse y hy
  simpa [List.mem_reverse] using this

theorem lookupKw_map_self (g : List Char → PValue) :
    ∀ (ns : List (List Char)) (name : List Char), name ∈ ns →
      lookupKw (ns.map (fun n => (n, g n))) name = g name := by
  intro ns
  induction ns with
  | nil => intro name h; cases h
  | cons n ns ih =>
    intro name hmem
    by_cases hn : n = name
    · subst hn
      simp [lookupKw, List.find?]
    · have hmem2 : name ∈ ns := by
        cases hmem with
        | head => exact absurd rfl hn
        | tail _ h => exact h
      have := ih name hmem2
      simpa [lookupKw, List.find?, hn] using this

theorem lookupKw_kwFrom (target src : Schema) (vs : PValues) (name : List Char)
    (h : name ∈ schemaNames target) :
    lookupKw (kwFrom target src vs) name = getattrP src vs name :=
  lookupKw_map_self (getattrP src vs) (schemaNames target) name h

theorem initModel_cons_inv {name : List Char} {f : Field} {rest : Schema}
    {kw : List (List Char × PValue)} {vs : PValues}
    (h : initModel (Schema.cons name f rest) kw = Except.ok vs) :
    ∃ raw stored tail,
      ((lookupKw kw name = PValue.vnone ∧ constructRaw f = Except.ok raw) ∨
       (lookupKw kw name ≠ PValue.vnone ∧ cleanField f (lookupKw kw name) = Except.ok raw)) ∧
      cleanField f raw = Except.ok stored ∧
      initModel rest kw = Except.ok tail ∧
      vs = PValues.cons stored tail := by
  rw [initModel] at h
  by_cases hkv : lookupKw kw name = PValue.vnone
  · rw [if_pos hkv] at h
    obtain ⟨raw, hraw, h2⟩ := bind_ok_inv h
    obtain ⟨stored, hst, h3⟩ := bind_ok_inv h2
    obtain ⟨tail, htl, h4⟩ := bind_ok_inv h3
    refine ⟨raw, stored, tail, Or.inl ⟨hkv, hraw⟩, hst, htl, ?_⟩
    simpa [pure, Except.pure] using h4.symm
  · rw [if_neg hkv] at h
    obtain ⟨raw, hraw, h2⟩ := bind_ok_inv h
    obtain ⟨stored, hst, h3⟩ := bind_ok_inv h2
    obtain ⟨tail, htl, h4⟩ := bind_ok_inv h3
    refine ⟨raw, stored, tail, Or.inr ⟨hkv, hraw⟩, hst, htl, ?_⟩
    simpa [pure, Except.pure] using h4.symm


theorem modelCleanValue_inv {sub : Schema} {x y : PValue}
    (h : modelCleanValue sub x = Except.ok y) :
    (x = PValue.vnone ∧ y = PValue.vnone) ∨
    ∃ s2 vs2 ws, x = PValue.vmodel s2 vs2 ∧ y = PValue.vmodel sub ws ∧
      initModel sub (kwFrom sub s2 vs2) = Except.ok ws := by
  cases x with
  | vnone =>
    rw [modelCleanValue] at h
    exact Or.inl ⟨rfl, (Except.ok.inj h).symm⟩
  | vmodel s2 vs2 =>
    rw [modelCleanValue] at h
    obtain ⟨ws, hws, hy⟩ := map_ok_inv h
    exact Or.inr ⟨s2, vs2, ws, rfl, hy.symm, hws⟩
  | vstr a => simp [modelCleanValue] at h
  | vint a => simp [modelCleanValue] at h
  | vdec a b => simp [modelCleanValue] at h
  | vdate a => simp [modelCleanValue] at h
  | vdt a => simp [modelCleanValue] at h
  | vbytes a => simp [modelCleanValue] at h
  | vlist a => simp [modelCleanValue] at h

/-- The `ModelField` clause of `cleanField` delegates to `modelCleanValue`
after the default step (the `None` short-circuits agree). -/
theorem cleanField_fModel_eq (t : Option (List Char)) (nl : Bool) (d : SVal)
    (mt : List Char) (sub : Schema) (v : PValue) :
    cleanField (Field.fModel t nl d mt sub) v =
      modelCleanValue sub (applyDefault d v) := by
  rw [cleanField]
  cases hx : applyDefault d v with
  | vnone => rw [modelCleanValue]
  | vstr a => rfl
  | vint a => rfl
  | vdec a b => rfl
  | vdate a => rfl
  | vdt a => rfl
  | vbytes a => rfl
  | vlist a => rfl
  | vmodel a b => rfl

theorem cleanList_ok_vnone {t : Option (List Char)} {nl : Bool} {d : SVal}
    {inner : Field} {mn : Nat} {v : PValue}
    (h : cleanField (Field.fList t nl d inner mn) v = Except.ok PValue.vnone) :
    v = PValue.vnone ∧ svalToP d = PValue.vnone := by
  rw [cleanField] at h
  cases hx : applyDefault d v with
  | vnone => exact applyDefault_eq_vnone hx
  | vlist xs =>
    simp only [hx] at h
    obtain ⟨ys, hys, h2⟩ := bind_ok_inv h
    simp [pure, Except.pure] at h2
  | vstr a => simp [hx] at h
  | vint a => simp [hx] at h
  | vdec a b => simp [hx] at h
  | vdate a => simp [hx] at h
  | vdt a => simp [hx] at h
  | vbytes a => simp [hx] at h
  | vmodel a b => simp [hx] at h

theorem cleanList_shape {t : Option (List Char)} {nl : Bool} {d : SVal}
    {inner : Field} {mn : Nat} {v w : PValue} (hv : v ≠ PValue.vnone)
    (h : cleanField (Field.fList t nl d inner mn) v = Except.ok w) :
    ∃ zs, w = PValue.vlist zs := by
  rw [cleanField] at h
  have hx : applyDefault d v = v := by simp [applyDefault, hv]
  cases v with
  | vnone => exact absurd rfl hv
  | vlist xs =>
    simp only [hx] at h
    obtain ⟨ys, hys, h2⟩ := bind_ok_inv h
    exact ⟨_, by simpa [pure, Except.pure] using h2.symm⟩
  | vstr a => simp [hx] at h
  | vint a => simp [hx] at h
  | vdec a b => simp [hx] at h
  | vdate a => simp [hx] at h
  | vdt a => simp [hx] at h
  | vbytes a => simp [hx] at h
  | vmodel a b => simp [hx] at h

theorem cleanMList_ok_vnone {t : Option (List Char)} {nl : Bool} {d : SVal}
    {mt : List Char} {sub : Schema} {mn : Nat} {v : PValue}
    (h : cleanField (Field.fModelList t nl d mt sub mn) v = Except.ok PValue.vnone) :
    v = PValue.vnone ∧ svalToP d = PValue.vnone := by
  rw [cleanField] at h
  cases hx : applyDefault d v with
  | vnone => exact applyDefault_eq_vnone hx
  | vlist xs =>
    simp only [hx] at h
    obtain ⟨ys, hys, h2⟩ := bind_ok_inv h
    simp [pure, Except.pure] at h2
  | vstr a => simp [hx] at h
  | vint a => simp [hx] at h
  | vdec a b => simp [hx] at h
  | vdate a => simp [hx] at h
  | vdt a => simp [hx] at h
  | vbytes a => simp [hx] at h
  | vmodel a b => simp [hx] at h

theorem cleanMList_shape {t : Option (List Char)} {nl : Bool} {d : SVal}
    {mt : List Char} {sub : Schema} {mn : Nat} {v w : PValue} (hv : v ≠ PValue.vnone)
    (h : cleanField (Field.fModelList t nl d mt sub mn) v = Except.ok w) :
    ∃ zs, w = PValue.vlist zs := by
  rw [cleanField] at h
  have hx : applyDefault d v = v := by simp [applyDefault, hv]
  cases v with
  | vnone => exact absurd rfl hv
  | vlist xs =>
    simp only [hx] at h
    obtain ⟨ys, hys, h2⟩ := bind_ok_inv h
    exact ⟨_, by simpa [pure, Except.pure] using h2.symm⟩
  | vstr a => simp [hx] at h
  | vint a => simp [hx] at h
  | vdec a b => simp [hx] at h
  | vdate a => simp [hx] at h
  | vdt a => simp [hx] at h
  | vbytes a => simp [hx] at h
  | vmodel a b => simp [hx] at h

theorem cleanVals_fixed (inner : Field) : ∀ (vs : PValues),
    (∀ z ∈ PValues.toList vs, cleanField inner z = Except.ok z) →
    cleanVals inner vs = Except.ok vs
  | PValues.nil, _ => by rw [cleanVals]
  | PValues.cons v vs, h => by
    have h1 : cleanField inner v = Except.ok v := h v (by simp [PValues.toList])
    have h2 : cleanVals inner vs = Except.ok vs :=
      cleanVals_fixed inner vs (fun z hz => h z (by simp [PValues.toList, hz]))
    rw [cleanVals]
    simp [h1, h2, res_bind_ok, pure, Except.pure]

theorem cleanModels_fixed (sub : Schema) : ∀ (vs : PValues),
    (∀ z ∈ PValues.toList vs, modelCleanValue sub z = Except.ok z) →
    cleanModels sub vs = Except.ok vs
  | PValues.nil, _ => by rw [cleanModels]
  | PValues.cons v vs, h => by
    have h1 : modelCleanValue sub v = Except.ok v := h v (by simp [PValues.toList])
    have h2 : cleanModels sub vs = Except.ok vs :=
      cleanModels_fixed sub vs (fun z hz => h z (by simp [PValues.toList, hz]))
    rw [cleanModels]
    simp [h1, h2, res_bind_ok, pure, Except.pure]


/-! ### Idempotence of cleaning

`clean_value` composed with itself is `clean_value`, provided no two fields
of any (nested) schema share a name (`namesOK`); `initModel_copy` is the key
invariant: re-constructing a model from its own attributes
(`Model.clean_value` on an already-constructed instance) stores the same
values. -/

mutual

theorem cleanField_idem : ∀ (f : Field) (x y : PValue), namesOKF f = true →
    cleanField f x = Except.ok y → cleanField f y = Except.ok y
  | Field.fStr t nl d, x, y, _, h => by
    rw [cleanField] at h ⊢
    exact strClean_idem d x y h
  | Field.fInt t nl d, x, y, _, h => by
    rw [cleanField] at h ⊢
    exact intClean_idem d x y h
  | Field.fDec t nl d dcm, x, y, _, h => by
    rw [cleanField] at h ⊢
    exact decClean_idem d x y h
  | Field.fDate t nl d, x, y, _, h => by
    rw [cleanField] at h ⊢
    exact dateClean_idem d x y h
  | Field.fDT t nl d, x, y, _, h => by
    rw [cleanField] at h ⊢
    exact dtClean_idem d x y h
  | Field.fBytes t nl d, x, y, _, h => by
    rw [cleanField] at h ⊢
    exact bytesClean_idem d x y h
  | Field.fNotImpl t nl, x, y, _, h => by
    rw [cleanField] at h ⊢
    rw [← Except.ok.inj h]
  | Field.fList t nl d inner mn, x, y, hn, h => by
    have hnI : namesOKF inner = true := by simpa [namesOKF] using hn
    rw [cleanField] at h
    cases hx : applyDefault d x with
    | vnone =>
      simp only [hx] at h
      obtain ⟨-, hd⟩ := applyDefault_eq_vnone hx
      rw [← Except.ok.inj h]
      rw [cleanField]
      simp [applyDefault, hd]
    | vlist xs =>
      simp only [hx] at h
      obtain ⟨ys, hys, h2⟩ := bind_ok_inv h
      have hy : y = PValue.vlist (PValues.ofList
          (popTrailing (hasValueField inner) mn (PValues.toList ys))) := by
        simpa [pure, Except.pure] using h2.symm
      subst hy
      have hfixed : ∀ z ∈ PValues.toList (PValues.ofList
          (popTrailing (hasValueField inner) mn (PValues.toList ys))),
          cleanField inner z = Except.ok z := by
        intro z hz
        rw [PValues.toList_ofList] at hz
        exact cleanVals_idem_elems inner xs ys hnI hys z
          (popTrailing_subset _ _ _ z hz)
      have hcv := cleanVals_fixed inner _ hfixed
      rw [cleanField]
      simp [applyDefault, hcv, res_bind_ok, pure, Except.pure,
        PValues.toList_ofList, popTrailing_idem]
    | vstr a => simp [hx] at h
    | vint a => simp [hx] at h
    | vdec a b => simp [hx] at h
    | vdate a => simp [hx] at h
    | vdt a => simp [hx] at h
    | vbytes a => simp [hx] at h
    | vmodel a b => simp [hx] at h
  | Field.fModel t nl d mt sub, x, y, hn, h => by
    have hnS : namesOKS sub = true := by simpa [namesOKF] using hn
    rw [cleanField_fModel_eq] at h
    have hidem := modelCleanValue_idem sub _ y hnS h
    rcases modelCleanValue_inv h with ⟨hx0, hy⟩ | ⟨s2, vs2, ws, hx0, hy, -⟩
    · subst hy
      obtain ⟨-, hd⟩ := applyDefault_eq_vnone hx0
      rw [cleanField_fModel_eq]
      have hax : applyDefault d PValue.vnone = PValue.vnone := by
        simp [applyDefault, hd]
      rw [hax, modelCleanValue]
    · subst hy
      rw [cleanField_fModel_eq]
      have hax : applyDefault d (PValue.vmodel sub ws) = PValue.vmodel sub ws := by
        simp [applyDefault]
      rw [hax]
      exact hidem
  | Field.fModelList t nl d mt sub mn, x, y, hn, h => by
    have hnS : namesOKS sub = true := by simpa [namesOKF] using hn
    rw [cleanField] at h
    cases hx : applyDefault d x with
    | vnone =>
      simp only [hx] at h
      obtain ⟨-, hd⟩ := applyDefault_eq_vnone hx
      rw [← Except.ok.inj h]
      rw [cleanField]
      simp [applyDefault, hd]
    | vlist xs =>
      simp only [hx] at h
      obtain ⟨ys, hys, h2⟩ := bind_ok_inv h
      have hy : y = PValue.vlist (PValues.ofList
          (popTrailing selfHasValue mn (PValues.toList ys))) := by
        simpa [pure, Except.pure] using h2.symm
      subst hy
      have hfixed : ∀ z ∈ PValues.toList (PValues.ofList
          (popTrailing selfHasValue mn (PValues.toList ys))),
          modelCleanValue sub z = Except.ok z := by
        intro z hz
        rw [PValues.toList_ofList] at hz
        exact cleanModels_idem_elems sub xs ys hnS hys z
          (popTrailing_subset _ _ _ z hz)
      have hcm := cleanModels_fixed sub _ hfixed
      rw [cleanField]
      simp [applyDefault, hcm, res_bind_ok, pure, Except.pure,
        PValues.toList_ofList, popTrailing_idem]
    | vstr a => simp [hx] at h
    | vint a => simp [hx] at h
    | vdec a b => simp [hx] at h
    | vdate a => simp [hx] at h
    | vdt a => simp [hx] at h
    | vbytes a => simp [hx] at h
    | vmodel a b => simp [hx] at h
termination_by f _ _ _ _ => (sizeOf f, 0)

theorem modelCleanValue_idem : ∀ (s : Schema) (x y : PValue), namesOKS s = true →
    modelCleanValue s x = Except.ok y → modelCleanValue s y = Except.ok y
  | s, x, y, hn, h => by
    rcases modelCleanValue_inv h with ⟨hx0, hy⟩ | ⟨s2, vs2, ws, hx0, hy, hinit⟩
    · subst hy
      rw [modelCleanValue]
    · subst hy
      rw [modelCleanValue]
      have hcopy : initModel s (kwFrom s s ws) = Except.ok ws :=
        initModel_copy s (kwFrom s s2 vs2) ws (kwFrom s s ws) hn hinit
          (fun n hna => lookupKw_kwFrom s s ws n hna)
      rw [hcopy, res_map_ok]
termination_by s _ _ _ _ => (sizeOf s, 1)

theorem initModel_copy : ∀ (s : Schema) (kw0 : List (List Char × PValue))
    (vs : PValues) (kw : List (List Char × PValue)), namesOKS s = true →
    initModel s kw0 = Except.ok vs →
    (∀ n, n ∈ schemaNames s → lookupKw kw n = getattrP s vs n) →
    initModel s kw = Except.ok vs
  | Schema.nil, kw0, vs, kw, _, h, _ => by
    rw [initModel] at h
    rw [← Except.ok.inj h]
    rw [initModel]
  | Schema.cons name f rest, kw0, vs, kw, hn, h, hk => by
    obtain ⟨raw, stored, tail, hraw, hst, htl, hvs⟩ := initModel_cons_inv h
    subst hvs
    have hn3 : namesOKF f = true ∧ ¬(name ∈ schemaNames rest) ∧
        namesOKS rest = true := by
      have hh := hn
      simp [namesOKS, Bool.and_eq_true, Bool.not_eq_true'] at hh
      exact ⟨hh.1.1, hh.1.2, hh.2⟩
    have hidem : cleanField f stored = Except.ok stored :=
      cleanField_idem f raw stored hn3.1 hst
    have hkv : lookupKw kw name = stored := by
      have hh := hk name (by simp [schemaNames])
      rw [hh]
      simp [getattrP]
    have htail : initModel rest kw = Except.ok tail := by
      refine initModel_copy rest kw0 tail kw hn3.2.2 htl ?_
      intro n hna
      have hne : ¬(name = n) := by
        intro he
        subst he
        exact hn3.2.1 hna
      have hh := hk n (by simp [schemaNames, hna])
      rw [hh]
      simp [getattrP, hne]
    rw [initModel]
    by_cases hsv : stored = PValue.vnone
    · subst hsv
      rcases hraw with ⟨hkv0, hcr⟩ | ⟨hkv0, hcl⟩
      · simp [hkv, hcr, hst, htail, res_bind_ok, pure, Except.pure]
      · cases f with
        | fStr ta nla da =>
          simp [hkv, constructRaw, hidem, htail, res_bind_ok, pure, Except.pure]
        | fInt ta nla da =>
          simp [hkv, constructRaw, hidem, htail, res_bind_ok, pure, Except.pure]
        | fDec ta nla da dd =>
          simp [hkv, constructRaw, hidem, htail, res_bind_ok, pure, Except.pure]
        | fDate ta nla da =>
          simp [hkv, constructRaw, hidem, htail, res_bind_ok, pure, Except.pure]
        | fDT ta nla da =>
          simp [hkv, constructRaw, hidem, htail, res_bind_ok, pure, Except.pure]
        | fBytes ta nla da =>
          simp [hkv, constructRaw, hidem, htail, res_bind_ok, pure, Except.pure]
        | fNotImpl ta nla =>
          simp [hkv, constructRaw, hidem, htail, res_bind_ok, pure, Except.pure]
        | fList ta nla da inner mna =>
          obtain ⟨zs, hz⟩ := cleanList_shape hkv0 hcl
          subst hz
          obtain ⟨h1, -⟩ := cleanList_ok_vnone hst
          cases h1
        | fModel ta nla da mta suba =>
          rw [cleanField_fModel_eq] at hcl hst
          have hax : applyDefault da (lookupKw kw0 name) = lookupKw kw0 name := by
            simp [applyDefault, hkv0]
          rw [hax] at hcl
          rcases modelCleanValue_inv hcl with ⟨he, -⟩ | ⟨s2, vs2, ws, -, hrw, -⟩
          · exact absurd he hkv0
          · subst hrw
            have hax2 : applyDefault da (PValue.vmodel suba ws) =
                PValue.vmodel suba ws := by simp [applyDefault]
            rw [hax2] at hst
            rcases modelCleanValue_inv hst with ⟨he, -⟩ | ⟨s3, vs3, ws3, -, hbad, -⟩
            · cases he
            · cases hbad
        | fModelList ta nla da mta suba mna =>
          obtain ⟨zs, hz⟩ := cleanMList_shape hkv0 hcl
          subst hz
          obtain ⟨h1, -⟩ := cleanMList_ok_vnone hst
          cases h1
    · simp [hkv, hsv, hidem, htail, res_bind_ok, pure, Except.pure]
termination_by s _ _ _ _ _ _ => (sizeOf s, 0)

theorem cleanVals_idem_elems : ∀ (inner : Field) (xs ys : PValues),
    namesOKF inner = true → cleanVals inner xs = Except.ok ys →
    ∀ y ∈ PValues.toList ys, cleanField inner y = Except.ok y
  | inner, PValues.nil, ys, _, h => by
    rw [cleanVals] at h
    rw [← Except.ok.inj h]
    simp [PValues.toList]
  | inner, PValues.cons x xs, ys, hn, h => by
    rw [cleanVals] at h
    obtain ⟨y0, hy0, h2⟩ := bind_ok_inv h
    obtain ⟨ys0, hys0, h3⟩ := bind_ok_inv h2
    have hys : ys = PValues.cons y0 ys0 := by
      simpa [pure, Except.pure] using h3.symm
    subst hys
    intro z hz
    rw [PValues.toList] at hz
    rcases List.mem_cons.mp hz with hz1 | hz2
    · subst hz1
      exact cleanField_idem inner x z hn hy0
    · exact cleanVals_idem_elems inner xs ys0 hn hys0 z hz2
termination_by inner xs _ _ _ => (sizeOf inner, 1 + sizeOf xs)

theorem cleanModels_idem_elems : ∀ (sub : Schema) (xs ys : PValues),
    namesOKS sub = true → cleanModels sub xs = Except.ok ys →
    ∀ y ∈ PValues.toList ys, modelCleanValue sub y = Except.ok y
  | sub, PValues.nil, ys, _, h => by
    rw [cleanModels] at h
    rw [← Except.ok.inj h]
    simp [PValues.toList]
  | sub, PValues.cons x xs, ys, hn, h => by
    rw [cleanModels] at h
    obtain ⟨y0, hy0, h2⟩ := bind_ok_inv h
    obtain ⟨ys0, hys0, h3⟩ := bind_ok_inv h2
    have hys : ys = PValues.cons y0 ys0 := by
      simpa [pure, Except.pure] using h3.symm
    subst hys
    intro z hz
    rw [PValues.toList] at hz
    rcases List.mem_cons.mp hz with hz1 | hz2
    · subst hz1
      exact modelCleanValue_idem sub x z hn hy0
    · exact cleanModels_idem_elems sub xs ys0 hn hys0 z hz2
termination_by sub xs _ _ _ => (sizeOf sub, 2 + sizeOf xs)

end


/-! ### C2: clean_value idempotence -/

/-- C2: for every field kind and every input accepted by that field's
`clean_value` (`cleanField f x = ok y` for some `y`), cleaning the result
again returns it unchanged: `clean(clean(x)) == clean(x)`.  The `namesOKF`
hypothesis states that no (nested) schema declares two fields with the same
name, which Python guarantees because `_meta` is a dict keyed by attribute
name. -/
theorem c2_clean_value_idempotent (f : Field) (x y : PValue)
    (hn : namesOKF f = true) (h : cleanField f x = Except.ok y) :
    cleanField f x >>= cleanField f = cleanField f x := by
  rw [h, res_bind_ok, cleanField_idem f x y hn h]

theorem c2_clean_value_idempotent_witness :
    namesOKF (Field.fStr Option.none false SVal.none) = true ∧
    cleanField (Field.fStr Option.none false SVal.none) (PValue.vstr ['a'])
      = Except.ok (PValue.vstr ['a']) ∧
    cleanField (Field.fStr Option.none false SVal.none) (PValue.vstr ['a'])
        >>= cleanField (Field.fStr Option.none false SVal.none)
      = cleanField (Field.fStr Option.none false SVal.none) (PValue.vstr ['a']) := by
  refine ⟨by simp [namesOKF], ?_, ?_⟩
  · simp [cleanField, strClean, applyDefault, pyStr]
  · exact c2_clean_value_idempotent (Field.fStr Option.none false SVal.none)
      (PValue.vstr ['a']) (PValue.vstr ['a']) (by simp [namesOKF])
      (by simp [cleanField, strClean, applyDefault, pyStr])


/-! ### C5: stored values are always clean -/

theorem namesOKS_cons {name : List Char} {f : Field} {rest : Schema}
    (hn : namesOKS (Schema.cons name f rest) = true) :
    namesOKF f = true ∧ ¬(name ∈ schemaNames rest) ∧ namesOKS rest = true := by
  have hh := hn
  simp [namesOKS] at hh
  exact ⟨hh.1.1, hh.1.2, hh.2⟩

theorem initModel_cleanFixed : ∀ (s : Schema) (kw : List (List Char × PValue))
    (vs : PValues), namesOKS s = true → initModel s kw = Except.ok vs →
    cleanFixedS s vs = true
  | Schema.nil, kw, vs, _, h => by
    rw [initModel] at h
    rw [← Except.ok.inj h]
    rfl
  | Schema.cons name f rest, kw, vs, hn, h => by
    obtain ⟨raw, stored, tail, hraw, hst, htl, hvs⟩ := initModel_cons_inv h
    subst hvs
    obtain ⟨hnF, hnm, hnR⟩ := namesOKS_cons hn
    have hfix : cleanFixedF f stored = true := by
      have hh := cleanField_idem f raw stored hnF hst
      simp [cleanFixedF, hh]
    have htfix := initModel_cleanFixed rest kw tail hnR htl
    simp [cleanFixedS, hfix, htfix]

/-- `_meta.get(key)`: the field declared under a name. -/
def fieldLookup : Schema → List Char → Option Field
  | Schema.nil, _ => Option.none
  | Schema.cons n f rest, key => if n = key then some f else fieldLookup rest key

theorem setattrDeclared_spec : ∀ (s : Schema) (vs : PValues) (key : List Char)
    (v : PValue) (f : Field) (vs2 : PValues),
    namesOKS s = true → cleanFixedS s vs = true →
    fieldLookup s key = some f →
    setattrDeclared s vs key v = Except.ok vs2 →
    (∃ w, cleanField f v = Except.ok w ∧ getattrP s vs2 key = w) ∧
      cleanFixedS s vs2 = true
  | Schema.nil, vs, key, v, f, vs2, _, _, hf, _ => by
    rw [fieldLookup] at hf
    cases hf
  | Schema.cons n f0 rest, vs, key, v, f, vs2, hn, hcf, hf, h => by
    cases vs with
    | nil => simp [cleanFixedS] at hcf
    | cons old vs0 =>
      obtain ⟨hnF, hnm, hnR⟩ := namesOKS_cons hn
      have hcf2 : cleanFixedF f0 old = true ∧ cleanFixedS rest vs0 = true := by
        simpa [cleanFixedS, Bool.and_eq_true] using hcf
      by_cases hk : n = key
      · subst hk
        have hf2 : f0 = f := by simpa [fieldLookup] using hf
        subst hf2
        rw [setattrDeclared] at h
        simp only [if_pos rfl] at h
        obtain ⟨w, hw, h2⟩ := bind_ok_inv h
        have hvs2 : vs2 = PValues.cons w vs0 := by
          simpa [pure, Except.pure] using h2.symm
        subst hvs2
        refine ⟨⟨w, hw, by simp [getattrP]⟩, ?_⟩
        have hfix : cleanFixedF f0 w = true := by
          have hh := cleanField_idem f0 v w hnF hw
          simp [cleanFixedF, hh]
        simp [cleanFixedS, hfix, hcf2.2]
      · have hf2 : fieldLookup rest key = some f := by simpa [fieldLookup, hk] using hf
        rw [setattrDeclared] at h
        simp only [if_neg hk] at h
        obtain ⟨tail, htail, h2⟩ := bind_ok_inv h
        have hvs2 : vs2 = PValues.cons old tail := by
          simpa [pure, Except.pure] using h2.symm
        subst hvs2
        obtain ⟨⟨w, hw, hget⟩, hfixtail⟩ :=
          setattrDeclared_spec rest vs0 key v f tail hnR hcf2.2 hf2 htail
        refine ⟨⟨w, hw, by simp [getattrP, hk, hget]⟩, ?_⟩
        simp [cleanFixedS, hcf2.1, hfixtail]

theorem fieldLookup_some_mem : ∀ (s : Schema) (key : List Char) (f : Field),
    fieldLookup s key = some f → key ∈ schemaNames s
  | Schema.nil, key, f, h => by rw [fieldLookup] at h; cases h
  | Schema.cons n f0 rest, key, f, h => by
    by_cases hk : n = key
    · subst hk
      simp [schemaNames]
    · have h2 : fieldLookup rest key = some f := by simpa [fieldLookup, hk] using h
      simp [schemaNames, fieldLookup_some_mem rest key f h2]

/-- C5: stored values always equal their own `clean_value` image.  First
conjunct: construction (`Model.__init__`, keyword form) only stores fixed
points of each field's `clean_value`.  Second conjunct: a later assignment
to a declared field (`Model.__setattr__`) stores exactly the `clean_value`
image of the assigned value, and keeps every stored value a fixed point. -/
theorem c5_stored_values_are_clean :
    (∀ (s : Schema) (kw : List (List Char × PValue)) (vs : PValues),
      namesOKS s = true → initModel s kw = Except.ok vs →
      cleanFixedS s vs = true) ∧
    (∀ (s : Schema) (vs : PValues) (extra : List (List Char × PValue))
        (key : List Char) (v : PValue) (f : Field) (vs2 : PValues)
        (extra2 : List (List Char × PValue)),
      namesOKS s = true → cleanFixedS s vs = true →
      fieldLookup s key = some f →
      setattrModel s vs extra key v = Except.ok (vs2, extra2) →
      (∃ w, cleanField f v = Except.ok w ∧ getattrP s vs2 key = w) ∧
        cleanFixedS s vs2 = true) := by
  constructor
  · exact fun s kw vs hn h => initModel_cleanFixed s kw vs hn h
  · intro s vs extra key v f vs2 extra2 hn hcf hf h
    have hmem : key ∈ schemaNames s := fieldLookup_some_mem s key f hf
    rw [setattrModel] at h
    have hcon : (schemaNames s).contains key = true := by
      simpa using hmem
    rw [if_pos hcon] at h
    obtain ⟨vs3, hvs3, h2⟩ := bind_ok_inv h
    have hpair : vs3 = vs2 ∧ extra = extra2 := by
      have hh : (⟨vs3, extra⟩ : PValues × List (List Char × PValue)) = (vs2, extra2) := by
        simpa [pure, Except.pure] using h2
      exact ⟨congrArg Prod.fst hh, congrArg Prod.snd hh⟩
    obtain ⟨hv32, -⟩ := hpair
    subst hv32
    exact setattrDeclared_spec s vs key v f vs3 hn hcf hf hvs3

theorem c5_stored_values_are_clean_witness :
    cleanFixedS (Schema.cons ['a'] (Field.fStr Option.none false SVal.none) Schema.nil)
      (PValues.cons PValue.vnone PValues.nil) = true := by
  refine c5_stored_values_are_clean.1
    (Schema.cons ['a'] (Field.fStr Option.none false SVal.none) Schema.nil) []
    (PValues.cons PValue.vnone PValues.nil) (by simp [namesOKS, namesOKF, schemaNames]) ?_
  rw [initModel]
  simp [lookupKw, constructRaw, res_bind_ok, cleanField, strClean, applyDefault,
    svalToP, initModel, pure, Except.pure]


/-! ### C4: empty nested sections are pruned from the output -/

/-- C4: for a model-valued field whose (cleaned) value has `has_value()`
false, `to_xml` emits no element at all, `to_jsonable` yields `None`, and
`Model.to_jsonable` therefore omits the entry from the resulting dict. -/
theorem c4_empty_model_field_is_pruned
    (t : Option (List Char)) (nl : Bool) (d : SVal) (mtag : List Char)
    (sub : Schema) (tag : List Char) (v v1 : PValue)
    (hclean : cleanField (Field.fModel t nl d mtag sub) v = Except.ok v1)
    (hhas : hasValueField (Field.fModel t nl d mtag sub) v1 = false) :
    emitField tag (Field.fModel t nl d mtag sub) v = Except.ok [] ∧
    fieldToJsonable (Field.fModel t nl d mtag sub) v = Except.ok JVal.jnull ∧
    ∀ (name : List Char) (rest : Schema) (vs : PValues),
      modelToJsonable (Schema.cons name (Field.fModel t nl d mtag sub) rest)
          (PValues.cons v vs) = modelToJsonable rest vs := by
  have hj : fieldToJsonable (Field.fModel t nl d mtag sub) v = Except.ok JVal.jnull := by
    rw [fieldToJsonable]
    simp [hclean, hhas, res_bind_ok, pure, Except.pure]
  refine ⟨?_, hj, ?_⟩
  · rw [emitField]
    simp [hclean, hhas, res_bind_ok, pure, Except.pure]
  · intro name rest vs
    rw [modelToJsonable, hj, res_bind_ok]
    cases hm : modelToJsonable rest vs with
    | ok tail => simp [hm, res_bind_ok, pure, Except.pure]
    | error e => simp [hm, res_bind_err]

theorem c4_empty_model_field_is_pruned_witness :
    emitField ['T'] (Field.fModel Option.none false SVal.none ['M']
        (Schema.cons ['b'] (Field.fStr Option.none false SVal.none) Schema.nil))
      PValue.vnone = Except.ok [] ∧
    fieldToJsonable (Field.fModel Option.none false SVal.none ['M']
        (Schema.cons ['b'] (Field.fStr Option.none false SVal.none) Schema.nil))
      PValue.vnone = Except.ok JVal.jnull ∧
    modelToJsonable
        (Schema.cons ['x'] (Field.fModel Option.none false SVal.none ['M']
          (Schema.cons ['b'] (Field.fStr Option.none false SVal.none) Schema.nil))
          Schema.nil)
        (PValues.cons PValue.vnone PValues.nil)
      = modelToJsonable Schema.nil PValues.nil := by
  have h := c4_empty_model_field_is_pruned Option.none false SVal.none ['M']
    (Schema.cons ['b'] (Field.fStr Option.none false SVal.none) Schema.nil)
    ['T'] PValue.vnone PValue.vnone
    (by rw [cleanField_fModel_eq]
        simp [applyDefault, svalToP, modelCleanValue])
    (by simp [hasValueField])
  exact ⟨h.1, h.2.1, h.2.2 ['x'] Schema.nil PValues.nil⟩


/-! ### C6: Model equality -/

/-- C6 counterexample: an all-empty instance does NOT always compare equal
to another all-empty instance of a different schema.  Here the left model
has an integer field `a`, the right (all-empty) model has a model-valued
field `a`; coercing the right side through the left schema applies
`IntegerField.clean_value` to a model instance, which raises `TypeError`, so
`__eq__` propagates the error instead of answering `True`. -/
theorem c6_counterexample :
    hasValueModel (Schema.cons ['a'] (Field.fInt Option.none false SVal.none) Schema.nil)
      (PValues.cons PValue.vnone PValues.nil) = false ∧
    hasValueModel
      (Schema.cons ['a'] (Field.fModel Option.none false SVal.none ['M']
        (Schema.cons ['b'] (Field.fStr Option.none false SVal.none) Schema.nil))
        Schema.nil)
      (PValues.cons (PValue.vmodel
        (Schema.cons ['b'] (Field.fStr Option.none false SVal.none) Schema.nil)
        (PValues.cons PValue.vnone PValues.nil)) PValues.nil) = false ∧
    modelEq (Schema.cons ['a'] (Field.fInt Option.none false SVal.none) Schema.nil)
      (PValues.cons PValue.vnone PValues.nil)
      (PValue.vmodel
        (Schema.cons ['a'] (Field.fModel Option.none false SVal.none ['M']
          (Schema.cons ['b'] (Field.fStr Option.none false SVal.none) Schema.nil))
          Schema.nil)
        (PValues.cons (PValue.vmodel
          (Schema.cons ['b'] (Field.fStr Option.none false SVal.none) Schema.nil)
          (PValues.cons PValue.vnone PValues.nil)) PValues.nil))
      = Except.error PyErr.typeError := by
  refine ⟨?_, ?_, ?_⟩
  · simp [hasValueModel, hasValueField]
  · simp [hasValueModel, hasValueField]
  · have hmc : modelCleanValue
        (Schema.cons ['a'] (Field.fInt Option.none false SVal.none) Schema.nil)
        (PValue.vmodel
          (Schema.cons ['a'] (Field.fModel Option.none false SVal.none ['M']
            (Schema.cons ['b'] (Field.fStr Option.none false SVal.none) Schema.nil))
            Schema.nil)
          (PValues.cons (PValue.vmodel
            (Schema.cons ['b'] (Field.fStr Option.none false SVal.none) Schema.nil)
            (PValues.cons PValue.vnone PValues.nil)) PValues.nil))
        = Except.error PyErr.typeError := by
      rw [modelCleanValue]
      rw [initModel]
      simp [kwFrom, schemaNames, getattrP, lookupKw, List.find?, cleanField,
        intClean, applyDefault, res_bind_err, res_map_err]
    rw [modelEq, hmc, res_bind_err]

/-- C6 amended: `Model.__eq__` first coerces the right-hand side through this
schema's `clean_value` and propagates any coercion error; an instance
compares to `None` as the negation of its `has_value()`; two sides that are
both empty compare equal; and when both sides have values the result is the
elementwise comparison of the ordered field-value tuples. -/
theorem c6_model_equality_semantics :
    (∀ (s : Schema) (vs : PValues),
      modelEq s vs PValue.vnone = Except.ok (!(hasValueModel s vs))) ∧
    (∀ (s : Schema) (vs : PValues) (other : PValue) (e : PyErr),
      modelCleanValue s other = Except.error e →
      modelEq s vs other = Except.error e) ∧
    (∀ (s : Schema) (vs : PValues) (other other2 : PValue),
      modelCleanValue s other = Except.ok other2 →
      hasValueModel s vs = false → selfHasValue other2 = false →
      modelEq s vs other = Except.ok true) ∧
    (∀ (s : Schema) (vs vs2 : PValues) (other : PValue),
      modelCleanValue s other = Except.ok (PValue.vmodel s vs2) →
      hasValueModel s vs = true → hasValueModel s vs2 = true →
      modelEq s vs other = pvalsEq vs vs2) := by
  refine ⟨?_, ?_, ?_, ?_⟩
  · intro s vs
    have h0 : modelCleanValue s PValue.vnone = Except.ok PValue.vnone := by
      rw [modelCleanValue]
    rw [modelEq, h0, res_bind_ok]
    cases hsv : hasValueModel s vs <;> simp [hsv, pure, Except.pure]
  · intro s vs other e h
    rw [modelEq, h, res_bind_err]
  · intro s vs other other2 h hs ho
    rw [modelEq, h, res_bind_ok]
    rcases modelCleanValue_inv h with ⟨-, hy⟩ | ⟨s2, vs2, ws, -, hy, -⟩
    · subst hy
      simp [hs, pure, Except.pure]
    · subst hy
      have hw : hasValueModel s ws = false := by simpa [selfHasValue] using ho
      simp [hs, hw, pure, Except.pure]
  · intro s vs vs2 other h hs h2
    rw [modelEq, h, res_bind_ok]
    simp [hs, h2, pure, Except.pure]

theorem c6_model_equality_semantics_witness :
    modelEq (Schema.cons ['c'] (Field.fInt Option.none false SVal.none) Schema.nil)
      (PValues.cons (PValue.vint 1) PValues.nil) (PValue.vint 3)
      = Except.error PyErr.typeError :=
  c6_model_equality_semantics.2.1
    (Schema.cons ['c'] (Field.fInt Option.none false SVal.none) Schema.nil)
    (PValues.cons (PValue.vint 1) PValues.nil) (PValue.vint 3) PyErr.typeError
    (by simp [modelCleanValue])


/-! ### C3: when from_etree fails -/

/-- An instance's value list has one entry per schema field (true of every
constructed instance). -/
def sameShape : Schema → PValues → Bool
  | Schema.nil, PValues.nil => true
  | Schema.cons _ _ rest, PValues.cons _ vs => sameShape rest vs
  | _, _ => false

theorem parseFields_nil : ∀ (sFull s : Schema) (vs : PValues),
    sameShape s vs = true → parseFields sFull s vs [] = Except.ok vs
  | sFull, Schema.nil, vs, h => by
    cases vs with
    | nil => simp [parseFields]
    | cons v vs0 => simp [sameShape] at h
  | sFull, Schema.cons n f r, vs, h => by
    cases vs with
    | nil => simp [sameShape] at h
    | cons v vs0 =>
      have ih := parseFields_nil sFull r vs0 (by simpa [sameShape] using h)
      simp [parseFields, List.filter, ih, res_bind_ok, pure, Except.pure]

theorem bind_to_error {α β : Type} (ma : Res α) (f : α → Res β) (e : PyErr)
    (hf : ∀ a, f a = Except.error e) : ∃ e2, ma >>= f = Except.error e2 := by
  cases ma with
  | ok a => exact ⟨e, by rw [res_bind_ok]; exact hf a⟩
  | error e0 => exact ⟨e0, by rw [res_bind_err]⟩

theorem parseFields_singular_multi : ∀ (sFull s : Schema) (vs : PValues)
    (children : List Xml) (name : List Char) (f : Field),
    sameShape s vs = true → fieldLookup s name = some f → multivalue f = false →
    2 ≤ (children.filter (fun c => decide (tagLookup sFull c.tag = some name))).length →
    ∃ e, parseFields sFull s vs children = Except.error e
  | sFull, Schema.nil, vs, children, name, f, _, hf, _, _ => by
    rw [fieldLookup] at hf
    cases hf
  | sFull, Schema.cons n f0 rest, vs, children, name, f, hsh, hf, hmv, hlen => by
    cases vs with
    | nil => simp [sameShape] at hsh
    | cons v vs0 =>
      have hsh2 : sameShape rest vs0 = true := by simpa [sameShape] using hsh
      by_cases hk : n = name
      · subst hk
        have hf2 : f0 = f := by simpa [fieldLookup] using hf
        subst hf2
        cases hm : children.filter (fun c => decide (tagLookup sFull c.tag = some n)) with
        | nil => rw [hm] at hlen; simp at hlen
        | cons a tl =>
          cases tl with
          | nil => rw [hm] at hlen; simp at hlen
          | cons b tl2 =>
            refine ⟨PyErr.runtimeError, ?_⟩
            simp [parseFields, hm, hmv, res_bind_err]
      · have hf2 : fieldLookup rest name = some f := by simpa [fieldLookup, hk] using hf
        obtain ⟨e, he⟩ :=
          parseFields_singular_multi sFull rest vs0 children name f hsh2 hf2 hmv hlen
        by_cases hie : (List.filter
            (fun c => decide (tagLookup sFull c.tag = some n)) children).isEmpty = true
        · exact ⟨e, by
            simp [parseFields, hie, he, res_bind_err, res_bind_ok, pure, Except.pure]⟩
        · by_cases hmv0 : multivalue f0 = true
          · cases hpe : fieldFromEtreeMulti f0 (List.filter
                (fun c => decide (tagLookup sFull c.tag = some n)) children) with
            | error e0 =>
              exact ⟨e0, by simp [parseFields, hie, hmv0, hpe, res_bind_err]⟩
            | ok parsed =>
              cases hcl : cleanField f0 parsed with
              | error e1 =>
                exact ⟨e1, by
                  simp [parseFields, hie, hmv0, hpe, hcl, res_bind_err, res_bind_ok]⟩
              | ok y =>
                exact ⟨e, by
                  simp [parseFields, hie, hmv0, hpe, hcl, he, res_bind_err, res_bind_ok]⟩
          · cases hm : List.filter
                (fun c => decide (tagLookup sFull c.tag = some n)) children with
            | nil => rw [hm] at hie; simp at hie
            | cons a tl =>
              cases tl with
              | nil =>
                cases hpe : fieldFromEtree f0 a with
                | error e0 =>
                  exact ⟨e0, by simp [parseFields, hie, hmv0, hm, hpe, res_bind_err]⟩
                | ok parsed =>
                  cases hcl : cleanField f0 parsed with
                  | error e1 =>
                    exact ⟨e1, by
                      simp [parseFields, hie, hmv0, hm, hpe, hcl,
                        res_bind_err, res_bind_ok]⟩
                  | ok y =>
                    exact ⟨e, by
                      simp [parseFields, hie, hmv0, hm, hpe, hcl, he,
                        res_bind_ok, res_bind_err]⟩
              | cons b tl2 =>
                exact ⟨PyErr.runtimeError, by
                  simp [parseFields, hie, hmv0, hm, res_bind_err]⟩

/-- C3 counterexample: zero matching children for a singular,
NON-nullable field is not an error — the field is simply left untouched.
Here the schema's only field `a` is not nullable, the element has no
children at all, and `from_etree` succeeds. -/
theorem c3_counterexample :
    fieldNull (Field.fStr Option.none false SVal.none) = false ∧
    modelFromEtree ['M']
      (Schema.cons ['a'] (Field.fStr Option.none false SVal.none) Schema.nil)
      (PValues.cons PValue.vnone PValues.nil)
      (Xml.el ['M'] Option.none XmlList.nil)
      = Except.ok (PValues.cons PValue.vnone PValues.nil) := by
  refine ⟨rfl, ?_⟩
  rw [modelFromEtree]
  simp [Xml.tag, Xml.children, XmlList.toList, parseFields, List.filter,
    res_bind_ok, pure, Except.pure]

/-- C3 amended: `Model.from_etree` fails on a wrong element tag, on an
unrecognized child tag, and on two-or-more matching children for a singular
field; but zero matching children never fail, whatever the field's
nullability: the field is left untouched (shown here for a childless
element). -/
theorem c3_from_etree_errors :
    (∀ (mtag : List Char) (s : Schema) (inst : PValues) (el : Xml),
      el.tag ≠ mtag → modelFromEtree mtag s inst el = Except.error PyErr.runtimeError) ∧
    (∀ (mtag : List Char) (s : Schema) (inst : PValues) (el : Xml),
      el.tag = mtag → (∃ c ∈ el.children.toList, tagLookup s c.tag = Option.none) →
      modelFromEtree mtag s inst el = Except.error PyErr.runtimeError) ∧
    (∀ (mtag : List Char) (s : Schema) (inst : PValues) (el : Xml),
      el.tag = mtag → el.children.toList = [] → sameShape s inst = true →
      modelFromEtree mtag s inst el = Except.ok inst) ∧
    (∀ (mtag : List Char) (s : Schema) (inst : PValues) (el : Xml)
        (name : List Char) (f : Field),
      el.tag = mtag → (∀ c ∈ el.children.toList, (tagLookup s c.tag).isSome) →
      sameShape s inst = true → fieldLookup s name = some f → multivalue f = false →
      2 ≤ (el.children.toList.filter
        (fun c => decide (tagLookup s c.tag = some name))).length →
      ∃ e, modelFromEtree mtag s inst el = Except.error e) := by
  refine ⟨?_, ?_, ?_, ?_⟩
  · intro mtag s inst el htag
    rw [modelFromEtree, if_pos htag]
  · intro mtag s inst el htag ⟨c, hc, hnone⟩
    rw [modelFromEtree, if_neg (by simp [htag])]
    rw [if_pos]
    simp only [List.all_eq_true, not_forall]
    exact ⟨c, by simp [hc, hnone]⟩
  · intro mtag s inst el htag hch hsh
    rw [modelFromEtree, if_neg (by simp [htag])]
    rw [if_neg (by simp [hch]), hch]
    exact parseFields_nil s s inst hsh
  · intro mtag s inst el name f htag hknown hsh hf hmv hlen
    obtain ⟨e, he⟩ := parseFields_singular_multi s s inst el.children.toList name f
      hsh hf hmv hlen
    refine ⟨e, ?_⟩
    have hall : el.children.toList.all (fun c => (tagLookup s c.tag).isSome) = true := by
      simp only [List.all_eq_true]
      intro c hc
      exact hknown c hc
    rw [modelFromEtree, if_neg (by simp [htag])]
    rw [if_neg (by simp [hall])]
    exact he

theorem c3_from_etree_errors_witness :
    modelFromEtree ['X']
      (Schema.cons ['a'] (Field.fStr Option.none false SVal.none) Schema.nil)
      (PValues.cons PValue.vnone PValues.nil)
      (Xml.el ['Y'] Option.none XmlList.nil)
      = Except.error PyErr.runtimeError :=
  c3_from_etree_errors.1 ['X']
    (Schema.cons ['a'] (Field.fStr Option.none false SVal.none) Schema.nil)
    (PValues.cons PValue.vnone PValues.nil)
    (Xml.el ['Y'] Option.none XmlList.nil)
    (by simp [Xml.tag])


/-! ### C1: serialization round-trip machinery -/

theorem xmlToList_ofList (xs : List Xml) : (XmlList.ofList xs).toList = xs := by
  induction xs with
  | nil => rfl
  | cons x xs ih => simp [XmlList.ofList, XmlList.toList, ih]

theorem wfSchema_cons {name : List Char} {f : Field} {rest : Schema}
    (h : wfSchema (Schema.cons name f rest) = true) :
    wfField f = true ∧ ¬(name ∈ schemaNames rest) ∧
    ¬(resolvedTag name f ∈ schemaTags rest) ∧ wfSchema rest = true := by
  have hh := h
  simp [wfSchema] at hh
  exact ⟨hh.1.1.1, hh.1.1.2, hh.1.2, hh.2⟩

mutual

theorem wfField_namesOKF : ∀ (f : Field), wfField f = true → namesOKF f = true
  | Field.fStr _ _ _, _ => by simp [namesOKF]
  | Field.fInt _ _ _, _ => by simp [namesOKF]
  | Field.fDec _ _ _ _, _ => by simp [namesOKF]
  | Field.fDate _ _ _, _ => by simp [namesOKF]
  | Field.fDT _ _ _, _ => by simp [namesOKF]
  | Field.fBytes _ _ _, _ => by simp [namesOKF]
  | Field.fNotImpl _ _, _ => by simp [namesOKF]
  | Field.fList t nl d inner mn, h => by
    have hh := h
    simp [wfField] at hh
    have := wfField_namesOKF inner hh.2
    simpa [namesOKF] using this
  | Field.fModel t nl d mt sub, h => by
    have hh := h
    simp [wfField] at hh
    have := wfSchema_namesOKS sub hh.2
    simpa [namesOKF] using this
  | Field.fModelList t nl d mt sub mn, h => by
    have hh := h
    simp [wfField] at hh
    have := wfSchema_namesOKS sub hh.2
    simpa [namesOKF] using this
termination_by f _ => sizeOf f

theorem wfSchema_namesOKS : ∀ (s : Schema), wfSchema s = true → namesOKS s = true
  | Schema.nil, _ => by simp [namesOKS]
  | Schema.cons name f rest, h => by
    obtain ⟨hf, hnm, htg, hr⟩ := wfSchema_cons h
    simp [namesOKS, wfField_namesOKF f hf, wfSchema_namesOKS rest hr, hnm]
termination_by s _ => sizeOf s

end

theorem cleanFixedF_iff {f : Field} {v : PValue} :
    cleanFixedF f v = true ↔ cleanField f v = Except.ok v := by
  unfold cleanFixedF
  cases h : cleanField f v with
  | ok w => simp [Except.ok.injEq, eq_comm]
  | error e => simp

/-- A stored value satisfying every invariant C1 needs: a fixed point of
cleaning, well-typed, and (for compound fields) not `None`. -/
def goodF (f : Field) (v : PValue) : Bool :=
  cleanFixedF f v && wellTypedF f v && (isScalarField f || decide (v ≠ PValue.vnone))

def goodS : Schema → PValues → Bool
  | Schema.nil, PValues.nil => true
  | Schema.cons _ f rest, PValues.cons v vs => goodF f v && goodS rest vs
  | _, _ => false

theorem goodF_parts {f : Field} {v : PValue} (h : goodF f v = true) :
    cleanField f v = Except.ok v ∧ wellTypedF f v = true ∧
    (isScalarField f = false → v ≠ PValue.vnone) := by
  have hh := h
  simp [goodF, Bool.and_eq_true, Bool.or_eq_true] at hh
  refine ⟨cleanFixedF_iff.mp hh.1.1, hh.1.2, ?_⟩
  intro hsc
  rcases hh.2 with h1 | h1
  · rw [hsc] at h1; cases h1
  · exact h1

theorem goodF_intro {f : Field} {v : PValue} (h1 : cleanField f v = Except.ok v)
    (h2 : wellTypedF f v = true) (h3 : isScalarField f = true ∨ v ≠ PValue.vnone) :
    goodF f v = true := by
  simp [goodF, Bool.and_eq_true, Bool.or_eq_true, cleanFixedF_iff.mpr h1, h2]
  rcases h3 with h | h
  · exact Or.inl h
  · exact Or.inr h

theorem goodS_cons {name : List Char} {f : Field} {rest : Schema} {v : PValue}
    {vs : PValues} (h : goodS (Schema.cons name f rest) (PValues.cons v vs) = true) :
    goodF f v = true ∧ goodS rest vs = true := by
  simpa [goodS, Bool.and_eq_true] using h

theorem cleanFixedS_cons {name : List Char} {f : Field} {rest : Schema} {v : PValue}
    {vs : PValues} (h : cleanFixedS (Schema.cons name f rest) (PValues.cons v vs) = true) :
    cleanField f v = Except.ok v ∧ cleanFixedS rest vs = true := by
  have hh := h
  simp [cleanFixedS, Bool.and_eq_true] at hh
  exact ⟨cleanFixedF_iff.mp hh.1, hh.2⟩

theorem wellTypedS_cons {name : List Char} {f : Field} {rest : Schema} {v : PValue}
    {vs : PValues} (h : wellTypedS (Schema.cons name f rest) (PValues.cons v vs) = true) :
    wellTypedF f v = true ∧ wellTypedS rest vs = true := by
  have hh := h
  rw [wellTypedS] at hh
  simpa [Bool.and_eq_true] using hh

theorem goodS_shape_nil {vs : PValues}
    (h : goodS Schema.nil vs = true) : vs = PValues.nil := by
  cases vs with
  | nil => rfl
  | cons v vs0 => simp [goodS] at h

theorem goodS_shape_cons {name : List Char} {f : Field} {rest : Schema}
    {vs : PValues} (h : goodS (Schema.cons name f rest) vs = true) :
    ∃ v vs0, vs = PValues.cons v vs0 := by
  cases vs with
  | nil => simp [goodS] at h
  | cons v vs0 => exact ⟨v, vs0, rfl⟩

theorem cleanFixedS_shape_nil {vs : PValues}
    (h : cleanFixedS Schema.nil vs = true) : vs = PValues.nil := by
  cases vs with
  | nil => rfl
  | cons v vs0 => simp [cleanFixedS] at h

theorem cleanFixedS_shape_cons {name : List Char} {f : Field} {rest : Schema}
    {vs : PValues} (h : cleanFixedS (Schema.cons name f rest) vs = true) :
    ∃ v vs0, vs = PValues.cons v vs0 := by
  cases vs with
  | nil => simp [cleanFixedS] at h
  | cons v vs0 => exact ⟨v, vs0, rfl⟩

/-- The scalar kinds never match the multivalue dispatch. -/
theorem multivalue_scalar {f : Field} (h : isScalarField f = true) :
    multivalue f = false := by
  cases f <;> simp [multivalue] <;> simp [isScalarField] at h

theorem constructRaw_scalar {f : Field} (h : isScalarField f = true) :
    constructRaw f = Except.ok PValue.vnone := by
  cases f <;> solve
  | simp [constructRaw]
  | simp [isScalarField] at h

theorem hasValue_scalar {f : Field} (h : isScalarField f = true) (v : PValue) :
    hasValueField f v = decide (v ≠ PValue.vnone) := by
  cases f <;> (try (cases v <;> simp [hasValueField])) <;> simp [isScalarField] at h

theorem cleanScalar_vnone {f : Field} (hs : isScalarField f = true)
    (hd : fieldDefault f = SVal.none) : cleanField f PValue.vnone = Except.ok PValue.vnone := by
  cases f with
  | fStr t nl d =>
    have hd2 : d = SVal.none := hd
    subst hd2
    rw [cleanField]
    simp [strClean, applyDefault, svalToP]
  | fInt t nl d =>
    have hd2 : d = SVal.none := hd
    subst hd2
    rw [cleanField]
    simp [intClean, applyDefault, svalToP]
  | fDec t nl d dcm =>
    have hd2 : d = SVal.none := hd
    subst hd2
    rw [cleanField]
    simp [decClean, applyDefault, svalToP]
  | fDate t nl d =>
    have hd2 : d = SVal.none := hd
    subst hd2
    rw [cleanField]
    simp [dateClean, applyDefault, svalToP]
  | fDT t nl d =>
    have hd2 : d = SVal.none := hd
    subst hd2
    rw [cleanField]
    simp [dtClean, applyDefault, svalToP]
  | fBytes t nl d =>
    have hd2 : d = SVal.none := hd
    subst hd2
    rw [cleanField]
    simp [bytesClean, applyDefault, svalToP]
  | fNotImpl t nl => rw [cleanField]
  | fList t nl d inner mn => simp [isScalarField] at hs
  | fModel t nl d mt sub => simp [isScalarField] at hs
  | fModelList t nl d mt sub mn => simp [isScalarField] at hs

theorem fieldFromEtree_scalar {f : Field} (h : isScalarField f = true) (x : Xml) :
    fieldFromEtree f x = cleanField f (textValue x) := by
  cases f <;> solve
  | simp [fieldFromEtree]
  | simp [isScalarField] at h


theorem popWhileAux_length_le (k : PValue → Bool) (m : Nat) (l : List PValue) :
    (popWhileAux k m l).length ≤ l.length := by
  induction l with
  | nil => simp [popWhileAux]
  | cons x rest ih =>
    by_cases hc : (m < rest.length + 1 && !(k x)) = true
    · simp only [popWhileAux, hc, if_true]
      exact Nat.le_trans ih (by simp)
    · simp [popWhileAux, hc]

theorem popWhileAux_self_transfer (k : PValue → Bool) (m : Nat) :
    ∀ (l1 l2 : List PValue), l1.map k = l2.map k →
    popWhileAux k m l1 = l1 → popWhileAux k m l2 = l2 := by
  intro l1 l2 hmap h1
  cases l1 with
  | nil =>
    cases l2 with
    | nil => rfl
    | cons y r2 => simp at hmap
  | cons x r1 =>
    cases l2 with
    | nil => simp at hmap
    | cons y r2 =>
      have hk : k x = k y ∧ r1.map k = r2.map k := by simpa using hmap
      have hlen : r1.length = r2.length := by
        have := congrArg List.length hk.2
        simpa using this
      by_cases hc : (m < r1.length + 1 && !(k x)) = true
      · exfalso
        rw [popWhileAux, if_pos hc] at h1
        have hle := popWhileAux_length_le k m r1
        have := congrArg List.length h1
        simp at this
        omega
      · have hc2 : ¬((m < r2.length + 1 && !(k y)) = true) := by
          rw [← hlen, ← hk.1]
          exact hc
        rw [popWhileAux, if_neg hc2]

theorem popTrailing_self_transfer (k : PValue → Bool) (m : Nat)
    (l1 l2 : List PValue) (hmap : l1.map k = l2.map k)
    (h1 : popTrailing k m l1 = l1) : popTrailing k m l2 = l2 := by
  unfold popTrailing at h1 ⊢
  have hmap2 : l1.reverse.map k = l2.reverse.map k := by
    simp [List.map_reverse, hmap]
  have h1b : popWhileAux k m l1.reverse = l1.reverse := by
    have := congrArg List.reverse h1
    simpa using this
  rw [popWhileAux_self_transfer k m l1.reverse l2.reverse hmap2 h1b]
  simp

theorem popTrailing_all_keep (k : PValue → Bool) (m : Nat) (xs : List PValue)
    (h : ∀ x ∈ xs, k x = true) : popTrailing k m xs = xs := by
  unfold popTrailing
  cases hx : xs.reverse with
  | nil =>
    have : xs = [] := by simpa using congrArg List.reverse hx
    simp [this, popWhileAux]
  | cons y rest =>
    have hy : y ∈ xs := by
      have : y ∈ xs.reverse := by rw [hx]; simp
      simpa using this
    have : popWhileAux k m (y :: rest) = y :: rest := by
      rw [popWhileAux]
      simp [h y hy]
    rw [this, ← hx]
    simp

theorem anyInnerHas_eq_any (inner : Field) : ∀ (xs : PValues),
    anyInnerHas inner xs = xs.toList.any (hasValueField inner)
  | PValues.nil => by simp [anyInnerHas, PValues.toList]
  | PValues.cons x xs => by
    rw [anyInnerHas, PValues.toList]
    simp [anyInnerHas_eq_any inner xs]

theorem anySelfHas_eq_any : ∀ (xs : PValues),
    anySelfHas xs = xs.toList.any selfHasValue
  | PValues.nil => by simp [anySelfHas, PValues.toList]
  | PValues.cons x xs => by
    cases x <;> simp [anySelfHas, PValues.toList, selfHasValue, anySelfHas_eq_any xs]

theorem tagLookup_not_mem : ∀ (s : Schema) (t : List Char),
    ¬(t ∈ schemaTags s) → tagLookup s t = Option.none
  | Schema.nil, t, _ => rfl
  | Schema.cons name f rest, t, h => by
    have h1 : ¬(t ∈ schemaTags rest) := fun hm => h (by simp [schemaTags, hm])
    have h2 : ¬(resolvedTag name f = t) := fun he => h (by simp [schemaTags, he])
    rw [tagLookup, tagLookup_not_mem rest t h1]
    simp [h2]

/-- Every field of the (sub)schema resolves back to its own name through the
full schema's `tag_map`. -/
def tagsResolve (sFull : Schema) : Schema → Prop
  | Schema.nil => True
  | Schema.cons name f rest =>
    tagLookup sFull (resolvedTag name f) = some name ∧ tagsResolve sFull rest

theorem tagsResolve_lift (s0 : Schema) (n0 : List Char) (f0 : Field) :
    ∀ (s : Schema), tagsResolve s0 s → tagsResolve (Schema.cons n0 f0 s0) s
  | Schema.nil, _ => trivial
  | Schema.cons name f rest, h => by
    obtain ⟨h1, h2⟩ := h
    refine ⟨?_, tagsResolve_lift s0 n0 f0 rest h2⟩
    rw [tagLookup, h1]

theorem tagsResolve_self : ∀ (s : Schema), wfSchema s = true → tagsResolve s s
  | Schema.nil, _ => trivial
  | Schema.cons name f rest, h => by
    obtain ⟨hf, hnm, htg, hr⟩ := wfSchema_cons h
    constructor
    · rw [tagLookup, tagLookup_not_mem rest _ htg]
      simp
    · exact tagsResolve_lift rest name f rest (tagsResolve_self rest hr)


/-- `ListField.to_xml` cleans through the tagless copy of the field
(`clean_value` never reads the tag). -/
theorem cleanField_fList_tag (t : Option (List Char)) (nl : Bool) (d : SVal)
    (inner : Field) (mn : Nat) (v : PValue) :
    cleanField (Field.fList t nl d inner mn) v =
      cleanField (Field.fList Option.none nl d inner mn) v := by
  rw [cleanField]
  rw [cleanField]

theorem hasValueField_fList_tag (t : Option (List Char)) (nl : Bool) (d : SVal)
    (inner : Field) (mn : Nat) (v : PValue) :
    hasValueField (Field.fList t nl d inner mn) v =
      hasValueField (Field.fList Option.none nl d inner mn) v := by
  cases v <;> rfl

theorem emitField_scalar_eq (f : Field) (hs : isScalarField f = true)
    (tag : List Char) (v : PValue) :
    emitField tag f v = (do
      let v1 ← cleanField f v
      if hasValueField f v1 then
        pure [Xml.el tag (some (fieldToStr f v1)) XmlList.nil]
      else pure []) := by
  cases f <;> solve
  | simp [emitField]
  | simp [isScalarField] at hs

theorem emitField_none (tag : List Char) (f : Field) (v v1 : PValue)
    (hc : cleanField f v = Except.ok v1) (hh : hasValueField f v1 = false) :
    emitField tag f v = Except.ok [] := by
  cases f with
  | fList t nl d inner mn =>
    rw [cleanField_fList_tag] at hc
    rw [hasValueField_fList_tag] at hh
    rw [emitField]
    simp [hc, hh, res_bind_ok, pure, Except.pure]
  | fModel t nl d mt sub =>
    rw [emitField]
    simp [hc, hh, res_bind_ok, pure, Except.pure]
  | fModelList t nl d mt sub mn =>
    rw [emitField]
    simp [hc, hh, res_bind_ok, pure, Except.pure]
  | fStr t nl d => simp [emitField, hc, hh, res_bind_ok, pure, Except.pure]
  | fInt t nl d => simp [emitField, hc, hh, res_bind_ok, pure, Except.pure]
  | fDec t nl d dcm => simp [emitField, hc, hh, res_bind_ok, pure, Except.pure]
  | fDate t nl d => simp [emitField, hc, hh, res_bind_ok, pure, Except.pure]
  | fDT t nl d => simp [emitField, hc, hh, res_bind_ok, pure, Except.pure]
  | fBytes t nl d => simp [emitField, hc, hh, res_bind_ok, pure, Except.pure]
  | fNotImpl t nl => simp [emitField, hc, hh, res_bind_ok, pure, Except.pure]

theorem emitField_scalar_tags {f : Field} (hs : isScalarField f = true)
    {tag : List Char} {v : PValue} {els : List Xml}
    (h : emitField tag f v = Except.ok els) : ∀ e ∈ els, e.tag = tag := by
  rw [emitField_scalar_eq f hs] at h
  obtain ⟨v1, hv1, h2⟩ := bind_ok_inv h
  by_cases hh : hasValueField f v1 = true
  · rw [if_pos hh] at h2
    have hels : els = [Xml.el tag (some (fieldToStr f v1)) XmlList.nil] := by
      simpa [pure, Except.pure] using h2.symm
    subst hels
    intro e he
    simp at he
    subst he
    rfl
  · rw [if_neg hh] at h2
    have hels : els = [] := by simpa [pure, Except.pure] using h2.symm
    subst hels
    intro e he
    simp at he

theorem emitVals_tags (inner : Field) (hs : isScalarField inner = true)
    (tag : List Char) : ∀ (xs : PValues) (els : List Xml),
    emitVals tag inner xs = Except.ok els → ∀ e ∈ els, e.tag = tag
  | PValues.nil, els, h => by
    rw [emitVals] at h
    have hels : els = [] := (Except.ok.inj h).symm
    subst hels
    intro e he
    simp at he
  | PValues.cons x xs, els, h => by
    rw [emitVals] at h
    obtain ⟨e1, he1, h2⟩ := bind_ok_inv h
    obtain ⟨t1, ht1, h3⟩ := bind_ok_inv h2
    have hels : els = e1 ++ t1 := by simpa [pure, Except.pure] using h3.symm
    subst hels
    intro e he
    rcases List.mem_append.mp he with hm | hm
    · exact emitField_scalar_tags hs he1 e hm
    · exact emitVals_tags inner hs tag xs t1 ht1 e hm

theorem emitModels_tags (mtag : List Char) (sub : Schema) :
    ∀ (xs : PValues) (els : List Xml),
    emitModels mtag sub xs = Except.ok els → ∀ e ∈ els, e.tag = mtag
  | PValues.nil, els, h => by
    rw [emitModels] at h
    have hels : els = [] := (Except.ok.inj h).symm
    subst hels
    intro e he
    simp at he
  | PValues.cons x xs, els, h => by
    cases x with
    | vmodel s2 vs2 =>
      simp only [emitModels] at h
      obtain ⟨cs, hcs, h2⟩ := bind_ok_inv h
      obtain ⟨rest, hrest, h3⟩ := bind_ok_inv h2
      have hels : els = Xml.el mtag Option.none (XmlList.ofList cs) :: rest := by
        simpa [pure, Except.pure] using h3.symm
      subst hels
      intro e he
      rcases List.mem_cons.mp he with hm | hm
      · subst hm; rfl
      · exact emitModels_tags mtag sub xs rest hrest e hm
    | vnone => simp [emitModels] at h
    | vstr a => simp [emitModels] at h
    | vint a => simp [emitModels] at h
    | vdec a b => simp [emitModels] at h
    | vdate a => simp [emitModels] at h
    | vdt a => simp [emitModels] at h
    | vbytes a => simp [emitModels] at h
    | vlist a => simp [emitModels] at h

theorem wfField_fList_parts {t : Option (List Char)} {nl : Bool} {d : SVal}
    {inner : Field} {mn : Nat}
    (h : wfField (Field.fList t nl d inner mn) = true) :
    d = SVal.none ∧ isScalarField inner = true ∧ wfField inner = true := by
  have hh := h
  simp [wfField] at hh
  exact ⟨hh.1.1, hh.1.2, hh.2⟩

theorem wfField_fModel_parts {t : Option (List Char)} {nl : Bool} {d : SVal}
    {mt : List Char} {sub : Schema}
    (h : wfField (Field.fModel t nl d mt sub) = true) :
    t = Option.none ∧ d = SVal.none ∧ wfSchema sub = true := by
  have hh := h
  simp [wfField] at hh
  exact ⟨hh.1.1, hh.1.2, hh.2⟩

theorem wfField_fModelList_parts {t : Option (List Char)} {nl : Bool} {d : SVal}
    {mt : List Char} {sub : Schema} {mn : Nat}
    (h : wfField (Field.fModelList t nl d mt sub mn) = true) :
    t = Option.none ∧ d = SVal.none ∧ wfSchema sub = true := by
  have hh := h
  simp [wfField] at hh
  exact ⟨hh.1.1, hh.1.2, hh.2⟩

theorem emitField_tags {name : List Char} {f : Field} {v : PValue} {els : List Xml}
    (hwf : wfField f = true)
    (h : emitField (resolvedTag name f) f v = Except.ok els) :
    ∀ e ∈ els, e.tag = resolvedTag name f := by
  by_cases hs : isScalarField f = true
  · exact emitField_scalar_tags hs h
  · cases f with
    | fList t nl d inner mn =>
      obtain ⟨-, hsc, hwi⟩ := wfField_fList_parts hwf
      rw [emitField] at h
      obtain ⟨v1, hv1, h2⟩ := bind_ok_inv h
      by_cases hh : hasValueField (Field.fList Option.none nl d inner mn) v1 = true
      · rw [if_pos hh] at h2
        cases v1 with
        | vlist xs => exact emitVals_tags inner hsc _ xs els h2
        | vnone => simp at h2
        | vstr a => simp at h2
        | vint a => simp at h2
        | vdec a b => simp at h2
        | vdate a => simp at h2
        | vdt a => simp at h2
        | vbytes a => simp at h2
        | vmodel a b => simp at h2
      · rw [if_neg hh] at h2
        have hels : els = [] := by simpa [pure, Except.pure] using h2.symm
        subst hels
        intro e he
        simp at he
    | fModel t nl d mt sub =>
      obtain ⟨ht, -, -⟩ := wfField_fModel_parts hwf
      subst ht
      rw [emitField] at h
      obtain ⟨v1, hv1, h2⟩ := bind_ok_inv h
      by_cases hh : hasValueField (Field.fModel Option.none nl d mt sub) v1 = true
      · rw [if_pos hh] at h2
        cases v1 with
        | vmodel s2 vs2 =>
          obtain ⟨cs, hcs, h3⟩ := bind_ok_inv h2
          have hels : els = [Xml.el mt Option.none (XmlList.ofList cs)] := by
            simpa [pure, Except.pure] using h3.symm
          subst hels
          intro e he
          simp at he
          subst he
          rfl
        | vnone => simp at h2
        | vstr a => simp at h2
        | vint a => simp at h2
        | vdec a b => simp at h2
        | vdate a => simp at h2
        | vdt a => simp at h2
        | vbytes a => simp at h2
        | vlist a => simp at h2
      · rw [if_neg hh] at h2
        have hels : els = [] := by simpa [pure, Except.pure] using h2.symm
        subst hels
        intro e he
        simp at he
    | fModelList t nl d mt sub mn =>
      obtain ⟨ht, -, -⟩ := wfField_fModelList_parts hwf
      subst ht
      rw [emitField] at h
      obtain ⟨v1, hv1, h2⟩ := bind_ok_inv h
      by_cases hh : hasValueField (Field.fModelList Option.none nl d mt sub mn) v1 = true
      · rw [if_pos hh] at h2
        cases v1 with
        | vlist xs => exact emitModels_tags mt sub xs els h2
        | vnone => simp at h2
        | vstr a => simp at h2
        | vint a => simp at h2
        | vdec a b => simp at h2
        | vdate a => simp at h2
        | vdt a => simp at h2
        | vbytes a => simp at h2
        | vmodel a b => simp at h2
      · rw [if_neg hh] at h2
        have hels : els = [] := by simpa [pure, Except.pure] using h2.symm
        subst hels
        intro e he
        simp at he
    | fStr t nl d => simp [isScalarField] at hs
    | fInt t nl d => simp [isScalarField] at hs
    | fDec t nl d dcm => simp [isScalarField] at hs
    | fDate t nl d => simp [isScalarField] at hs
    | fDT t nl d => simp [isScalarField] at hs
    | fBytes t nl d => simp [isScalarField] at hs
    | fNotImpl t nl => simp [isScalarField] at hs


/-- Re-cleaning the rendered text of a well-typed non-empty scalar value
yields a value with the same rendering (for `DecimalField` the value itself
may change scale, but its quantized rendering is unchanged). -/
theorem scalarReparse (f : Field) (v : PValue)
    (hs : isScalarField f = true) (hd : fieldDefault f = SVal.none)
    (hw : wellTypedF f v = true) (hv : v ≠ PValue.vnone) :
    ∃ w, cleanField f (PValue.vstr (fieldToStr f v)) = Except.ok w ∧
      fieldToStr f w = fieldToStr f v ∧ wellTypedF f w = true ∧
      w ≠ PValue.vnone ∧ cleanField f w = Except.ok w := by
  cases f with
  | fStr t nl d =>
    have hd2 : d = SVal.none := hd
    subst hd2
    cases v with
    | vstr s0 =>
      refine ⟨PValue.vstr s0, ?_, rfl, by rw [wellTypedF], by simp, ?_⟩
      · rw [cleanField]
        simp [strClean, applyDefault, fieldToStr, pyStr]
      · rw [cleanField]
        simp [strClean, applyDefault, pyStr]
    | vnone => exact absurd rfl hv
    | vint a => simp [wellTypedF] at hw
    | vdec a b => simp [wellTypedF] at hw
    | vdate a => simp [wellTypedF] at hw
    | vdt a => simp [wellTypedF] at hw
    | vbytes a => simp [wellTypedF] at hw
    | vlist a => simp [wellTypedF] at hw
    | vmodel a b => simp [wellTypedF] at hw
  | fInt t nl d =>
    have hd2 : d = SVal.none := hd
    subst hd2
    cases v with
    | vint n =>
      refine ⟨PValue.vint n, ?_, rfl, by rw [wellTypedF], by simp, ?_⟩
      · rw [cleanField]
        simp [intClean, applyDefault, fieldToStr, pyStr, parseIntAll_renderInt]
      · rw [cleanField]
        simp [intClean, applyDefault]
    | vnone => exact absurd rfl hv
    | vstr a => simp [wellTypedF] at hw
    | vdec a b => simp [wellTypedF] at hw
    | vdate a => simp [wellTypedF] at hw
    | vdt a => simp [wellTypedF] at hw
    | vbytes a => simp [wellTypedF] at hw
    | vlist a => simp [wellTypedF] at hw
    | vmodel a b => simp [wellTypedF] at hw
  | fDec t nl d dcm =>
    have hd2 : d = SVal.none := hd
    subst hd2
    cases v with
    | vdec m sc =>
      refine ⟨PValue.vdec (quantizeMantissa m sc dcm) dcm, ?_, ?_, by rw [wellTypedF],
        by simp, ?_⟩
      · rw [cleanField]
        simp [decClean, applyDefault, fieldToStr, parseDecList_renderDecRaw]
      · simp [fieldToStr, quantizeMantissa_self]
      · rw [cleanField]
        simp [decClean, applyDefault]
    | vnone => exact absurd rfl hv
    | vstr a => simp [wellTypedF] at hw
    | vint a => simp [wellTypedF] at hw
    | vdate a => simp [wellTypedF] at hw
    | vdt a => simp [wellTypedF] at hw
    | vbytes a => simp [wellTypedF] at hw
    | vlist a => simp [wellTypedF] at hw
    | vmodel a b => simp [wellTypedF] at hw
  | fDate t nl d =>
    have hd2 : d = SVal.none := hd
    subst hd2
    cases v with
    | vdate dd =>
      have hok : dateOK dd = true := by
        have hh := hw
        rw [wellTypedF] at hh
        exact hh
      refine ⟨PValue.vdate dd, ?_, rfl, hw, by simp, ?_⟩
      · rw [cleanField]
        simp [dateClean, applyDefault, fieldToStr, parseDate_renderDate dd hok]
      · rw [cleanField]
        simp [dateClean, applyDefault]
    | vnone => exact absurd rfl hv
    | vstr a => simp [wellTypedF] at hw
    | vint a => simp [wellTypedF] at hw
    | vdec a b => simp [wellTypedF] at hw
    | vdt a => simp [wellTypedF] at hw
    | vbytes a => simp [wellTypedF] at hw
    | vlist a => simp [wellTypedF] at hw
    | vmodel a b => simp [wellTypedF] at hw
  | fDT t nl d =>
    have hd2 : d = SVal.none := hd
    subst hd2
    cases v with
    | vdt x =>
      have hok : dtOK x = true ∧ x.tz.isSome = true := by
        have hh := hw
        rw [wellTypedF] at hh
        simpa [Bool.and_eq_true] using hh
      obtain ⟨o, ho⟩ := Option.isSome_iff_exists.mp hok.2
      refine ⟨PValue.vdt x, ?_, rfl, hw, by simp, ?_⟩
      · rw [cleanField]
        simp [dtClean, applyDefault, fieldToStr, parseDT_renderDT x hok.1, ho]
      · rw [cleanField]
        simp [dtClean, applyDefault, ho]
    | vnone => exact absurd rfl hv
    | vstr a => simp [wellTypedF] at hw
    | vint a => simp [wellTypedF] at hw
    | vdec a b => simp [wellTypedF] at hw
    | vdate a => simp [wellTypedF] at hw
    | vbytes a => simp [wellTypedF] at hw
    | vlist a => simp [wellTypedF] at hw
    | vmodel a b => simp [wellTypedF] at hw
  | fBytes t nl d =>
    have hd2 : d = SVal.none := hd
    subst hd2
    cases v with
    | vbytes bs =>
      refine ⟨PValue.vbytes bs, ?_, rfl, by rw [wellTypedF], by simp, ?_⟩
      · rw [cleanField]
        simp [bytesClean, applyDefault, fieldToStr, b64_decode_encode]
      · rw [cleanField]
        simp [bytesClean, applyDefault]
    | vnone => exact absurd rfl hv
    | vstr a => simp [wellTypedF] at hw
    | vint a => simp [wellTypedF] at hw
    | vdec a b => simp [wellTypedF] at hw
    | vdate a => simp [wellTypedF] at hw
    | vdt a => simp [wellTypedF] at hw
    | vlist a => simp [wellTypedF] at hw
    | vmodel a b => simp [wellTypedF] at hw
  | fNotImpl t nl =>
    cases v with
    | vnone => exact absurd rfl hv
    | vstr a => simp [wellTypedF] at hw
    | vint a => simp [wellTypedF] at hw
    | vdec a b => simp [wellTypedF] at hw
    | vdate a => simp [wellTypedF] at hw
    | vdt a => simp [wellTypedF] at hw
    | vbytes a => simp [wellTypedF] at hw
    | vlist a => simp [wellTypedF] at hw
    | vmodel a b => simp [wellTypedF] at hw
  | fList t nl d inner mn => simp [isScalarField] at hs
  | fModel t nl d mt sub => simp [isScalarField] at hs
  | fModelList t nl d mt sub mn => simp [isScalarField] at hs

theorem emitVals_nonempty (inner : Field) (hs : isScalarField inner = true)
    (tag : List Char) : ∀ (xs : PValues) (els : List Xml),
    (∀ x ∈ xs.toList, cleanField inner x = Except.ok x) →
    anyInnerHas inner xs = true →
    emitVals tag inner xs = Except.ok els → els ≠ []
  | PValues.nil, els, _, hany, _ => by simp [anyInnerHas] at hany
  | PValues.cons x xs, els, hfix, hany, h => by
    rw [emitVals] at h
    obtain ⟨e1, he1, h2⟩ := bind_ok_inv h
    obtain ⟨t1, ht1, h3⟩ := bind_ok_inv h2
    have hels : els = e1 ++ t1 := by simpa [pure, Except.pure] using h3.symm
    subst hels
    by_cases hx : hasValueField inner x = true
    · have hfx : cleanField inner x = Except.ok x := hfix x (by simp [PValues.toList])
      rw [emitField_scalar_eq inner hs] at he1
      rw [hfx, res_bind_ok, if_pos hx] at he1
      have he1e : e1 = [Xml.el tag (some (fieldToStr inner x)) XmlList.nil] := by
        simpa [pure, Except.pure] using he1.symm
      subst he1e
      simp
    · have hany2 : anyInnerHas inner xs = true := by
        have hh := hany
        rw [anyInnerHas] at hh
        simpa [Bool.or_eq_true, hx] using hh
      have := emitVals_nonempty inner hs tag xs t1
        (fun z hz => hfix z (by simp [PValues.toList, hz])) hany2 ht1
      simp [this]

theorem emitField_nonempty {f : Field} {tag : List Char} {v : PValue} {els : List Xml}
    (hwf : wfField f = true) (hfix : cleanField f v = Except.ok v)
    (hh : hasValueField f v = true)
    (h : emitField tag f v = Except.ok els) : els ≠ [] := by
  by_cases hs : isScalarField f = true
  · rw [emitField_scalar_eq f hs] at h
    rw [hfix, res_bind_ok, if_pos hh] at h
    have hels : els = [Xml.el tag (some (fieldToStr f v)) XmlList.nil] := by
      simpa [pure, Except.pure] using h.symm
    subst hels
    simp
  · cases f with
    | fList t nl d inner mn =>
      obtain ⟨-, hsc, hwi⟩ := wfField_fList_parts hwf
      cases v with
      | vlist xs =>
        have hany : anyInnerHas inner xs = true := hh
        have hnI : namesOKF inner = true := wfField_namesOKF inner hwi
        have hfix2 : cleanField (Field.fList Option.none nl d inner mn)
            (PValue.vlist xs) = Except.ok (PValue.vlist xs) := by
          rw [← cleanField_fList_tag t]
          exact hfix
        have hmem : ∀ x ∈ PValues.toList xs, cleanField inner x = Except.ok x := by
          have hfix3 := hfix2
          rw [cleanField] at hfix3
          have hax : applyDefault d (PValue.vlist xs) = PValue.vlist xs := by
            simp [applyDefault]
          simp only [hax] at hfix3
          obtain ⟨ys, hys, h2⟩ := bind_ok_inv hfix3
          have hEq : PValues.ofList (popTrailing (hasValueField inner) mn
              (PValues.toList ys)) = xs := by
            have hh2 : xs = PValues.ofList (popTrailing (hasValueField inner) mn
                (PValues.toList ys)) := by
              simpa [pure, Except.pure] using h2.symm
            exact hh2.symm
          intro x hx
          have hx2 : x ∈ popTrailing (hasValueField inner) mn (PValues.toList ys) := by
            rw [← hEq, PValues.toList_ofList] at hx
            exact hx
          exact cleanVals_idem_elems inner xs ys hnI hys x
            (popTrailing_subset _ _ _ x hx2)
        rw [emitField] at h
        obtain ⟨v1, hv1, h2⟩ := bind_ok_inv h
        rw [hfix2] at hv1
        have hv1e : v1 = PValue.vlist xs := (Except.ok.inj hv1).symm
        subst hv1e
        have hhv : hasValueField (Field.fList Option.none nl d inner mn)
            (PValue.vlist xs) = true := by
          rw [← hasValueField_fList_tag t]
          exact hh
        rw [if_pos hhv] at h2
        exact emitVals_nonempty inner hsc tag xs els hmem hany h2
      | vnone => simp [hasValueField] at hh
      | vstr a => simp [hasValueField] at hh
      | vint a => simp [hasValueField] at hh
      | vdec a b => simp [hasValueField] at hh
      | vdate a => simp [hasValueField] at hh
      | vdt a => simp [hasValueField] at hh
      | vbytes a => simp [hasValueField] at hh
      | vmodel a b => simp [hasValueField] at hh
    | fModel t nl d mt sub =>
      cases v with
      | vmodel s2 vs2 =>
        rw [emitField] at h
        obtain ⟨v1, hv1, h2⟩ := bind_ok_inv h
        rw [hfix] at hv1
        have hv1e : v1 = PValue.vmodel s2 vs2 := (Except.ok.inj hv1).symm
        subst hv1e
        rw [if_pos hh] at h2
        obtain ⟨cs, hcs, h3⟩ := bind_ok_inv
          (show (do
            let cs ← emitModel sub vs2
            pure [Xml.el mt Option.none (XmlList.ofList cs)] : Res (List Xml))
            = Except.ok els from h2)
        have hels : els = [Xml.el mt Option.none (XmlList.ofList cs)] := by
          simpa [pure, Except.pure] using h3.symm
        subst hels
        simp
      | vnone => simp [hasValueField] at hh
      | vstr a => simp [hasValueField] at hh
      | vint a => simp [hasValueField] at hh
      | vdec a b => simp [hasValueField] at hh
      | vdate a => simp [hasValueField] at hh
      | vdt a => simp [hasValueField] at hh
      | vbytes a => simp [hasValueField] at hh
      | vlist a => simp [hasValueField] at hh
    | fModelList t nl d mt sub mn =>
      cases v with
      | vlist xs =>
        rw [emitField] at h
        obtain ⟨v1, hv1, h2⟩ := bind_ok_inv h
        rw [hfix] at hv1
        have hv1e : v1 = PValue.vlist xs := (Except.ok.inj hv1).symm
        subst hv1e
        rw [if_pos hh] at h2
        cases xs with
        | nil => simp [hasValueField, anySelfHas] at hh
        | cons x xs2 =>
          have h2b : emitModels mt sub (PValues.cons x xs2) = Except.ok els := h2
          cases x with
          | vmodel s2 vs2 =>
            simp only [emitModels] at h2b
            obtain ⟨cs, hcs, h3⟩ := bind_ok_inv h2b
            obtain ⟨rest, hrest, h4⟩ := bind_ok_inv h3
            have hels : els = Xml.el mt Option.none (XmlList.ofList cs) :: rest := by
              simpa [pure, Except.pure] using h4.symm
            subst hels
            simp
          | vnone => simp [emitModels] at h2b
          | vstr a => simp [emitModels] at h2b
          | vint a => simp [emitModels] at h2b
          | vdec a b => simp [emitModels] at h2b
          | vdate a => simp [emitModels] at h2b
          | vdt a => simp [emitModels] at h2b
          | vbytes a => simp [emitModels] at h2b
          | vlist a => simp [emitModels] at h2b
      | vnone => simp [hasValueField] at hh
      | vstr a => simp [hasValueField] at hh
      | vint a => simp [hasValueField] at hh
      | vdec a b => simp [hasValueField] at hh
      | vdate a => simp [hasValueField] at hh
      | vdt a => simp [hasValueField] at hh
      | vbytes a => simp [hasValueField] at hh
      | vmodel a b => simp [hasValueField] at hh
    | fStr t nl d => simp [isScalarField] at hs
    | fInt t nl d => simp [isScalarField] at hs
    | fDec t nl d dcm => simp [isScalarField] at hs
    | fDate t nl d => simp [isScalarField] at hs
    | fDT t nl d => simp [isScalarField] at hs
    | fBytes t nl d => simp [isScalarField] at hs
    | fNotImpl t nl => simp [isScalarField] at hs


theorem goodS_wellTyped : ∀ (s : Schema) (vs : PValues),
    goodS s vs = true → wellTypedS s vs = true
  | Schema.nil, vs, h => by
    have hn := goodS_shape_nil h
    subst hn
    rw [wellTypedS]
  | Schema.cons name f rest, vs, h => by
    obtain ⟨v, vs0, he⟩ := goodS_shape_cons h
    subst he
    obtain ⟨h1, h2⟩ := goodS_cons h
    rw [wellTypedS]
    simp [(goodF_parts h1).2.1, goodS_wellTyped rest vs0 h2]

theorem goodS_cleanFixed : ∀ (s : Schema) (vs : PValues),
    goodS s vs = true → cleanFixedS s vs = true
  | Schema.nil, vs, h => by
    have hn := goodS_shape_nil h
    subst hn
    rfl
  | Schema.cons name f rest, vs, h => by
    obtain ⟨v, vs0, he⟩ := goodS_shape_cons h
    subst he
    obtain ⟨h1, h2⟩ := goodS_cons h
    simp [cleanFixedS, cleanFixedF_iff.mpr (goodF_parts h1).1,
      goodS_cleanFixed rest vs0 h2]

theorem wfField_scalar_default {f : Field} (hs : isScalarField f = true)
    (hwf : wfField f = true) : fieldDefault f = SVal.none := by
  cases f with
  | fStr t nl d => simpa [wfField, fieldDefault] using hwf
  | fInt t nl d => simpa [wfField, fieldDefault] using hwf
  | fDec t nl d dcm => simpa [wfField, fieldDefault] using hwf
  | fDate t nl d => simpa [wfField, fieldDefault] using hwf
  | fDT t nl d => simpa [wfField, fieldDefault] using hwf
  | fBytes t nl d => simpa [wfField, fieldDefault] using hwf
  | fNotImpl t nl => rfl
  | fList t nl d inner mn => simp [isScalarField] at hs
  | fModel t nl d mt sub => simp [isScalarField] at hs
  | fModelList t nl d mt sub mn => simp [isScalarField] at hs

theorem lookupKw_nil (name : List Char) : lookupKw [] name = PValue.vnone := rfl

/-- Rebuilding a model from its own attribute values (the self-copy
`Model.clean_value` performs) stores the same values, when every stored
value is good. -/
theorem initModel_selfcopy : ∀ (s : Schema) (vs : PValues)
    (kw : List (List Char × PValue)), wfSchema s = true → goodS s vs = true →
    (∀ n, n ∈ schemaNames s → lookupKw kw n = getattrP s vs n) →
    initModel s kw = Except.ok vs
  | Schema.nil, vs, kw, _, hg, _ => by
    have hn := goodS_shape_nil hg
    subst hn
    rw [initModel]
  | Schema.cons name f rest, vs, kw, hw, hg, hk => by
    obtain ⟨v, vs0, he⟩ := goodS_shape_cons hg
    subst he
    obtain ⟨hgf, hgr⟩ := goodS_cons hg
    obtain ⟨hwf, hnm, htg, hwr⟩ := wfSchema_cons hw
    obtain ⟨hfix, hwt, hnn⟩ := goodF_parts hgf
    have hkv : lookupKw kw name = v := by
      have hh := hk name (by simp [schemaNames])
      rw [hh]
      simp [getattrP]
    have htail : initModel rest kw = Except.ok vs0 := by
      refine initModel_selfcopy rest vs0 kw hwr hgr ?_
      intro n hna
      have hne : ¬(name = n) := by
        intro he2
        subst he2
        exact hnm hna
      have hh := hk n (by simp [schemaNames, hna])
      rw [hh]
      simp [getattrP, hne]
    rw [initModel]
    by_cases hv : v = PValue.vnone
    · subst hv
      have hsc : isScalarField f = true := by
        by_cases hs : isScalarField f = true
        · exact hs
        · exact absurd rfl (hnn (by simpa using hs))
      simp [hkv, constructRaw_scalar hsc, hfix, htail, res_bind_ok, pure, Except.pure]
    · simp [hkv, hv, hfix, htail, res_bind_ok, pure, Except.pure]

theorem popTrailing_replicate_min (keep : PValue → Bool) (m : Nat) (z : PValue) :
    popTrailing keep m (List.replicate m z) = List.replicate m z := by
  cases m with
  | zero => simp [popTrailing, popWhileAux]
  | succ m2 =>
    unfold popTrailing
    rw [List.reverse_replicate]
    rw [show List.replicate (m2 + 1) z = z :: List.replicate m2 z from rfl]
    rw [popWhileAux]
    have hc : ¬((m2 + 1 < (List.replicate m2 z).length + 1 && !(keep z)) = true) := by
      simp
    rw [if_neg hc]
    have := List.reverse_replicate (m2 + 1) z
    rw [show (z :: List.replicate m2 z) = List.replicate (m2 + 1) z from rfl]
    rw [this]

theorem list_any_false {α : Type} (p : α → Bool) : ∀ (l : List α),
    (∀ x ∈ l, p x = false) → l.any p = false
  | [], _ => rfl
  | x :: xs, h => by
    simp [List.any, h x (by simp), list_any_false p xs (fun z hz => h z (by simp [hz]))]

theorem wellTypedVals_replicate_vnone (inner : Field) : ∀ (k : Nat),
    wellTypedVals inner (PValues.ofList (List.replicate k PValue.vnone)) = true
  | 0 => by
    rw [show PValues.ofList (List.replicate 0 PValue.vnone) = PValues.nil from rfl]
    rw [wellTypedVals]
  | k+1 => by
    rw [show List.replicate (k + 1) PValue.vnone
      = PValue.vnone :: List.replicate k PValue.vnone from rfl]
    rw [PValues.ofList, wellTypedVals]
    simp [wellTypedF, wellTypedVals_replicate_vnone inner k]

theorem wellTypedModels_replicate (sub : Schema) (ws : PValues)
    (hws : wellTypedS sub ws = true) : ∀ (k : Nat),
    wellTypedModels sub (PValues.ofList
      (List.replicate k (PValue.vmodel sub ws))) = true
  | 0 => by
    rw [show PValues.ofList (List.replicate 0 (PValue.vmodel sub ws))
      = PValues.nil from rfl]
    rw [wellTypedModels]
  | k+1 => by
    rw [show List.replicate (k + 1) (PValue.vmodel sub ws)
      = PValue.vmodel sub ws :: List.replicate k (PValue.vmodel sub ws) from rfl]
    rw [PValues.ofList, wellTypedModels]
    simp [hws, wellTypedModels_replicate sub ws hws k]

theorem cleanVals_replicate_vnone (inner : Field) (hs : isScalarField inner = true)
    (hd : fieldDefault inner = SVal.none) (k : Nat) :
    cleanVals inner (PValues.ofList (List.replicate k PValue.vnone))
      = Except.ok (PValues.ofList (List.replicate k PValue.vnone)) := by
  refine cleanVals_fixed inner _ ?_
  intro z hz
  rw [PValues.toList_ofList] at hz
  have hzv : z = PValue.vnone := (List.eq_of_mem_replicate hz)
  subst hzv
  exact cleanScalar_vnone hs hd

mutual

theorem constructField_wf : ∀ (f : Field), wfField f = true →
    ∃ raw v1, constructRaw f = Except.ok raw ∧ cleanField f raw = Except.ok v1 ∧
      goodF f v1 = true ∧ hasValueField f v1 = false
  | Field.fList t nl d inner mn, hwf => by
    obtain ⟨hd, hsc, hwi⟩ := wfField_fList_parts hwf
    subst hd
    have hdi : fieldDefault inner = SVal.none := wfField_scalar_default hsc hwi
    have hcv := cleanVals_replicate_vnone inner hsc hdi mn
    have hclean : cleanField (Field.fList t nl SVal.none inner mn)
        (PValue.vlist (PValues.ofList (List.replicate mn PValue.vnone)))
        = Except.ok (PValue.vlist (PValues.ofList (List.replicate mn PValue.vnone))) := by
      rw [cleanField]
      have hax : applyDefault SVal.none
          (PValue.vlist (PValues.ofList (List.replicate mn PValue.vnone)))
          = PValue.vlist (PValues.ofList (List.replicate mn PValue.vnone)) := by
        simp [applyDefault]
      simp [hax, hcv, res_bind_ok, pure, Except.pure, PValues.toList_ofList,
        popTrailing_replicate_min]
    refine ⟨_, _, by rw [constructRaw], hclean, ?_, ?_⟩
    · refine goodF_intro hclean ?_ (Or.inr (by simp))
      rw [wellTypedF]
      exact wellTypedVals_replicate_vnone inner mn
    · rw [hasValueField]
      rw [anyInnerHas_eq_any, PValues.toList_ofList]
      refine list_any_false _ _ ?_
      intro x hx
      have hxv : x = PValue.vnone := List.eq_of_mem_replicate hx
      subst hxv
      rw [hasValue_scalar hsc]
      simp
  | Field.fModel t nl d mt sub, hwf => by
    obtain ⟨ht, hd, hws⟩ := wfField_fModel_parts hwf
    subst ht
    subst hd
    obtain ⟨inst0, hinit, hgood, hhas⟩ := constructModel_wf sub hws
    have hraw : constructRaw (Field.fModel Option.none nl SVal.none mt sub)
        = Except.ok (PValue.vmodel sub inst0) := by
      rw [constructRaw]
      rw [hinit, res_map_ok]
    have hcopy : initModel sub (kwFrom sub sub inst0) = Except.ok inst0 :=
      initModel_selfcopy sub inst0 (kwFrom sub sub inst0) hws hgood
        (fun n hn => lookupKw_kwFrom sub sub inst0 n hn)
    have hclean : cleanField (Field.fModel Option.none nl SVal.none mt sub)
        (PValue.vmodel sub inst0) = Except.ok (PValue.vmodel sub inst0) := by
      rw [cleanField_fModel_eq]
      have hax : applyDefault SVal.none (PValue.vmodel sub inst0)
          = PValue.vmodel sub inst0 := by simp [applyDefault]
      rw [hax, modelCleanValue, hcopy, res_map_ok]
    refine ⟨_, _, hraw, hclean, ?_, ?_⟩
    · refine goodF_intro hclean ?_ (Or.inr (by simp))
      rw [wellTypedF]
      simp [goodS_wellTyped sub inst0 hgood]
    · rw [hasValueField]
      exact hhas
  | Field.fModelList t nl d mt sub mn, hwf => by
    obtain ⟨ht, hd, hws⟩ := wfField_fModelList_parts hwf
    subst ht
    subst hd
    obtain ⟨inst0, hinit, hgood, hhas⟩ := constructModel_wf sub hws
    have hraw : constructRaw (Field.fModelList Option.none nl SVal.none mt sub mn)
        = Except.ok (PValue.vlist (PValues.ofList
          (List.replicate mn (PValue.vmodel sub inst0)))) := by
      rw [constructRaw]
      rw [hinit, res_map_ok]
    have hcopy : initModel sub (kwFrom sub sub inst0) = Except.ok inst0 :=
      initModel_selfcopy sub inst0 (kwFrom sub sub inst0) hws hgood
        (fun n hn => lookupKw_kwFrom sub sub inst0 n hn)
    have hcm : cleanModels sub (PValues.ofList
        (List.replicate mn (PValue.vmodel sub inst0)))
        = Except.ok (PValues.ofList (List.replicate mn (PValue.vmodel sub inst0))) := by
      refine cleanModels_fixed sub _ ?_
      intro z hz
      rw [PValues.toList_ofList] at hz
      have hzv : z = PValue.vmodel sub inst0 := List.eq_of_mem_replicate hz
      subst hzv
      rw [modelCleanValue, hcopy, res_map_ok]
    have hclean : cleanField (Field.fModelList Option.none nl SVal.none mt sub mn)
        (PValue.vlist (PValues.ofList (List.replicate mn (PValue.vmodel sub inst0))))
        = Except.ok (PValue.vlist (PValues.ofList
          (List.replicate mn (PValue.vmodel sub inst0)))) := by
      rw [cleanField]
      have hax : applyDefault SVal.none
          (PValue.vlist (PValues.ofList (List.replicate mn (PValue.vmodel sub inst0))))
          = PValue.vlist (PValues.ofList (List.replicate mn (PValue.vmodel sub inst0))) := by
        simp [applyDefault]
      simp [hax, hcm, res_bind_ok, pure, Except.pure, PValues.toList_ofList,
        popTrailing_replicate_min]
    refine ⟨_, _, hraw, hclean, ?_, ?_⟩
    · refine goodF_intro hclean ?_ (Or.inr (by simp))
      rw [wellTypedF]
      exact wellTypedModels_replicate sub inst0 (goodS_wellTyped sub inst0 hgood) mn
    · rw [hasValueField]
      rw [anySelfHas_eq_any, PValues.toList_ofList]
      refine list_any_false _ _ ?_
      intro x hx
      have hxv : x = PValue.vmodel sub inst0 := List.eq_of_mem_replicate hx
      subst hxv
      simp [selfHasValue, hhas]
  | Field.fStr t nl d, hwf => by
    have hd : fieldDefault (Field.fStr t nl d) = SVal.none :=
      wfField_scalar_default (by simp [isScalarField]) hwf
    have hclean := cleanScalar_vnone (f := Field.fStr t nl d) (by simp [isScalarField]) hd
    exact ⟨_, _, constructRaw_scalar (by simp [isScalarField]), hclean,
      goodF_intro hclean (by rw [wellTypedF]) (Or.inl (by simp [isScalarField])),
      by rw [hasValue_scalar (by simp [isScalarField])]; simp⟩
  | Field.fInt t nl d, hwf => by
    have hd : fieldDefault (Field.fInt t nl d) = SVal.none :=
      wfField_scalar_default (by simp [isScalarField]) hwf
    have hclean := cleanScalar_vnone (f := Field.fInt t nl d) (by simp [isScalarField]) hd
    exact ⟨_, _, constructRaw_scalar (by simp [isScalarField]), hclean,
      goodF_intro hclean (by rw [wellTypedF]) (Or.inl (by simp [isScalarField])),
      by rw [hasValue_scalar (by simp [isScalarField])]; simp⟩
  | Field.fDec t nl d dcm, hwf => by
    have hd : fieldDefault (Field.fDec t nl d dcm) = SVal.none :=
      wfField_scalar_default (by simp [isScalarField]) hwf
    have hclean := cleanScalar_vnone (f := Field.fDec t nl d dcm)
      (by simp [isScalarField]) hd
    exact ⟨_, _, constructRaw_scalar (by simp [isScalarField]), hclean,
      goodF_intro hclean (by rw [wellTypedF]) (Or.inl (by simp [isScalarField])),
      by rw [hasValue_scalar (by simp [isScalarField])]; simp⟩
  | Field.fDate t nl d, hwf => by
    have hd : fieldDefault (Field.fDate t nl d) = SVal.none :=
      wfField_scalar_default (by simp [isScalarField]) hwf
    have hclean := cleanScalar_vnone (f := Field.fDate t nl d)
      (by simp [isScalarField]) hd
    exact ⟨_, _, constructRaw_scalar (by simp [isScalarField]), hclean,
      goodF_intro hclean (by rw [wellTypedF]) (Or.inl (by simp [isScalarField])),
      by rw [hasValue_scalar (by simp [isScalarField])]; simp⟩
  | Field.fDT t nl d, hwf => by
    have hd : fieldDefault (Field.fDT t nl d) = SVal.none :=
      wfField_scalar_default (by simp [isScalarField]) hwf
    have hclean := cleanScalar_vnone (f := Field.fDT t nl d)
      (by simp [isScalarField]) hd
    exact ⟨_, _, constructRaw_scalar (by simp [isScalarField]), hclean,
      goodF_intro hclean (by rw [wellTypedF]) (Or.inl (by simp [isScalarField])),
      by rw [hasValue_scalar (by simp [isScalarField])]; simp⟩
  | Field.fBytes t nl d, hwf => by
    have hd : fieldDefault (Field.fBytes t nl d) = SVal.none :=
      wfField_scalar_default (by simp [isScalarField]) hwf
    have hclean := cleanScalar_vnone (f := Field.fBytes t nl d)
      (by simp [isScalarField]) hd
    exact ⟨_, _, constructRaw_scalar (by simp [isScalarField]), hclean,
      goodF_intro hclean (by rw [wellTypedF]) (Or.inl (by simp [isScalarField])),
      by rw [hasValue_scalar (by simp [isScalarField])]; simp⟩
  | Field.fNotImpl t nl, hwf => by
    have hclean := cleanScalar_vnone (f := Field.fNotImpl t nl)
      (by simp [isScalarField]) rfl
    exact ⟨_, _, constructRaw_scalar (by simp [isScalarField]), hclean,
      goodF_intro hclean (by rw [wellTypedF]) (Or.inl (by simp [isScalarField])),
      by rw [hasValue_scalar (by simp [isScalarField])]; simp⟩
termination_by f _ => (sizeOf f, 0)

theorem constructModel_wf : ∀ (s : Schema), wfSchema s = true →
    ∃ inst0, initModel s [] = Except.ok inst0 ∧ goodS s inst0 = true ∧
      hasValueModel s inst0 = false
  | Schema.nil, _ => by
    exact ⟨PValues.nil, by rw [initModel], rfl, rfl⟩
  | Schema.cons name f rest, hw => by
    obtain ⟨hwf, hnm, htg, hwr⟩ := wfSchema_cons hw
    obtain ⟨raw, v1, hraw, hclean, hgood, hhas⟩ := constructField_wf f hwf
    obtain ⟨tail0, htail, hgt, hht⟩ := constructModel_wf rest hwr
    refine ⟨PValues.cons v1 tail0, ?_, ?_, ?_⟩
    · rw [initModel]
      simp [lookupKw_nil, hraw, hclean, htail, res_bind_ok, pure, Except.pure]
    · rw [goodS]
      simp [hgood, hgt]
    · rw [hasValueModel]
      simp [hhas, hht]
termination_by s _ => (sizeOf s, 1)

end


theorem emitModel_cons_inv {name : List Char} {f : Field} {rest : Schema}
    {v : PValue} {vs0 : PValues} {cs : List Xml}
    (h : emitModel (Schema.cons name f rest) (PValues.cons v vs0) = Except.ok cs) :
    ∃ els cs2, emitField (resolvedTag name f) f v = Except.ok els ∧
      emitModel rest vs0 = Except.ok cs2 ∧ cs = els ++ cs2 := by
  rw [emitModel] at h
  obtain ⟨els, hels, h2⟩ := bind_ok_inv h
  obtain ⟨cs2, hcs2, h3⟩ := bind_ok_inv h2
  exact ⟨els, cs2, hels, hcs2, by simpa [pure, Except.pure] using h3.symm⟩

/-- Each field of the remaining schema: filtering the element's children by
this field's name yields exactly this field's own emission. -/
def matchedHyp (sFull : Schema) (children : List Xml) : Schema → PValues → Prop
  | Schema.nil, PValues.nil => True
  | Schema.cons name f rest, PValues.cons v vs =>
    (∃ els, emitField (resolvedTag name f) f v = Except.ok els ∧
      children.filter (fun c => decide (tagLookup sFull c.tag = some name)) = els) ∧
    matchedHyp sFull children rest vs
  | _, _ => False

theorem emit_children_names : ∀ (sFull s : Schema) (vs : PValues) (cs : List Xml),
    tagsResolve sFull s → wfSchema s = true → emitModel s vs = Except.ok cs →
    ∀ c ∈ cs, ∃ n, tagLookup sFull c.tag = some n ∧ n ∈ schemaNames s
  | sFull, Schema.nil, vs, cs, _, _, h => by
    have hcs : cs = [] := by
      simp [emitModel] at h
      exact h
    subst hcs
    intro c hc
    simp at hc
  | sFull, Schema.cons name f rest, vs, cs, htr, hw, h => by
    obtain ⟨hwf, hnm, htg, hwr⟩ := wfSchema_cons hw
    obtain ⟨h1, h2⟩ := htr
    cases vs with
    | nil =>
      have hcs : cs = [] := by
        simp [emitModel] at h
        exact h
      subst hcs
      intro c hc
      simp at hc
    | cons v vs0 =>
      obtain ⟨els, cs2, hels, hcs2, hcat⟩ := emitModel_cons_inv h
      subst hcat
      intro c hc
      rcases List.mem_append.mp hc with hm | hm
      · have htag := emitField_tags hwf hels c hm
        rw [htag]
        exact ⟨name, h1, by simp [schemaNames]⟩
      · obtain ⟨n, hn1, hn2⟩ :=
          emit_children_names sFull rest vs0 cs2 h2 hwr hcs2 c hm
        exact ⟨n, hn1, by simp [schemaNames, hn2]⟩

theorem matched_aux : ∀ (sFull s : Schema) (vs : PValues) (pre cs1 : List Xml),
    tagsResolve sFull s → wfSchema s = true → cleanFixedS s vs = true →
    emitModel s vs = Except.ok cs1 →
    (∀ c ∈ pre, ∀ n, tagLookup sFull c.tag = some n → ¬(n ∈ schemaNames s)) →
    matchedHyp sFull (pre ++ cs1) s vs
  | sFull, Schema.nil, vs, pre, cs1, _, _, hcf, _, _ => by
    have hn := cleanFixedS_shape_nil hcf
    subst hn
    trivial
  | sFull, Schema.cons name f rest, vs, pre, cs1, htr, hw, hcf, h, hpre => by
    obtain ⟨v, vs0, he⟩ := cleanFixedS_shape_cons hcf
    subst he
    obtain ⟨hwf, hnm, htg, hwr⟩ := wfSchema_cons hw
    obtain ⟨htr1, htr2⟩ := htr
    obtain ⟨els, cs2, hels, hcs2, hcat⟩ := emitModel_cons_inv h
    subst hcat
    constructor
    · refine ⟨els, hels, ?_⟩
      rw [List.filter_append, List.filter_append]
      have hfpre : pre.filter
          (fun c => decide (tagLookup sFull c.tag = some name)) = [] := by
        rw [List.filter_eq_nil_iff]
        intro c hc
        simp only [decide_eq_true_eq]
        intro hlk
        exact hpre c hc name hlk (by simp [schemaNames])
      have hfels : els.filter
          (fun c => decide (tagLookup sFull c.tag = some name)) = els := by
        rw [List.filter_eq_self]
        intro c hc
        have htag := emitField_tags hwf hels c hc
        simp [htag, htr1]
      have hfcs2 : cs2.filter
          (fun c => decide (tagLookup sFull c.tag = some name)) = [] := by
        rw [List.filter_eq_nil_iff]
        intro c hc
        obtain ⟨n, hn1, hn2⟩ :=
          emit_children_names sFull rest vs0 cs2 htr2 hwr hcs2 c hc
        simp only [decide_eq_true_eq, hn1]
        intro heq
        have : n = name := by injection heq
        subst this
        exact hnm hn2
      rw [hfpre, hfels, hfcs2]
      simp
    · have hmh := matched_aux sFull rest vs0 (pre ++ els) cs2 htr2 hwr
        (cleanFixedS_cons hcf).2 hcs2 ?_
      · simpa [List.append_assoc] using hmh
      · intro c hc n hn hmem
        rcases List.mem_append.mp hc with hm | hm
        · exact hpre c hm n hn (by simp [schemaNames, hmem])
        · have htag := emitField_tags hwf hels c hm
          rw [htag, htr1] at hn
          have : name = n := by injection hn
          subst this
          exact hnm hmem

theorem matched_init (s : Schema) (vs : PValues) (cs : List Xml)
    (hw : wfSchema s = true) (hcf : cleanFixedS s vs = true)
    (h : emitModel s vs = Except.ok cs) : matchedHyp s cs s vs := by
  have := matched_aux s s vs [] cs (tagsResolve_self s hw) hw hcf h
    (fun c hc => by simp at hc)
  simpa using this


theorem wellTypedVals_mem (inner : Field) : ∀ (xs : PValues),
    wellTypedVals inner xs = true → ∀ x ∈ PValues.toList xs, wellTypedF inner x = true
  | PValues.nil, _, x, hx => by simp [PValues.toList] at hx
  | PValues.cons y ys, h, x, hx => by
    rw [wellTypedVals] at h
    have hh : wellTypedF inner y = true ∧ wellTypedVals inner ys = true := by
      simpa [Bool.and_eq_true] using h
    rw [PValues.toList] at hx
    rcases List.mem_cons.mp hx with h1 | h2
    · subst h1; exact hh.1
    · exact wellTypedVals_mem inner ys hh.2 x h2

theorem wellTypedVals_ofList (inner : Field) : ∀ (l : List PValue),
    (∀ x ∈ l, wellTypedF inner x = true) →
    wellTypedVals inner (PValues.ofList l) = true
  | [], _ => by
    rw [show PValues.ofList ([] : List PValue) = PValues.nil from rfl]
    rw [wellTypedVals]
  | x :: xs, h => by
    rw [show PValues.ofList (x :: xs) = PValues.cons x (PValues.ofList xs) from rfl]
    rw [wellTypedVals]
    simp [h x (by simp), wellTypedVals_ofList inner xs (fun z hz => h z (by simp [hz]))]

theorem wellTypedModels_mem (sub : Schema) : ∀ (xs : PValues),
    wellTypedModels sub xs = true → ∀ x ∈ PValues.toList xs,
    x = PValue.vnone ∨ ∃ ws, x = PValue.vmodel sub ws ∧ wellTypedS sub ws = true
  | PValues.nil, _, x, hx => by simp [PValues.toList] at hx
  | PValues.cons y ys, h, x, hx => by
    rw [PValues.toList] at hx
    rcases List.mem_cons.mp hx with h1 | h2
    · subst h1
      cases x with
      | vnone => exact Or.inl rfl
      | vmodel s2 vs2 =>
        rw [wellTypedModels] at h
        have hh : (s2 = sub ∧ wellTypedS sub vs2 = true) ∧
            wellTypedModels sub ys = true := by
          simpa [Bool.and_eq_true] using h
        exact Or.inr ⟨vs2, by rw [hh.1.1], hh.1.2⟩
      | vstr a => simp [wellTypedModels] at h
      | vint a => simp [wellTypedModels] at h
      | vdec a b => simp [wellTypedModels] at h
      | vdate a => simp [wellTypedModels] at h
      | vdt a => simp [wellTypedModels] at h
      | vbytes a => simp [wellTypedModels] at h
      | vlist a => simp [wellTypedModels] at h
    · have htail : wellTypedModels sub ys = true := by
        cases y with
        | vnone => rw [wellTypedModels] at h; exact h
        | vmodel s2 vs2 =>
          rw [wellTypedModels] at h
          have hh : (s2 = sub ∧ wellTypedS sub vs2 = true) ∧
              wellTypedModels sub ys = true := by
            simpa [Bool.and_eq_true] using h
          exact hh.2
        | vstr a => simp [wellTypedModels] at h
        | vint a => simp [wellTypedModels] at h
        | vdec a b => simp [wellTypedModels] at h
        | vdate a => simp [wellTypedModels] at h
        | vdt a => simp [wellTypedModels] at h
        | vbytes a => simp [wellTypedModels] at h
        | vlist a => simp [wellTypedModels] at h
      exact wellTypedModels_mem sub ys htail x h2

theorem wellTypedModels_ofList (sub : Schema) : ∀ (l : List PValue),
    (∀ x ∈ l, ∃ ws, x = PValue.vmodel sub ws ∧ wellTypedS sub ws = true) →
    wellTypedModels sub (PValues.ofList l) = true
  | [], _ => by
    rw [show PValues.ofList ([] : List PValue) = PValues.nil from rfl]
    rw [wellTypedModels]
  | x :: xs, h => by
    obtain ⟨ws, hx, hwt⟩ := h x (by simp)
    subst hx
    rw [show PValues.ofList (PValue.vmodel sub ws :: xs)
      = PValues.cons (PValue.vmodel sub ws) (PValues.ofList xs) from rfl]
    rw [wellTypedModels]
    simp [hwt, wellTypedModels_ofList sub xs (fun z hz => h z (by simp [hz]))]

theorem emitVals_round (inner : Field) (hs : isScalarField inner = true)
    (hd : fieldDefault inner = SVal.none) (tag : List Char) :
    ∀ (ms : PValues) (els : List Xml),
    (∀ x ∈ PValues.toList ms, cleanField inner x = Except.ok x ∧
      wellTypedF inner x = true) →
    emitVals tag inner ms = Except.ok els →
    ∃ ws : List PValue, mapFromEtree inner els = Except.ok ws ∧
      ws.length = els.length ∧
      (∀ w ∈ ws, cleanField inner w = Except.ok w ∧ wellTypedF inner w = true ∧
        hasValueField inner w = true) ∧
      emitVals tag inner (PValues.ofList ws) = Except.ok els
  | PValues.nil, els, _, h => by
    rw [emitVals] at h
    have hels : els = [] := (Except.ok.inj h).symm
    subst hels
    refine ⟨[], by rw [mapFromEtree], rfl, by simp, ?_⟩
    rw [show PValues.ofList ([] : List PValue) = PValues.nil from rfl]
    rw [emitVals]
  | PValues.cons x ms, els, hmem, h => by
    rw [emitVals] at h
    obtain ⟨e1, he1, h2⟩ := bind_ok_inv h
    obtain ⟨t1, ht1, h3⟩ := bind_ok_inv h2
    have hels : els = e1 ++ t1 := by simpa [pure, Except.pure] using h3.symm
    subst hels
    have hx := hmem x (by simp [PValues.toList])
    obtain ⟨ws, hmap, hlen, hwprops, hemit⟩ := emitVals_round inner hs hd tag ms t1
      (fun z hz => hmem z (by simp [PValues.toList, hz])) ht1
    rw [emitField_scalar_eq inner hs] at he1
    rw [hx.1, res_bind_ok] at he1
    by_cases hhv : hasValueField inner x = true
    · rw [if_pos hhv] at he1
      have he1e : e1 = [Xml.el tag (some (fieldToStr inner x)) XmlList.nil] := by
        simpa [pure, Except.pure] using he1.symm
      subst he1e
      have hvne : x ≠ PValue.vnone := by
        rw [hasValue_scalar hs] at hhv
        simpa using hhv
      obtain ⟨w, hw1, hw2, hw3, hw4, hw5⟩ := scalarReparse inner x hs hd hx.2 hvne
      have hhw : hasValueField inner w = true := by
        rw [hasValue_scalar hs]
        simpa using hw4
      refine ⟨w :: ws, ?_, by simp [hlen], ?_, ?_⟩
      · rw [show ([Xml.el tag (some (fieldToStr inner x)) XmlList.nil] ++ t1)
          = Xml.el tag (some (fieldToStr inner x)) XmlList.nil :: t1 from rfl]
        rw [mapFromEtree]
        rw [fieldFromEtree_scalar hs]
        rw [show textValue (Xml.el tag (some (fieldToStr inner x)) XmlList.nil)
          = PValue.vstr (fieldToStr inner x) from rfl]
        rw [hw1, res_bind_ok, hmap, res_bind_ok]
        rfl
      · intro z hz
        rcases List.mem_cons.mp hz with hz1 | hz2
        · subst hz1
          exact ⟨hw5, hw3, hhw⟩
        · exact hwprops z hz2
      · have hemitw : emitField tag inner w = Except.ok
            [Xml.el tag (some (fieldToStr inner x)) XmlList.nil] := by
          rw [emitField_scalar_eq inner hs, hw5, res_bind_ok, if_pos hhw]
          simp [pure, Except.pure, hw2]
        rw [show PValues.ofList (w :: ws) = PValues.cons w (PValues.ofList ws) from rfl]
        rw [emitVals, hemitw, res_bind_ok, hemit, res_bind_ok]
        rfl
    · rw [if_neg hhv] at he1
      have he1e : e1 = [] := by simpa [pure, Except.pure] using he1.symm
      subst he1e
      exact ⟨ws, by simpa using hmap, by simpa using hlen, hwprops,
        by simpa using hemit⟩


theorem any_eq_of_map_eq {α β : Type} (p : α → Bool) (q : β → Bool) :
    ∀ (l1 : List α) (l2 : List β), l1.map p = l2.map q → l1.any p = l2.any q
  | [], [], _ => rfl
  | [], b :: l2, h => by simp at h
  | a :: l1, [], h => by simp at h
  | a :: l1, b :: l2, h => by
    have hh : p a = q b ∧ l1.map p = l2.map q := by simpa using h
    simp [List.any, hh.1, any_eq_of_map_eq p q l1 l2 hh.2]

set_option maxRecDepth 4000

mutual

theorem parseFields_round : ∀ (sFull s : Schema) (vs inst0 : PValues)
    (children : List Xml),
    wfSchema s = true → cleanFixedS s vs = true → wellTypedS s vs = true →
    goodS s inst0 = true → hasValueModel s inst0 = false →
    matchedHyp sFull children s vs →
    ∃ vs2, parseFields sFull s inst0 children = Except.ok vs2 ∧
      goodS s vs2 = true ∧ hasValueModel s vs2 = hasValueModel s vs ∧
      emitModel s vs2 = emitModel s vs
  | sFull, Schema.nil, vs, inst0, children, _, hcf, _, hgi, _, _ => by
    have h1 := cleanFixedS_shape_nil hcf
    have h2 := goodS_shape_nil hgi
    subst h1
    subst h2
    exact ⟨PValues.nil, by simp [parseFields], rfl, rfl, rfl⟩
  | sFull, Schema.cons name f rest, vs, inst0, children, hw, hcf, hwt, hgi, hhi, hmh => by
    obtain ⟨v, vs0, he⟩ := cleanFixedS_shape_cons hcf
    subst he
    obtain ⟨i0, i0s, he2⟩ := goodS_shape_cons hgi
    subst he2
    obtain ⟨hwf, hnm, htg, hwr⟩ := wfSchema_cons hw
    obtain ⟨hfix, hcfr⟩ := cleanFixedS_cons hcf
    obtain ⟨hwtf, hwtr⟩ := wellTypedS_cons hwt
    obtain ⟨hgi0, hgir⟩ := goodS_cons hgi
    have hhi2 : hasValueField f i0 = false ∧ hasValueModel rest i0s = false := by
      have hh := hhi
      rw [hasValueModel] at hh
      simpa [Bool.or_eq_true] using hh
    obtain ⟨⟨els, hels, hfilter⟩, hmtail⟩ := hmh
    obtain ⟨tail2, htail2, hgt2, hht2, het2⟩ :=
      parseFields_round sFull rest vs0 i0s children hwr hcfr hwtr hgir hhi2.2 hmtail
    cases els with
    | nil =>
      have hstored : parseFields sFull (Schema.cons name f rest)
          (PValues.cons i0 i0s) children = Except.ok (PValues.cons i0 tail2) := by
        simp only [parseFields]
        rw [hfilter]
        simp [htail2, res_bind_ok, pure, Except.pure]
      have hvfalse : hasValueField f v = false := by
        by_cases hvt : hasValueField f v = true
        · exact absurd rfl (emitField_nonempty hwf hfix hvt hels)
        · simpa using hvt
      have hemit_i0 : emitField (resolvedTag name f) f i0 = Except.ok [] :=
        emitField_none _ f i0 i0 (goodF_parts hgi0).1 hhi2.1
      refine ⟨PValues.cons i0 tail2, hstored, ?_, ?_, ?_⟩
      · rw [goodS]
        simp [hgi0, hgt2]
      · rw [hasValueModel, hasValueModel]
        simp [hhi2.1, hvfalse, hht2]
      · rw [emitModel, emitModel]
        rw [hemit_i0, hels, res_bind_ok, res_bind_ok, het2]
    | cons e0 etl =>
      have hvtrue : hasValueField f v = true := by
        by_cases hvt : hasValueField f v = true
        · exact hvt
        · have hz := emitField_none (resolvedTag name f) f v v hfix (by simpa using hvt)
          rw [hz] at hels
          have : ([] : List Xml) = e0 :: etl := Except.ok.inj hels
          cases this
      by_cases hs : isScalarField f = true
      · -- scalar singular field
        have hemitv : emitField (resolvedTag name f) f v = Except.ok
            [Xml.el (resolvedTag name f) (some (fieldToStr f v)) XmlList.nil] := by
          rw [emitField_scalar_eq f hs, hfix, res_bind_ok, if_pos hvtrue]
          simp [pure, Except.pure]
        have hlist : [Xml.el (resolvedTag name f) (some (fieldToStr f v)) XmlList.nil]
            = e0 :: etl := by
          rw [hemitv] at hels
          exact Except.ok.inj hels
        injection hlist with he0 hetl
        have hvne : v ≠ PValue.vnone := by
          rw [hasValue_scalar hs] at hvtrue
          simpa using hvtrue
        obtain ⟨w, hw1, hw2, hw3, hw4, hw5⟩ :=
          scalarReparse f v hs (wfField_scalar_default hs hwf) hwtf hvne
        have hhw : hasValueField f w = true := by
          rw [hasValue_scalar hs]
          simpa using hw4
        have hmv := multivalue_scalar hs
        have hstored : parseFields sFull (Schema.cons name f rest)
            (PValues.cons i0 i0s) children = Except.ok (PValues.cons w tail2) := by
          simp only [parseFields]
          rw [hfilter, ← he0, ← hetl]
          simp [hmv, fieldFromEtree_scalar hs, textValue, Xml.text, hw1, hw5,
            htail2, res_bind_ok, pure, Except.pure]
        have hemitw : emitField (resolvedTag name f) f w = Except.ok
            [Xml.el (resolvedTag name f) (some (fieldToStr f v)) XmlList.nil] := by
          rw [emitField_scalar_eq f hs, hw5, res_bind_ok, if_pos hhw]
          simp [pure, Except.pure, hw2]
        refine ⟨PValues.cons w tail2, hstored, ?_, ?_, ?_⟩
        · rw [goodS]
          simp [goodF_intro hw5 hw3 (Or.inl hs), hgt2]
        · rw [hasValueModel, hasValueModel]
          simp [hhw, hvtrue, hht2]
        · rw [emitModel, emitModel, hemitw, hemitv, res_bind_ok, res_bind_ok, het2]
      · cases f with
        | fList t nl d inner mn =>
          obtain ⟨hdn, hsc, hwi⟩ := wfField_fList_parts hwf
          subst hdn
          cases v with
          | vlist xs =>
            have hfix2 : cleanField (Field.fList Option.none nl SVal.none inner mn)
                (PValue.vlist xs) = Except.ok (PValue.vlist xs) := by
              rw [← cleanField_fList_tag t]
              exact hfix
            have hhv2 : hasValueField (Field.fList Option.none nl SVal.none inner mn)
                (PValue.vlist xs) = true := by
              rw [← hasValueField_fList_tag t]
              exact hvtrue
            -- member fixedness
            have hmemfix : ∀ x ∈ PValues.toList xs, cleanField inner x = Except.ok x := by
              have hfix3 := hfix2
              rw [cleanField] at hfix3
              have hax : applyDefault SVal.none (PValue.vlist xs) = PValue.vlist xs := by
                simp [applyDefault]
              simp only [hax] at hfix3
              obtain ⟨ys, hys, hpz⟩ := bind_ok_inv hfix3
              have hEq : PValues.ofList (popTrailing (hasValueField inner) mn
                  (PValues.toList ys)) = xs := by
                have hh2b : xs = PValues.ofList (popTrailing (hasValueField inner) mn
                    (PValues.toList ys)) := by
                  simpa [pure, Except.pure] using hpz.symm
                exact hh2b.symm
              intro x hx
              have hx2 : x ∈ popTrailing (hasValueField inner) mn (PValues.toList ys) := by
                rw [← hEq, PValues.toList_ofList] at hx
                exact hx
              exact cleanVals_idem_elems inner xs ys (wfField_namesOKF inner hwi) hys x
                (popTrailing_subset _ _ _ x hx2)
            have hmemwt := wellTypedVals_mem inner xs (by
              have hh := hwtf
              rw [wellTypedF] at hh
              exact hh)
            -- emission inversion
            rw [emitField] at hels
            obtain ⟨v1, hv1, h2⟩ := bind_ok_inv hels
            rw [hfix2] at hv1
            have hv1e : v1 = PValue.vlist xs := (Except.ok.inj hv1).symm
            subst hv1e
            rw [if_pos hhv2] at h2
            have hEV : emitVals (resolvedTag name (Field.fList t nl SVal.none inner mn))
                inner xs = Except.ok (e0 :: etl) := h2
            obtain ⟨ws, hmap, hlen, hwprops, hemit2⟩ := emitVals_round inner hsc
              (wfField_scalar_default hsc hwi) _ xs (e0 :: etl)
              (fun x hx => ⟨hmemfix x hx, hmemwt x hx⟩) hEV
            -- parsed value
            have hparsed : fieldFromEtreeMulti (Field.fList t nl SVal.none inner mn)
                (e0 :: etl) = Except.ok (PValue.vlist (PValues.ofList ws)) := by
              rw [fieldFromEtreeMulti, hmap, res_bind_ok]
              rfl
            have hcleanstored : cleanField (Field.fList t nl SVal.none inner mn)
                (PValue.vlist (PValues.ofList ws))
                = Except.ok (PValue.vlist (PValues.ofList ws)) := by
              rw [cleanField_fList_tag t, cleanField]
              have hax : applyDefault SVal.none (PValue.vlist (PValues.ofList ws))
                  = PValue.vlist (PValues.ofList ws) := by simp [applyDefault]
              have hcv : cleanVals inner (PValues.ofList ws)
                  = Except.ok (PValues.ofList ws) := by
                refine cleanVals_fixed inner _ ?_
                intro z hz
                rw [PValues.toList_ofList] at hz
                exact (hwprops z hz).1
              have hpop : popTrailing (hasValueField inner) mn ws = ws :=
                popTrailing_all_keep _ _ _ (fun z hz => (hwprops z hz).2.2)
              simp [hax, hcv, res_bind_ok, pure, Except.pure, PValues.toList_ofList, hpop]
            have hwsne : ws ≠ [] := by
              intro hempty
              rw [hempty] at hlen
              simp at hlen
            have hasws : anyInnerHas inner (PValues.ofList ws) = true := by
              obtain ⟨w0, ws3, hws⟩ := List.exists_cons_of_ne_nil hwsne
              rw [hws]
              rw [show PValues.ofList (w0 :: ws3)
                = PValues.cons w0 (PValues.ofList ws3) from rfl]
              rw [anyInnerHas]
              have hhw0 := (hwprops w0 (by rw [hws]; simp)).2.2
              simp [hhw0]
            have hhvstored : hasValueField (Field.fList Option.none nl SVal.none inner mn)
                (PValue.vlist (PValues.ofList ws)) = true := by
              rw [hasValueField]
              exact hasws
            have hstored : parseFields sFull
                (Schema.cons name (Field.fList t nl SVal.none inner mn) rest)
                (PValues.cons i0 i0s) children
                = Except.ok (PValues.cons (PValue.vlist (PValues.ofList ws)) tail2) := by
              simp only [parseFields]
              rw [hfilter]
              simp [multivalue, hparsed, hcleanstored, htail2, res_bind_ok,
                pure, Except.pure]
            have hemitstored : emitField
                (resolvedTag name (Field.fList t nl SVal.none inner mn))
                (Field.fList t nl SVal.none inner mn)
                (PValue.vlist (PValues.ofList ws)) = Except.ok (e0 :: etl) := by
              rw [emitField]
              rw [show cleanField (Field.fList Option.none nl SVal.none inner mn)
                  (PValue.vlist (PValues.ofList ws))
                  = Except.ok (PValue.vlist (PValues.ofList ws)) from by
                rw [← cleanField_fList_tag t]
                exact hcleanstored]
              rw [res_bind_ok, if_pos hhvstored]
              exact hemit2
            have hemitv : emitField
                (resolvedTag name (Field.fList t nl SVal.none inner mn))
                (Field.fList t nl SVal.none inner mn)
                (PValue.vlist xs) = Except.ok (e0 :: etl) := by
              rw [emitField]
              rw [hfix2, res_bind_ok, if_pos hhv2]
              exact hEV
            refine ⟨PValues.cons (PValue.vlist (PValues.ofList ws)) tail2, hstored,
              ?_, ?_, ?_⟩
            · rw [goodS]
              have hgw : goodF (Field.fList t nl SVal.none inner mn)
                  (PValue.vlist (PValues.ofList ws)) = true := by
                refine goodF_intro hcleanstored ?_ (Or.inr (by simp))
                rw [wellTypedF]
                exact wellTypedVals_ofList inner ws (fun z hz => (hwprops z hz).2.1)
              simp [hgw, hgt2]
            · rw [hasValueModel, hasValueModel]
              rw [show hasValueField (Field.fList t nl SVal.none inner mn)
                  (PValue.vlist (PValues.ofList ws)) = true from by
                rw [hasValueField_fList_tag t]
                exact hhvstored]
              simp [hvtrue, hht2]
            · rw [emitModel, emitModel, hemitstored, hemitv, res_bind_ok,
                res_bind_ok, het2]
          | vnone => simp [hasValueField] at hvtrue
          | vstr a => simp [hasValueField] at hvtrue
          | vint a => simp [hasValueField] at hvtrue
          | vdec a b => simp [hasValueField] at hvtrue
          | vdate a => simp [hasValueField] at hvtrue
          | vdt a => simp [hasValueField] at hvtrue
          | vbytes a => simp [hasValueField] at hvtrue
          | vmodel a b => simp [hasValueField] at hvtrue
        | fModel t nl d mt sub =>
          obtain ⟨htn, hdn, hwsub⟩ := wfField_fModel_parts hwf
          subst htn
          subst hdn
          cases v with
          | vmodel s2 vs2 =>
            have hs2 : s2 = sub ∧ wellTypedS sub vs2 = true := by
              have hh := hwtf
              rw [wellTypedF] at hh
              simpa [Bool.and_eq_true] using hh
            obtain ⟨hs2e, hwt2⟩ := hs2
            have hse : sub = s2 := hs2e.symm
            subst hse
            have hax2 : applyDefault SVal.none (PValue.vmodel sub vs2)
                = PValue.vmodel sub vs2 := by simp [applyDefault]
            have hmc : modelCleanValue sub (PValue.vmodel sub vs2)
                = Except.ok (PValue.vmodel sub vs2) := by
              have hh := hfix
              rw [cleanField_fModel_eq, hax2] at hh
              exact hh
            have hinit2 : initModel sub (kwFrom sub sub vs2) = Except.ok vs2 := by
              have hh := hmc
              rw [modelCleanValue] at hh
              obtain ⟨ws2, hws2, heq⟩ := map_ok_inv hh
              have : ws2 = vs2 := by injection heq
              subst this
              exact hws2
            have hcfs2 : cleanFixedS sub vs2 :=
              initModel_cleanFixed sub _ vs2 (wfSchema_namesOKS sub hwsub) hinit2
            -- emission inversion
            rw [emitField] at hels
            obtain ⟨v1, hv1, h2⟩ := bind_ok_inv hels
            rw [hfix] at hv1
            have hv1e : v1 = PValue.vmodel sub vs2 := (Except.ok.inj hv1).symm
            subst hv1e
            rw [if_pos hvtrue] at h2
            obtain ⟨cs_sub, hcssub, h3⟩ := bind_ok_inv
              (show (do
                let cs ← emitModel sub vs2
                pure [Xml.el mt Option.none (XmlList.ofList cs)] : Res (List Xml))
                = Except.ok (e0 :: etl) from h2)
            have hlist : [Xml.el mt Option.none (XmlList.ofList cs_sub)] = e0 :: etl := by
              have := h3
              simpa [pure, Except.pure] using this
            injection hlist with he0 hetl
            obtain ⟨inst0sub, vs3, hinit0, hparse, hgood3, hhv3, hemit3⟩ :=
              modelFromEtree_round sub vs2 cs_sub mt hwsub hcfs2 hwt2 hcssub
            have hparsed : fieldFromEtree (Field.fModel Option.none nl SVal.none mt sub)
                (Xml.el mt Option.none (XmlList.ofList cs_sub))
                = Except.ok (PValue.vmodel sub vs3) := by
              rw [fieldFromEtree]
              rw [show constructModel sub = Except.ok inst0sub from hinit0]
              rw [res_bind_ok, hparse, res_bind_ok]
              rfl
            have hax3 : applyDefault SVal.none (PValue.vmodel sub vs3)
                = PValue.vmodel sub vs3 := by simp [applyDefault]
            have hcopy3 : initModel sub (kwFrom sub sub vs3) = Except.ok vs3 :=
              initModel_selfcopy sub vs3 _ hwsub hgood3
                (fun n hn => lookupKw_kwFrom sub sub vs3 n hn)
            have hcleanstored : cleanField (Field.fModel Option.none nl SVal.none mt sub)
                (PValue.vmodel sub vs3) = Except.ok (PValue.vmodel sub vs3) := by
              rw [cleanField_fModel_eq, hax3, modelCleanValue, hcopy3, res_map_ok]
            have hstored : parseFields sFull
                (Schema.cons name (Field.fModel Option.none nl SVal.none mt sub) rest)
                (PValues.cons i0 i0s) children
                = Except.ok (PValues.cons (PValue.vmodel sub vs3) tail2) := by
              simp only [parseFields]
              rw [hfilter, ← he0, ← hetl]
              simp [multivalue, hparsed, hcleanstored, htail2, res_bind_ok,
                pure, Except.pure]
            have hhvstored : hasValueField (Field.fModel Option.none nl SVal.none mt sub)
                (PValue.vmodel sub vs3) = hasValueField
                (Field.fModel Option.none nl SVal.none mt sub)
                (PValue.vmodel sub vs2) := by
              rw [hasValueField, hasValueField]
              exact hhv3
            have hemitstored : emitField
                (resolvedTag name (Field.fModel Option.none nl SVal.none mt sub))
                (Field.fModel Option.none nl SVal.none mt sub)
                (PValue.vmodel sub vs3) = Except.ok (e0 :: etl) := by
              rw [emitField]
              rw [hcleanstored, res_bind_ok]
              rw [if_pos (by rw [hhvstored]; exact hvtrue)]
              have hrest3 : (do
                  let cs ← emitModel sub vs3
                  pure [Xml.el mt Option.none (XmlList.ofList cs)] : Res (List Xml))
                  = Except.ok (e0 :: etl) := by
                rw [hemit3, hcssub, res_bind_ok, ← he0, ← hetl]
                rfl
              exact hrest3
            have hemitv : emitField
                (resolvedTag name (Field.fModel Option.none nl SVal.none mt sub))
                (Field.fModel Option.none nl SVal.none mt sub)
                (PValue.vmodel sub vs2) = Except.ok (e0 :: etl) := by
              rw [emitField]
              rw [hfix, res_bind_ok, if_pos hvtrue]
              have hrest2 : (do
                  let cs ← emitModel sub vs2
                  pure [Xml.el mt Option.none (XmlList.ofList cs)] : Res (List Xml))
                  = Except.ok (e0 :: etl) := by
                rw [hcssub, res_bind_ok, ← he0, ← hetl]
                rfl
              exact hrest2
            refine ⟨PValues.cons (PValue.vmodel sub vs3) tail2, hstored, ?_, ?_, ?_⟩
            · rw [goodS]
              have hgw : goodF (Field.fModel Option.none nl SVal.none mt sub)
                  (PValue.vmodel sub vs3) = true := by
                refine goodF_intro hcleanstored ?_ (Or.inr (by simp))
                rw [wellTypedF]
                simp [goodS_wellTyped sub vs3 hgood3]
              simp [hgw, hgt2]
            · rw [hasValueModel, hasValueModel, hhvstored]
              simp [hht2]
            · rw [emitModel, emitModel, hemitstored, hemitv, res_bind_ok,
                res_bind_ok, het2]
          | vnone => simp [hasValueField] at hvtrue
          | vstr a => simp [hasValueField] at hvtrue
          | vint a => simp [hasValueField] at hvtrue
          | vdec a b => simp [hasValueField] at hvtrue
          | vdate a => simp [hasValueField] at hvtrue
          | vdt a => simp [hasValueField] at hvtrue
          | vbytes a => simp [hasValueField] at hvtrue
          | vlist a => simp [hasValueField] at hvtrue
        | fModelList t nl d mt sub mn =>
          obtain ⟨htn, hdn, hwsub⟩ := wfField_fModelList_parts hwf
          subst htn
          subst hdn
          cases v with
          | vlist xs =>
            have hwtm : wellTypedModels sub xs = true := by
              have hh := hwtf
              rw [wellTypedF] at hh
              exact hh
            -- member fixedness under modelCleanValue
            have hmemfix : ∀ x ∈ PValues.toList xs,
                modelCleanValue sub x = Except.ok x := by
              have hfix3 := hfix
              rw [cleanField] at hfix3
              have hax : applyDefault SVal.none (PValue.vlist xs) = PValue.vlist xs := by
                simp [applyDefault]
              simp only [hax] at hfix3
              obtain ⟨ys, hys, hpz⟩ := bind_ok_inv hfix3
              have hEq : PValues.ofList (popTrailing selfHasValue mn
                  (PValues.toList ys)) = xs := by
                have hh2b : xs = PValues.ofList (popTrailing selfHasValue mn
                    (PValues.toList ys)) := by
                  simpa [pure, Except.pure] using hpz.symm
                exact hh2b.symm
              intro x hx
              have hx2 : x ∈ popTrailing selfHasValue mn (PValues.toList ys) := by
                rw [← hEq, PValues.toList_ofList] at hx
                exact hx
              exact cleanModels_idem_elems sub xs ys (wfSchema_namesOKS sub hwsub) hys x
                (popTrailing_subset _ _ _ x hx2)
            -- pop-fixedness of the member list
            have hpopxs : popTrailing selfHasValue mn (PValues.toList xs)
                = PValues.toList xs := by
              have hfix3 := hfix
              rw [cleanField] at hfix3
              have hax : applyDefault SVal.none (PValue.vlist xs) = PValue.vlist xs := by
                simp [applyDefault]
              simp only [hax] at hfix3
              obtain ⟨ys, hys, hpz⟩ := bind_ok_inv hfix3
              have hEq : PValues.ofList (popTrailing selfHasValue mn
                  (PValues.toList ys)) = xs := by
                have hh2b : xs = PValues.ofList (popTrailing selfHasValue mn
                    (PValues.toList ys)) := by
                  simpa [pure, Except.pure] using hpz.symm
                exact hh2b.symm
              have hxs : PValues.toList xs = popTrailing selfHasValue mn
                  (PValues.toList ys) := by
                rw [← hEq, PValues.toList_ofList]
              rw [hxs, popTrailing_idem]
            -- emission inversion
            rw [emitField] at hels
            obtain ⟨v1, hv1, h2⟩ := bind_ok_inv hels
            rw [hfix] at hv1
            have hv1e : v1 = PValue.vlist xs := (Except.ok.inj hv1).symm
            subst hv1e
            rw [if_pos hvtrue] at h2
            have hEM : emitModels mt sub xs = Except.ok (e0 :: etl) := h2
            obtain ⟨ps, hmapm, hselfmap, hpprops, hemitm⟩ :=
              emitModels_round sub xs mt (e0 :: etl) hwsub
                (fun x hx => ⟨hmemfix x hx, wellTypedModels_mem sub xs hwtm x hx⟩) hEM
            have hparsed : fieldFromEtreeMulti
                (Field.fModelList Option.none nl SVal.none mt sub mn)
                (e0 :: etl) = Except.ok (PValue.vlist (PValues.ofList ps)) := by
              rw [fieldFromEtreeMulti, hmapm, res_bind_ok]
              rfl
            have hpopps : popTrailing selfHasValue mn ps = ps := by
              refine popTrailing_self_transfer selfHasValue mn
                (PValues.toList xs) ps ?_ hpopxs
              exact hselfmap.symm
            have hcleanstored : cleanField
                (Field.fModelList Option.none nl SVal.none mt sub mn)
                (PValue.vlist (PValues.ofList ps))
                = Except.ok (PValue.vlist (PValues.ofList ps)) := by
              rw [cleanField]
              have hax : applyDefault SVal.none (PValue.vlist (PValues.ofList ps))
                  = PValue.vlist (PValues.ofList ps) := by simp [applyDefault]
              have hcm : cleanModels sub (PValues.ofList ps)
                  = Except.ok (PValues.ofList ps) := by
                refine cleanModels_fixed sub _ ?_
                intro z hz
                rw [PValues.toList_ofList] at hz
                exact (hpprops z hz).1
              simp [hax, hcm, res_bind_ok, pure, Except.pure, PValues.toList_ofList,
                hpopps]
            have hanyps : anySelfHas (PValues.ofList ps) = anySelfHas xs := by
              rw [anySelfHas_eq_any, anySelfHas_eq_any, PValues.toList_ofList]
              exact any_eq_of_map_eq selfHasValue selfHasValue ps
                (PValues.toList xs) hselfmap
            have hanyxs : anySelfHas xs = true := hvtrue
            have hhvstored : hasValueField
                (Field.fModelList Option.none nl SVal.none mt sub mn)
                (PValue.vlist (PValues.ofList ps)) = true := by
              rw [hasValueField, hanyps]
              exact hanyxs
            have hstored : parseFields sFull
                (Schema.cons name (Field.fModelList Option.none nl SVal.none mt sub mn)
                  rest)
                (PValues.cons i0 i0s) children
                = Except.ok (PValues.cons (PValue.vlist (PValues.ofList ps)) tail2) := by
              simp only [parseFields]
              rw [hfilter]
              simp [multivalue, hparsed, hcleanstored, htail2, res_bind_ok,
                pure, Except.pure]
            have hemitstored : emitField
                (resolvedTag name (Field.fModelList Option.none nl SVal.none mt sub mn))
                (Field.fModelList Option.none nl SVal.none mt sub mn)
                (PValue.vlist (PValues.ofList ps)) = Except.ok (e0 :: etl) := by
              rw [emitField]
              rw [hcleanstored, res_bind_ok, if_pos hhvstored]
              exact hemitm
            have hemitv : emitField
                (resolvedTag name (Field.fModelList Option.none nl SVal.none mt sub mn))
                (Field.fModelList Option.none nl SVal.none mt sub mn)
                (PValue.vlist xs) = Except.ok (e0 :: etl) := by
              rw [emitField]
              rw [hfix, res_bind_ok, if_pos hvtrue]
              exact hEM
            refine ⟨PValues.cons (PValue.vlist (PValues.ofList ps)) tail2, hstored,
              ?_, ?_, ?_⟩
            · rw [goodS]
              have hgw : goodF (Field.fModelList Option.none nl SVal.none mt sub mn)
                  (PValue.vlist (PValues.ofList ps)) = true := by
                refine goodF_intro hcleanstored ?_ (Or.inr (by simp))
                rw [wellTypedF]
                exact wellTypedModels_ofList sub ps (fun z hz => (hpprops z hz).2)
              simp [hgw, hgt2]
            · rw [hasValueModel, hasValueModel]
              rw [show hasValueField
                  (Field.fModelList Option.none nl SVal.none mt sub mn)
                  (PValue.vlist (PValues.ofList ps)) = true from hhvstored]
              simp [hvtrue, hht2]
            · rw [emitModel, emitModel, hemitstored, hemitv, res_bind_ok,
                res_bind_ok, het2]
          | vnone => simp [hasValueField] at hvtrue
          | vstr a => simp [hasValueField] at hvtrue
          | vint a => simp [hasValueField] at hvtrue
          | vdec a b => simp [hasValueField] at hvtrue
          | vdate a => simp [hasValueField] at hvtrue
          | vdt a => simp [hasValueField] at hvtrue
          | vbytes a => simp [hasValueField] at hvtrue
          | vmodel a b => simp [hasValueField] at hvtrue
        | fStr t2 nl2 d2 => simp [isScalarField] at hs
        | fInt t2 nl2 d2 => simp [isScalarField] at hs
        | fDec t2 nl2 d2 dcm2 => simp [isScalarField] at hs
        | fDate t2 nl2 d2 => simp [isScalarField] at hs
        | fDT t2 nl2 d2 => simp [isScalarField] at hs
        | fBytes t2 nl2 d2 => simp [isScalarField] at hs
        | fNotImpl t2 nl2 => simp [isScalarField] at hs
termination_by sFull s _ _ _ _ _ _ _ _ _ => (sizeOf s, 0)

theorem modelFromEtree_round : ∀ (s : Schema) (vs : PValues) (cs : List Xml)
    (mtagX : List Char), wfSchema s = true → cleanFixedS s vs = true →
    wellTypedS s vs = true → emitModel s vs = Except.ok cs →
    ∃ inst0 vs2, initModel s [] = Except.ok inst0 ∧
      modelFromEtree mtagX s inst0 (Xml.el mtagX Option.none (XmlList.ofList cs))
        = Except.ok vs2 ∧
      goodS s vs2 = true ∧ hasValueModel s vs2 = hasValueModel s vs ∧
      emitModel s vs2 = emitModel s vs
  | s, vs, cs, mtagX, hw, hcf, hwt, hemit => by
    obtain ⟨inst0, hinit0, hgood0, hhv0⟩ := constructModel_wf s hw
    have hmh := matched_init s vs cs hw hcf hemit
    obtain ⟨vs2, hpf, hg2, hh2, he2⟩ :=
      parseFields_round s s vs inst0 cs hw hcf hwt hgood0 hhv0 hmh
    refine ⟨inst0, vs2, hinit0, ?_, hg2, hh2, he2⟩
    rw [modelFromEtree]
    rw [if_neg (by simp [Xml.tag])]
    have hall : (XmlList.ofList cs).toList.all
        (fun c => (tagLookup s c.tag).isSome) = true := by
      rw [xmlToList_ofList]
      rw [List.all_eq_true]
      intro c hc
      obtain ⟨n, hn, -⟩ := emit_children_names s s vs cs
        (tagsResolve_self s hw) hw hemit c hc
      simp [hn]
    rw [if_neg (by simp [Xml.children, hall])]
    rw [show (Xml.el mtagX Option.none (XmlList.ofList cs)).children.toList = cs from by
      simp [Xml.children, xmlToList_ofList]]
    exact hpf
termination_by s _ _ _ _ _ _ _ => (sizeOf s, 1)

theorem emitModels_round : ∀ (sub : Schema) (ms : PValues) (mtagX : List Char)
    (els : List Xml), wfSchema sub = true →
    (∀ x ∈ PValues.toList ms, modelCleanValue sub x = Except.ok x ∧
      (x = PValue.vnone ∨ ∃ ws, x = PValue.vmodel sub ws ∧ wellTypedS sub ws = true)) →
    emitModels mtagX sub ms = Except.ok els →
    ∃ ps : List PValue, mapModelFromEtree mtagX sub els = Except.ok ps ∧
      ps.map selfHasValue = (PValues.toList ms).map selfHasValue ∧
      (∀ p ∈ ps, modelCleanValue sub p = Except.ok p ∧
        (∃ ws2, p = PValue.vmodel sub ws2 ∧ wellTypedS sub ws2 = true)) ∧
      emitModels mtagX sub (PValues.ofList ps) = Except.ok els
  | sub, PValues.nil, mtagX, els, _, _, h => by
    rw [emitModels] at h
    have hels : els = [] := (Except.ok.inj h).symm
    subst hels
    refine ⟨[], by rw [mapModelFromEtree], by simp [PValues.toList], by simp, ?_⟩
    rw [show PValues.ofList ([] : List PValue) = PValues.nil from rfl]
    rw [emitModels]
  | sub, PValues.cons x ms, mtagX, els, hwsub, hm, h => by
    have hx := hm x (by simp [PValues.toList])
    cases x with
    | vmodel s2 vs2 =>
      have hs2 : s2 = sub ∧ wellTypedS sub vs2 = true := by
        rcases hx.2 with h1 | ⟨ws, hws, hwt⟩
        · cases h1
        · have h1 : s2 = sub ∧ vs2 = ws := by
            constructor <;> injection hws <;> assumption
          obtain ⟨ha, hb⟩ := h1
          subst hb
          exact ⟨ha, hwt⟩
      obtain ⟨hs2e, hwt2⟩ := hs2
      have hse : sub = s2 := hs2e.symm
      subst hse
      simp only [emitModels] at h
      obtain ⟨cs_sub, hcssub, h2⟩ := bind_ok_inv h
      obtain ⟨rest, hrest, h3⟩ := bind_ok_inv h2
      have hels : els = Xml.el mtagX Option.none (XmlList.ofList cs_sub) :: rest := by
        simpa [pure, Except.pure] using h3.symm
      subst hels
      have hinit2 : initModel sub (kwFrom sub sub vs2) = Except.ok vs2 := by
        have hh := hx.1
        rw [modelCleanValue] at hh
        obtain ⟨ws2, hws2, heq⟩ := map_ok_inv hh
        have : ws2 = vs2 := by injection heq
        subst this
        exact hws2
      have hcfs2 : cleanFixedS sub vs2 :=
        initModel_cleanFixed sub _ vs2 (wfSchema_namesOKS sub hwsub) hinit2
      obtain ⟨inst0sub, vs3, hinit0, hparse, hgood3, hhv3, hemit3⟩ :=
        modelFromEtree_round sub vs2 cs_sub mtagX hwsub hcfs2 hwt2 hcssub
      obtain ⟨ps2, hmap2, hself2, hprops2, hemit2⟩ :=
        emitModels_round sub ms mtagX rest hwsub
          (fun z hz => hm z (by simp [PValues.toList, hz])) hrest
      have hcopy3 : initModel sub (kwFrom sub sub vs3) = Except.ok vs3 :=
        initModel_selfcopy sub vs3 _ hwsub hgood3
          (fun n hn => lookupKw_kwFrom sub sub vs3 n hn)
      refine ⟨PValue.vmodel sub vs3 :: ps2, ?_, ?_, ?_, ?_⟩
      · rw [mapModelFromEtree]
        rw [show constructModel sub = Except.ok inst0sub from hinit0]
        rw [res_bind_ok, hparse, res_bind_ok, hmap2, res_bind_ok]
        rfl
      · rw [PValues.toList]
        simp only [List.map]
        rw [hself2]
        simp [selfHasValue, hhv3]
      · intro p hp
        rcases List.mem_cons.mp hp with h1 | h2
        · subst h1
          refine ⟨?_, ⟨vs3, rfl, goodS_wellTyped sub vs3 hgood3⟩⟩
          rw [modelCleanValue, hcopy3, res_map_ok]
        · exact hprops2 p h2
      · rw [show PValues.ofList (PValue.vmodel sub vs3 :: ps2)
          = PValues.cons (PValue.vmodel sub vs3) (PValues.ofList ps2) from rfl]
        simp only [emitModels]
        rw [hemit3, hcssub, res_bind_ok, hemit2, res_bind_ok]
        rfl
    | vnone => simp [emitModels] at h
    | vstr a => simp [emitModels] at h
    | vint a => simp [emitModels] at h
    | vdec a b => simp [emitModels] at h
    | vdate a => simp [emitModels] at h
    | vdt a => simp [emitModels] at h
    | vbytes a => simp [emitModels] at h
    | vlist a => simp [emitModels] at h
termination_by sub ms _ _ _ _ _ => (sizeOf sub, 2 + sizeOf ms)

end


/-! ### C1: the serialization round trip -/

/-- C1 amended: for a well-formed schema (unique field names and resolved
tags, empty construct defaults, scalar list members, no tag override on
model-valued fields) and stored values satisfying the stored-value invariant
(each a fixed point of its field's `clean_value` and well-typed), if
serialization succeeds then deserializing the resulting element succeeds and
re-serializing the reconstructed instance is byte-identical to the first
serialization — same element order and same omissions.  (The reconstructed
instance need NOT be equal to the original: see the counterexample.) -/
theorem c1_serialize_parse_serialize (mtag : List Char) (s : Schema)
    (vs : PValues) (x : Xml) (hwf : wfSchema s = true)
    (hstored : storedOKS s vs = true) (hx : modelToXml mtag s vs = Except.ok x) :
    ∃ inst0 vs2, constructModel s = Except.ok inst0 ∧
      modelFromEtree mtag s inst0 x = Except.ok vs2 ∧
      modelToXml mtag s vs2 = Except.ok x := by
  have hparts : cleanFixedS s vs = true ∧ wellTypedS s vs = true := by
    simpa [storedOKS, Bool.and_eq_true] using hstored
  rw [modelToXml] at hx
  obtain ⟨cs, hcs, hxe⟩ := map_ok_inv hx
  obtain ⟨inst0, vs2, hinit0, hparse, -, -, hemit2⟩ :=
    modelFromEtree_round s vs cs mtag hwf hparts.1 hparts.2 hcs
  refine ⟨inst0, vs2, by rw [constructModel]; exact hinit0, ?_, ?_⟩
  · rw [← hxe]
    exact hparse
  · rw [modelToXml, hemit2, hcs, res_map_ok, hxe]

theorem c1_serialize_parse_serialize_witness :
    ∃ inst0 vs2,
      constructModel (Schema.cons ['a'] (Field.fStr Option.none false SVal.none)
        Schema.nil) = Except.ok inst0 ∧
      modelFromEtree ['R']
        (Schema.cons ['a'] (Field.fStr Option.none false SVal.none) Schema.nil)
        inst0
        (Xml.el ['R'] Option.none (XmlList.ofList
          [Xml.el (resolvedTag ['a'] (Field.fStr Option.none false SVal.none))
            (some ['h', 'i']) XmlList.nil]))
        = Except.ok vs2 ∧
      modelToXml ['R']
        (Schema.cons ['a'] (Field.fStr Option.none false SVal.none) Schema.nil)
        vs2
        = Except.ok (Xml.el ['R'] Option.none (XmlList.ofList
          [Xml.el (resolvedTag ['a'] (Field.fStr Option.none false SVal.none))
            (some ['h', 'i']) XmlList.nil])) := by
  have hcl : cleanField (Field.fStr Option.none false SVal.none)
      (PValue.vstr ['h', 'i']) = Except.ok (PValue.vstr ['h', 'i']) := by
    rw [cleanField]
    simp [strClean, applyDefault, pyStr]
  have hemF : emitField (resolvedTag ['a'] (Field.fStr Option.none false SVal.none))
      (Field.fStr Option.none false SVal.none) (PValue.vstr ['h', 'i'])
      = Except.ok [Xml.el (resolvedTag ['a'] (Field.fStr Option.none false SVal.none))
          (some ['h', 'i']) XmlList.nil] := by
    rw [emitField_scalar_eq _ (by simp [isScalarField])]
    rw [hcl, res_bind_ok, if_pos (by simp [hasValueField])]
    simp [pure, Except.pure, fieldToStr, pyStr]
  have hemM : emitModel
      (Schema.cons ['a'] (Field.fStr Option.none false SVal.none) Schema.nil)
      (PValues.cons (PValue.vstr ['h', 'i']) PValues.nil)
      = Except.ok [Xml.el (resolvedTag ['a'] (Field.fStr Option.none false SVal.none))
          (some ['h', 'i']) XmlList.nil] := by
    rw [emitModel, hemF, res_bind_ok]
    rw [show emitModel Schema.nil PValues.nil = Except.ok [] from by simp [emitModel]]
    rw [res_bind_ok]
    rfl
  exact c1_serialize_parse_serialize ['R']
    (Schema.cons ['a'] (Field.fStr Option.none false SVal.none) Schema.nil)
    (PValues.cons (PValue.vstr ['h', 'i']) PValues.nil)
    (Xml.el ['R'] Option.none (XmlList.ofList
      [Xml.el (resolvedTag ['a'] (Field.fStr Option.none false SVal.none))
        (some ['h', 'i']) XmlList.nil]))
    (by simp [wfSchema, wfField, fieldDefault, schemaNames, schemaTags])
    (by simp [storedOKS, cleanFixedS, cleanFixedF, hcl, wellTypedS, wellTypedF])
    (by rw [modelToXml, hemM, res_map_ok])


/-- C1 counterexample: the round trip is NOT an identity for every valid
instance.  The outer schema has one nullable model-valued field `b` left
unset (`None`); its sub-schema's string field `c` carries the non-`None`
default `"X"`.  The stored value is clean and well-typed, serialization
emits an element with no children, but deserializing materializes a fresh
instance whose nested model carries the default, so the reconstructed
instance is not equal to the original and re-serialization emits an extra
nested element: the bytes differ. -/
theorem c1_counterexample :
    storedOKS
      (Schema.cons ['b'] (Field.fModel Option.none true SVal.none ['S']
        (Schema.cons ['c'] (Field.fStr Option.none false (SVal.str ['X']))
          Schema.nil)) Schema.nil)
      (PValues.cons PValue.vnone PValues.nil) = true ∧
    modelToXml ['R']
      (Schema.cons ['b'] (Field.fModel Option.none true SVal.none ['S']
        (Schema.cons ['c'] (Field.fStr Option.none false (SVal.str ['X']))
          Schema.nil)) Schema.nil)
      (PValues.cons PValue.vnone PValues.nil)
      = Except.ok (Xml.el ['R'] Option.none (XmlList.ofList [])) ∧
    constructModel
      (Schema.cons ['b'] (Field.fModel Option.none true SVal.none ['S']
        (Schema.cons ['c'] (Field.fStr Option.none false (SVal.str ['X']))
          Schema.nil)) Schema.nil)
      = Except.ok (PValues.cons
          (PValue.vmodel
            (Schema.cons ['c'] (Field.fStr Option.none false (SVal.str ['X']))
              Schema.nil)
            (PValues.cons (PValue.vstr ['X']) PValues.nil)) PValues.nil) ∧
    modelFromEtree ['R']
      (Schema.cons ['b'] (Field.fModel Option.none true SVal.none ['S']
        (Schema.cons ['c'] (Field.fStr Option.none false (SVal.str ['X']))
          Schema.nil)) Schema.nil)
      (PValues.cons
        (PValue.vmodel
          (Schema.cons ['c'] (Field.fStr Option.none false (SVal.str ['X']))
            Schema.nil)
          (PValues.cons (PValue.vstr ['X']) PValues.nil)) PValues.nil)
      (Xml.el ['R'] Option.none (XmlList.ofList []))
      = Except.ok (PValues.cons
          (PValue.vmodel
            (Schema.cons ['c'] (Field.fStr Option.none false (SVal.str ['X']))
              Schema.nil)
            (PValues.cons (PValue.vstr ['X']) PValues.nil)) PValues.nil) ∧
    modelEq
      (Schema.cons ['b'] (Field.fModel Option.none true SVal.none ['S']
        (Schema.cons ['c'] (Field.fStr Option.none false (SVal.str ['X']))
          Schema.nil)) Schema.nil)
      (PValues.cons PValue.vnone PValues.nil)
      (PValue.vmodel
        (Schema.cons ['b'] (Field.fModel Option.none true SVal.none ['S']
          (Schema.cons ['c'] (Field.fStr Option.none false (SVal.str ['X']))
            Schema.nil)) Schema.nil)
        (PValues.cons
          (PValue.vmodel
            (Schema.cons ['c'] (Field.fStr Option.none false (SVal.str ['X']))
              Schema.nil)
            (PValues.cons (PValue.vstr ['X']) PValues.nil)) PValues.nil))
      = Except.ok false ∧
    ∃ x2, modelToXml ['R']
      (Schema.cons ['b'] (Field.fModel Option.none true SVal.none ['S']
        (Schema.cons ['c'] (Field.fStr Option.none false (SVal.str ['X']))
          Schema.nil)) Schema.nil)
      (PValues.cons
        (PValue.vmodel
          (Schema.cons ['c'] (Field.fStr Option.none false (SVal.str ['X']))
            Schema.nil)
          (PValues.cons (PValue.vstr ['X']) PValues.nil)) PValues.nil)
      = Except.ok x2 ∧ x2 ≠ Xml.el ['R'] Option.none (XmlList.ofList []) := by
  have hclB : cleanField (Field.fModel Option.none true SVal.none ['S']
      (Schema.cons ['c'] (Field.fStr Option.none false (SVal.str ['X'])) Schema.nil))
      PValue.vnone = Except.ok PValue.vnone := by
    rw [cleanField_fModel_eq]
    rw [show applyDefault SVal.none PValue.vnone = PValue.vnone from by
      simp [applyDefault, svalToP]]
    rw [modelCleanValue]
  have hhvB : hasValueField (Field.fModel Option.none true SVal.none ['S']
      (Schema.cons ['c'] (Field.fStr Option.none false (SVal.str ['X'])) Schema.nil))
      PValue.vnone = false := by
    simp [hasValueField]
  have hsubInit : initModel
      (Schema.cons ['c'] (Field.fStr Option.none false (SVal.str ['X'])) Schema.nil) []
      = Except.ok (PValues.cons (PValue.vstr ['X']) PValues.nil) := by
    rw [initModel]
    simp [lookupKw_nil, constructRaw, cleanField, strClean, applyDefault, svalToP,
      pyStr, initModel, res_bind_ok, pure, Except.pure]
  have hsubCopy : initModel
      (Schema.cons ['c'] (Field.fStr Option.none false (SVal.str ['X'])) Schema.nil)
      (kwFrom
        (Schema.cons ['c'] (Field.fStr Option.none false (SVal.str ['X'])) Schema.nil)
        (Schema.cons ['c'] (Field.fStr Option.none false (SVal.str ['X'])) Schema.nil)
        (PValues.cons (PValue.vstr ['X']) PValues.nil))
      = Except.ok (PValues.cons (PValue.vstr ['X']) PValues.nil) := by
    rw [initModel]
    simp [kwFrom, schemaNames, getattrP, lookupKw, List.find?, cleanField, strClean,
      applyDefault, pyStr, initModel, res_bind_ok, pure, Except.pure]
  have hcopyB : cleanField (Field.fModel Option.none true SVal.none ['S']
      (Schema.cons ['c'] (Field.fStr Option.none false (SVal.str ['X'])) Schema.nil))
      (PValue.vmodel
        (Schema.cons ['c'] (Field.fStr Option.none false (SVal.str ['X'])) Schema.nil)
        (PValues.cons (PValue.vstr ['X']) PValues.nil))
      = Except.ok (PValue.vmodel
        (Schema.cons ['c'] (Field.fStr Option.none false (SVal.str ['X'])) Schema.nil)
        (PValues.cons (PValue.vstr ['X']) PValues.nil)) := by
    rw [cleanField_fModel_eq]
    rw [show applyDefault SVal.none (PValue.vmodel
        (Schema.cons ['c'] (Field.fStr Option.none false (SVal.str ['X'])) Schema.nil)
        (PValues.cons (PValue.vstr ['X']) PValues.nil))
      = PValue.vmodel
        (Schema.cons ['c'] (Field.fStr Option.none false (SVal.str ['X'])) Schema.nil)
        (PValues.cons (PValue.vstr ['X']) PValues.nil) from by simp [applyDefault]]
    rw [modelCleanValue, hsubCopy, res_map_ok]
  refine ⟨?_, ?_, ?_, ?_, ?_, ?_⟩
  · simp [storedOKS, cleanFixedS, cleanFixedF, hclB, wellTypedS, wellTypedF]
  · rw [modelToXml]
    rw [show emitModel
        (Schema.cons ['b'] (Field.fModel Option.none true SVal.none ['S']
          (Schema.cons ['c'] (Field.fStr Option.none false (SVal.str ['X']))
            Schema.nil)) Schema.nil)
        (PValues.cons PValue.vnone PValues.nil) = Except.ok [] from by
      rw [emitModel]
      rw [emitField_none _ _ _ _ hclB hhvB, res_bind_ok]
      rw [show emitModel Schema.nil PValues.nil = Except.ok [] from by
        simp [emitModel]]
      rw [res_bind_ok]
      rfl]
    rw [res_map_ok]
  · rw [constructModel, initModel]
    rw [show constructRaw (Field.fModel Option.none true SVal.none ['S']
        (Schema.cons ['c'] (Field.fStr Option.none false (SVal.str ['X']))
          Schema.nil))
      = Except.ok (PValue.vmodel
          (Schema.cons ['c'] (Field.fStr Option.none false (SVal.str ['X']))
            Schema.nil)
          (PValues.cons (PValue.vstr ['X']) PValues.nil)) from by
      rw [constructRaw, hsubInit, res_map_ok]]
    rw [show lookupKw [] ['b'] = PValue.vnone from rfl]
    rw [if_pos rfl, res_bind_ok]
    dsimp only
    rw [hcopyB, res_bind_ok]
    rw [show initModel Schema.nil [] = Except.ok PValues.nil from by rw [initModel]]
    rw [res_bind_ok]
    rfl
  · rw [modelFromEtree]
    rw [if_neg (by simp [Xml.tag])]
    rw [if_neg (by simp [Xml.children, XmlList.ofList, XmlList.toList])]
    rw [show (Xml.el ['R'] Option.none (XmlList.ofList [])).children.toList
      = [] from rfl]
    exact parseFields_nil _ _ _ (by simp [sameShape])
  · rw [modelEq]
    rw [show modelCleanValue
        (Schema.cons ['b'] (Field.fModel Option.none true SVal.none ['S']
          (Schema.cons ['c'] (Field.fStr Option.none false (SVal.str ['X']))
            Schema.nil)) Schema.nil)
        (PValue.vmodel
          (Schema.cons ['b'] (Field.fModel Option.none true SVal.none ['S']
            (Schema.cons ['c'] (Field.fStr Option.none false (SVal.str ['X']))
              Schema.nil)) Schema.nil)
          (PValues.cons
            (PValue.vmodel
              (Schema.cons ['c'] (Field.fStr Option.none false (SVal.str ['X']))
                Schema.nil)
              (PValues.cons (PValue.vstr ['X']) PValues.nil)) PValues.nil))
        = Except.ok (PValue.vmodel
          (Schema.cons ['b'] (Field.fModel Option.none true SVal.none ['S']
            (Schema.cons ['c'] (Field.fStr Option.none false (SVal.str ['X']))
              Schema.nil)) Schema.nil)
          (PValues.cons
            (PValue.vmodel
              (Schema.cons ['c'] (Field.fStr Option.none false (SVal.str ['X']))
                Schema.nil)
              (PValues.cons (PValue.vstr ['X']) PValues.nil)) PValues.nil)) from by
      rw [modelCleanValue]
      rw [show initModel
          (Schema.cons ['b'] (Field.fModel Option.none true SVal.none ['S']
            (Schema.cons ['c'] (Field.fStr Option.none false (SVal.str ['X']))
              Schema.nil)) Schema.nil)
          (kwFrom
            (Schema.cons ['b'] (Field.fModel Option.none true SVal.none ['S']
              (Schema.cons ['c'] (Field.fStr Option.none false (SVal.str ['X']))
                Schema.nil)) Schema.nil)
            (Schema.cons ['b'] (Field.fModel Option.none true SVal.none ['S']
              (Schema.cons ['c'] (Field.fStr Option.none false (SVal.str ['X']))
                Schema.nil)) Schema.nil)
            (PValues.cons
              (PValue.vmodel
                (Schema.cons ['c'] (Field.fStr Option.none false (SVal.str ['X']))
                  Schema.nil)
                (PValues.cons (PValue.vstr ['X']) PValues.nil)) PValues.nil))
          = Except.ok (PValues.cons
              (PValue.vmodel
                (Schema.cons ['c'] (Field.fStr Option.none false (SVal.str ['X']))
                  Schema.nil)
                (PValues.cons (PValue.vstr ['X']) PValues.nil)) PValues.nil) from by
        rw [initModel]
        rw [show lookupKw (kwFrom
            (Schema.cons ['b'] (Field.fModel Option.none true SVal.none ['S']
              (Schema.cons ['c'] (Field.fStr Option.none false (SVal.str ['X']))
                Schema.nil)) Schema.nil)
            (Schema.cons ['b'] (Field.fModel Option.none true SVal.none ['S']
              (Schema.cons ['c'] (Field.fStr Option.none false (SVal.str ['X']))
                Schema.nil)) Schema.nil)
            (PValues.cons
              (PValue.vmodel
                (Schema.cons ['c'] (Field.fStr Option.none false (SVal.str ['X']))
                  Schema.nil)
                (PValues.cons (PValue.vstr ['X']) PValues.nil)) PValues.nil)) ['b']
          = PValue.vmodel
              (Schema.cons ['c'] (Field.fStr Option.none false (SVal.str ['X']))
                Schema.nil)
              (PValues.cons (PValue.vstr ['X']) PValues.nil) from by
          simp [kwFrom, schemaNames, getattrP, lookupKw, List.find?]]
        rw [if_neg (by simp), hcopyB, res_bind_ok]
        dsimp only
        rw [hcopyB, res_bind_ok]
        rw [show initModel Schema.nil (kwFrom
            (Schema.cons ['b'] (Field.fModel Option.none true SVal.none ['S']
              (Schema.cons ['c'] (Field.fStr Option.none false (SVal.str ['X']))
                Schema.nil)) Schema.nil)
            (Schema.cons ['b'] (Field.fModel Option.none true SVal.none ['S']
              (Schema.cons ['c'] (Field.fStr Option.none false (SVal.str ['X']))
                Schema.nil)) Schema.nil)
            (PValues.cons
              (PValue.vmodel
                (Schema.cons ['c'] (Field.fStr Option.none false (SVal.str ['X']))
                  Schema.nil)
                (PValues.cons (PValue.vstr ['X']) PValues.nil)) PValues.nil))
          = Except.ok PValues.nil from by rw [initModel]]
        rw [res_bind_ok]
        rfl]
      rw [res_map_ok]]
    rw [res_bind_ok]
    simp [hasValueModel, hasValueField, pure, Except.pure]
  · refine ⟨Xml.el ['R'] Option.none (XmlList.ofList
      [Xml.el ['S'] Option.none (XmlList.ofList
        [Xml.el (resolvedTag ['c'] (Field.fStr Option.none false (SVal.str ['X'])))
          (some ['X']) XmlList.nil])]), ?_, ?_⟩
    · have hclX : cleanField (Field.fStr Option.none false (SVal.str ['X']))
          (PValue.vstr ['X']) = Except.ok (PValue.vstr ['X']) := by
        rw [cleanField]
        simp [strClean, applyDefault, pyStr]
      have hemC : emitField
          (resolvedTag ['c'] (Field.fStr Option.none false (SVal.str ['X'])))
          (Field.fStr Option.none false (SVal.str ['X'])) (PValue.vstr ['X'])
          = Except.ok [Xml.el
              (resolvedTag ['c'] (Field.fStr Option.none false (SVal.str ['X'])))
              (some ['X']) XmlList.nil] := by
        rw [emitField_scalar_eq _ (by simp [isScalarField])]
        rw [hclX, res_bind_ok, if_pos (by simp [hasValueField])]
        simp [pure, Except.pure, fieldToStr, pyStr]
      have hemSub : emitModel
          (Schema.cons ['c'] (Field.fStr Option.none false (SVal.str ['X']))
            Schema.nil)
          (PValues.cons (PValue.vstr ['X']) PValues.nil)
          = Except.ok [Xml.el
              (resolvedTag ['c'] (Field.fStr Option.none false (SVal.str ['X'])))
              (some ['X']) XmlList.nil] := by
        rw [emitModel, hemC, res_bind_ok]
        rw [show emitModel Schema.nil PValues.nil = Except.ok [] from by
          simp [emitModel]]
        rw [res_bind_ok]
        rfl
      have hemB : emitField
          (resolvedTag ['b'] (Field.fModel Option.none true SVal.none ['S']
            (Schema.cons ['c'] (Field.fStr Option.none false (SVal.str ['X']))
              Schema.nil)))
          (Field.fModel Option.none true SVal.none ['S']
            (Schema.cons ['c'] (Field.fStr Option.none false (SVal.str ['X']))
              Schema.nil))
          (PValue.vmodel
            (Schema.cons ['c'] (Field.fStr Option.none false (SVal.str ['X']))
              Schema.nil)
            (PValues.cons (PValue.vstr ['X']) PValues.nil))
          = Except.ok [Xml.el ['S'] Option.none (XmlList.ofList
              [Xml.el (resolvedTag ['c']
                  (Field.fStr Option.none false (SVal.str ['X'])))
                (some ['X']) XmlList.nil])] := by
        rw [emitField]
        rw [hcopyB, res_bind_ok]
        rw [if_pos (by simp [hasValueField, hasValueModel])]
        have hrest : (do
            let cs ← emitModel
              (Schema.cons ['c'] (Field.fStr Option.none false (SVal.str ['X']))
                Schema.nil)
              (PValues.cons (PValue.vstr ['X']) PValues.nil)
            pure [Xml.el ['S'] Option.none (XmlList.ofList cs)] : Res (List Xml))
            = Except.ok [Xml.el ['S'] Option.none (XmlList.ofList
                [Xml.el (resolvedTag ['c']
                    (Field.fStr Option.none false (SVal.str ['X'])))
                  (some ['X']) XmlList.nil])] := by
          rw [hemSub, res_bind_ok]
          rfl
        exact hrest
      rw [modelToXml]
      rw [show emitModel
          (Schema.cons ['b'] (Field.fModel Option.none true SVal.none ['S']
            (Schema.cons ['c'] (Field.fStr Option.none false (SVal.str ['X']))
              Schema.nil)) Schema.nil)
          (PValues.cons
            (PValue.vmodel
              (Schema.cons ['c'] (Field.fStr Option.none false (SVal.str ['X']))
                Schema.nil)
              (PValues.cons (PValue.vstr ['X']) PValues.nil)) PValues.nil)
          = Except.ok [Xml.el ['S'] Option.none (XmlList.ofList
              [Xml.el (resolvedTag ['c']
                  (Field.fStr Option.none false (SVal.str ['X'])))
                (some ['X']) XmlList.nil])] from by
        rw [emitModel, hemB, res_bind_ok]
        rw [show emitModel Schema.nil PValues.nil = Except.ok [] from by
          simp [emitModel]]
        rw [res_bind_ok]
        rfl]
      rw [res_map_ok]
    · intro hcontra
      have := congrArg Xml.children hcontra
      simp [Xml.children, XmlList.ofList] at this

end A38
